import Mathlib

/-!
Pack computation of `packer`: a shallow embedding of `computer.go` and `pack.go`
(internal/rest/order/pack) and of the set-config handler of `handler.go`, with the
properties of `ComputePacks`, of its phases and of the validation around it.

* Go `int` is modelled by `Int`.  The first sections compute on unbounded integers and
  allocate any length that is not negative.  The section on 64-bit integers repeats
  `computer.go` with every operation wrapped to 64 bits (`wrap64`) and an allocation
  that fails above `maxLen` elements; `ComputePacks64_eq` and `optimizePacks64_eq` show
  that the two agree while nothing wraps and the slices can be made.
* Go slices `[]int` are `List Int`; a read or write outside `0 .. len-1` is the
  fault `Fault.indexOutOfRange` instead of a panic.  Where the nil slice matters
  (`SizesValid`, `RemoveDuplicateSizes`, the handler) a slice is an `IntSlice`.
* Go `map[int]int` is an association list with pairwise distinct keys.  A missing
  key reads as `0`, a new key is appended, and `range` visits the entries in list
  order.  Go leaves that order unspecified: `ComputePacksRun` describes the runs in
  which every `range` picks an order of its own, and they agree with the fixed order
  up to the order of the returned entries.
* The only unbounded loop, the reconstruction walk of `computePacksByUsedPackSizes`,
  runs on fuel `len(usedPackSizes)`: a terminating walk visits pairwise distinct
  positive targets below `len`, so running out of fuel means the Go loop never ends.
* The repository and the JSON decoder are parameters of the handler: the decoded body
  is an `Option Config` and `SetConfig` is a function telling whether it fails.
-/

namespace Packer

/-! ## Data model -/

/-- Runtime failures of the Go program that the embedding makes explicit. -/
inductive Fault where
  | indexOutOfRange
  | lenOutOfRange
  | diverges
  deriving DecidableEq, Repr

/-- Modelled from the spec: the type `Pack` of package `pack`, whose declaration is not
among the sources: a (size, quantity) pair, with the fields `Size` and `Quantity` that
`toPackModelSlice` and `EqualSlice` use. -/
structure Pack where
  Size : Int
  Quantity : Int
  deriving DecidableEq, Repr

/-- A Go `map[int]int` from pack size to quantity. -/
abbrev QuantityByPack := List (Int × Int)

/-! ## Slices and maps -/

/-- The allocation `make([]int, n)` with no limit on the length: it panics for a negative
length only.  `makeSlice64` is the allocation on a machine with bounded memory. -/
def makeSlice (n : Int) : Except Fault (List Int) :=
  if 0 ≤ n then .ok (List.replicate n.toNat 0) else .error .lenOutOfRange

/-- The slice read `xs[i]`. -/
def index (xs : List Int) (i : Int) : Except Fault Int :=
  if 0 ≤ i ∧ i < xs.length then .ok (xs.getD i.toNat 0) else .error .indexOutOfRange

/-- The slice write `xs[i] = v`. -/
def store (xs : List Int) (i : Int) (v : Int) : Except Fault (List Int) :=
  if 0 ≤ i ∧ i < xs.length then .ok (xs.set i.toNat v) else .error .indexOutOfRange

/-- The map read `m[k]`, which is `0` for a missing key. -/
def lookup : QuantityByPack → Int → Int
  | [], _ => 0
  | (k', v) :: rest, k => if k' = k then v else lookup rest k

/-- The map write `m[k] = v`. -/
def assign : QuantityByPack → Int → Int → QuantityByPack
  | [], k, v => [(k, v)]
  | (k', v') :: rest, k, v => if k' = k then (k, v) :: rest else (k', v') :: assign rest k v

/-! ## computer.go -/

/-- The function `Computer.isValidInput`. -/
def isValidInput (packSizes : List Int) (orderSize : Int) : Bool :=
  decide (packSizes.length > 0) && decide (orderSize > 0)

/-- The function `Computer.cloneAndSort`: an ascending sorted copy. -/
def cloneAndSort (s : List Int) : List Int :=
  s.insertionSort (· ≤ ·)

/-- The function `Computer.fillWithPlaceholderFromIndex`: every position from `index` on
is overwritten with `placeholder`. -/
def fillWithPlaceholderFromIndex (numPacks : List Int) (placeholder : Int) (index : Nat) :
    List Int :=
  numPacks.take index ++ List.replicate (numPacks.length - index) placeholder

/-- The two working slices of `computeRawPacks`. -/
structure Tables where
  numPacks : List Int
  usedPackSizes : List Int
  deriving DecidableEq, Repr

/-- The inner loop of `computeRawPacks` (`for _, packSize := range packSizes`) for one
`targetOrderSize`, with its `break` on the first size that exceeds the target. -/
def sizeLoop (targetOrderSize : Int) : List Int → Tables → Except Fault Tables
  | [], tb => .ok tb
  | packSize :: rest, tb =>
    if targetOrderSize - packSize < 0 then .ok tb
    else
      match index tb.numPacks (targetOrderSize - packSize), index tb.numPacks targetOrderSize with
      | .ok a, .ok b =>
        if a + 1 < b then
          match store tb.numPacks targetOrderSize (a + 1),
              store tb.usedPackSizes targetOrderSize packSize with
          | .ok np, .ok us => sizeLoop targetOrderSize rest ⟨np, us⟩
          | .error e, _ => .error e
          | _, .error e => .error e
        else sizeLoop targetOrderSize rest tb
      | .error e, _ => .error e
      | _, .error e => .error e

/-- The outer loop of `computeRawPacks`
(`for targetOrderSize := 1; targetOrderSize < len(numPacks); targetOrderSize++`):
`n` iterations are left and the next target is `targetOrderSize`. -/
def targetLoop (packSizes : List Int) : Nat → Int → Tables → Except Fault Tables
  | 0, _, tb => .ok tb
  | n + 1, targetOrderSize, tb =>
    match sizeLoop targetOrderSize packSizes tb with
    | .ok tb' => targetLoop packSizes n (targetOrderSize + 1) tb'
    | .error e => .error e

/-- The loop of `computePacksByUsedPackSizes` (`for targetOrderSize > 0`), on fuel. -/
def walk (usedPackSizes : List Int) : Nat → Int → List Int → Except Fault (List Int)
  | 0, targetOrderSize, result =>
    if targetOrderSize > 0 then .error .diverges else .ok result
  | fuel + 1, targetOrderSize, result =>
    if targetOrderSize > 0 then
      match index usedPackSizes targetOrderSize with
      | .ok s => walk usedPackSizes fuel (targetOrderSize - s) (result ++ [s])
      | .error e => .error e
    else .ok result

/-- The function `Computer.computePacksByUsedPackSizes`. -/
def computePacksByUsedPackSizes (usedPackSizes : List Int) : Except Fault (List Int) :=
  walk usedPackSizes usedPackSizes.length ((usedPackSizes.length : Int) - 1) []

/-- The function `Computer.computeRawPacks`. -/
def computeRawPacks (packSizes : List Int) (orderSize : Int) : Except Fault (List Int) :=
  match makeSlice (orderSize + 1), makeSlice (orderSize + 1) with
  | .ok numPacks, .ok usedPackSizes =>
    let placeholder := orderSize + 1
    let numPacks := fillWithPlaceholderFromIndex numPacks placeholder 1
    match packSizes with
    | [] => .error .indexOutOfRange
    | smallestPackSize :: _ =>
      let usedPackSizes := fillWithPlaceholderFromIndex usedPackSizes smallestPackSize 1
      match targetLoop packSizes (numPacks.length - 1) 1 ⟨numPacks, usedPackSizes⟩ with
      | .ok tb => computePacksByUsedPackSizes tb.usedPackSizes
      | .error e => .error e
  | .error e, _ => .error e
  | _, .error e => .error e

/-- The function `Computer.packSliceToQuantityByPackMap`. -/
def packSliceToQuantityByPackMap (packs : List Int) : QuantityByPack :=
  packs.foldl (fun result pack => assign result pack (lookup result pack + 1)) []

/-- The innermost loop of `mergeToPackSize` (`for i := 0; i < quantity; i++`): `n`
iterations are left, `sum` and `count` are the running accumulators, on unbounded integers.
`unitLoop64` is the same loop with the wrap-around of `sum += pack`. -/
def unitLoop (packSize pack : Int) : Nat → Int → Int → QuantityByPack → QuantityByPack
  | 0, _, _, result => result
  | n + 1, sum, count, result =>
    if sum + pack = packSize then
      let result1 := assign result pack (lookup result pack - (count + 1))
      unitLoop packSize pack n 0 0 (assign result1 packSize (lookup result1 packSize + 1))
    else unitLoop packSize pack n (sum + pack) (count + 1) result

/-- The loop `for pack, quantity := range quantityByPack` of `mergeToPackSize`, visiting
the given entries in order and updating `result`. -/
def mergeEntries (packSize : Int) (entries : List (Int × Int)) (result : QuantityByPack) :
    QuantityByPack :=
  entries.foldl (fun r e => unitLoop packSize e.1 e.2.toNat 0 0 r) result

/-- The function `Computer.mergeToPackSize`: `result` starts as a clone of the map whose
entries are visited. -/
def mergeToPackSize (packSize : Int) (quantityByPack : QuantityByPack) : QuantityByPack :=
  mergeEntries packSize quantityByPack quantityByPack

/-- The function `Computer.mergeToLargerPacks`: the targets are
`packSizes[len-1], ..., packSizes[1]` in this order. -/
def mergeToLargerPacks (packSizes : List Int) (quantityByPack : QuantityByPack) :
    QuantityByPack :=
  (packSizes.drop 1).reverse.foldl (fun m packSize => mergeToPackSize packSize m) quantityByPack

/-- The function `Computer.quantityByPackMapToPackSlice`. -/
def quantityByPackMapToPackSlice : QuantityByPack → List Int
  | [] => []
  | (pack, quantity) :: rest =>
    List.replicate quantity.toNat pack ++ quantityByPackMapToPackSlice rest

/-- The function `Computer.optimizePacks`. -/
def optimizePacks (packSizes packs : List Int) : List Int :=
  quantityByPackMapToPackSlice (mergeToLargerPacks packSizes (packSliceToQuantityByPackMap packs))

/-- The function `Computer.toPackModelSlice`. -/
def toPackModelSlice (packs : List Int) : List Pack :=
  if packs.length = 0 then []
  else
    ((packSliceToQuantityByPackMap packs).filter (fun e => decide (e.2 > 0))).map
      (fun e => { Size := e.1, Quantity := e.2 })

/-- The function `Computer.compute`. -/
def compute (packSizes : List Int) (orderSize : Int) : Except Fault (List Pack) :=
  match computeRawPacks packSizes orderSize with
  | .ok rawPacks => .ok (toPackModelSlice (optimizePacks packSizes rawPacks))
  | .error e => .error e

/-- The function `Computer.ComputePacks`. -/
def ComputePacks (packSizes : List Int) (orderSize : Int) : Except Fault (List Pack) :=
  if !isValidInput packSizes orderSize then .ok []
  else compute (cloneAndSort packSizes) orderSize

/-! ## pack.go -/

/-- A Go value of type `[]int`; `none` is the nil slice. -/
abbrev IntSlice := Option (List Int)

/-- The elements of a slice, which `len` counts and `range` visits; the nil slice has none. -/
def sliceElems : IntSlice → List Int
  | none => []
  | some l => l

/-- The loop of `SizesValid`, which returns `false` at the first size that is not above
zero and `true` when it runs to the end. -/
def sizesValidLoop : List Int → Bool
  | [] => true
  | packSize :: rest => if packSize ≤ 0 then false else sizesValidLoop rest

/-- The function `SizesValid`. -/
def SizesValid (packSizes : IntSlice) : Bool :=
  if packSizes.isNone || (sliceElems packSizes).length == 0 then false
  else sizesValidLoop (sliceElems packSizes)

/-- A Go `map[int]bool`, with the same conventions as `QuantityByPack`. -/
abbrev SizeSet := List (Int × Bool)

/-- The map write `result[packSize] = true`. -/
def setTrue : SizeSet → Int → SizeSet
  | [], k => [(k, true)]
  | (k', v) :: rest, k => if k' = k then (k, true) :: rest else (k', v) :: setTrue rest k

/-- The function `sliceToSet`. -/
def sliceToSet (packSizes : IntSlice) : SizeSet :=
  (sliceElems packSizes).foldl setTrue []

/-- The function `setToSlice`: `result` starts as the nil slice and every key is appended. -/
def setToSlice (packSizes : SizeSet) : IntSlice :=
  packSizes.foldl (fun result e => some (sliceElems result ++ [e.1])) none

/-- The function `RemoveDuplicateSizes`. -/
def RemoveDuplicateSizes (packSizes : IntSlice) : IntSlice :=
  setToSlice (sliceToSet packSizes)

/-- The inner loop of `EqualSlice`: whether some `p2` of `s2` has the size and the quantity
of `p1`. -/
def foundIn (p1 : Pack) : List Pack → Bool
  | [] => false
  | p2 :: rest =>
    if p1.Size = p2.Size ∧ p1.Quantity = p2.Quantity then true else foundIn p1 rest

/-- The outer loop of `EqualSlice`, which returns `false` at the first `p1` not found. -/
def equalSliceLoop : List Pack → List Pack → Bool
  | [], _ => true
  | p1 :: rest, s2 => if !foundIn p1 s2 then false else equalSliceLoop rest s2

/-- The function `EqualSlice`. -/
def EqualSlice (s1 s2 : List Pack) : Bool :=
  if s1.length ≠ s2.length then false else equalSliceLoop s1 s2

/-! ## handler.go, model.go, error_response.go -/

/-- The type `Config` of package `order` (model.go): the body of a set-config request. -/
structure Config where
  PackSizes : IntSlice
  deriving DecidableEq, Repr

/-- Modelled from the spec: the type `repository.Config`, whose declaration is not among
the sources: the persisted configuration `{packSizes}` that `SetConfig` receives. -/
structure RepositoryConfig where
  PackSizes : IntSlice
  deriving DecidableEq, Repr

/-- The type `ErrorResponse` (error_response.go). -/
structure ErrorResponse where
  Code : String
  Message : String
  deriving DecidableEq, Repr

/-- The value `errRespInvalidPayload`. -/
def errRespInvalidPayload : ErrorResponse :=
  { Code := "invalid_payload", Message := "Invalid payload." }

/-- The value `errRespInvalidPackSizes`. -/
def errRespInvalidPackSizes : ErrorResponse :=
  { Code := "invalid_pack_sizes",
    Message :=
      "Pack sizes should have at least one size and all sizes should be greater than zero." }

/-- The value `errRespInternalServerError`. -/
def errRespInternalServerError : ErrorResponse :=
  { Code := "internal_server_error", Message := "Internal server error." }

/-- The JSON body a handler writes: an error response or the configuration. -/
inductive ResponseBody where
  | error (e : ErrorResponse)
  | config (cfg : Config)
  deriving DecidableEq, Repr

/-- What `writeMessageWithStatusResponse` writes: a status code and a body. -/
structure Response where
  status : Nat
  body : ResponseBody
  deriving DecidableEq, Repr

/-- What one call of a handler does: the configurations it passed to the repository's
`SetConfig`, in order, and the response it wrote. -/
structure Outcome where
  setConfigCalls : List RepositoryConfig
  response : Response
  deriving DecidableEq, Repr

/-- The function `Handler.writeBadRequestResponse` (`http.StatusBadRequest` is 400);
`json.Marshal` of an `ErrorResponse` cannot fail. -/
def writeBadRequestResponse (errResp : ErrorResponse) : Response :=
  { status := 400, body := .error errResp }

/-- The function `Handler.writeInternalServerErrorResponse`
(`http.StatusInternalServerError` is 500). -/
def writeInternalServerErrorResponse : Response :=
  { status := 500, body := .error errRespInternalServerError }

/-- The function `Handler.saveConfig`: the call it makes to `SetConfig` and whether that
call returned an error.  The repository is the function `setConfigFails`. -/
def saveConfig (setConfigFails : RepositoryConfig → Bool) (cfg : Config) :
    List RepositoryConfig × Bool :=
  let packSizes := RemoveDuplicateSizes cfg.PackSizes
  ([{ PackSizes := packSizes }], setConfigFails { PackSizes := packSizes })

/-- The function `Handler.handleSetConfig`.  `decoded` is the result of decoding the
request body (`none` when `Decode` returns an error); `json.Marshal` of a `Config` cannot
fail (`http.StatusOK` is 200). -/
def handleSetConfig (decoded : Option Config) (setConfigFails : RepositoryConfig → Bool) :
    Outcome :=
  match decoded with
  | none => { setConfigCalls := [], response := writeBadRequestResponse errRespInvalidPayload }
  | some cfg =>
    if !SizesValid cfg.PackSizes then
      { setConfigCalls := [], response := writeBadRequestResponse errRespInvalidPackSizes }
    else
      match saveConfig setConfigFails cfg with
      | (calls, true) => { setConfigCalls := calls, response := writeInternalServerErrorResponse }
      | (calls, false) =>
        { setConfigCalls := calls, response := { status := 200, body := .config cfg } }

/-! ## The dynamic program on its own, and the variant without early exit -/

/-- The first part of `computeRawPacks` (lines 44 to 64): the two slices once both loops
have finished, before the reconstruction walk. -/
def computeTables (packSizes : List Int) (orderSize : Int) : Except Fault Tables :=
  match makeSlice (orderSize + 1), makeSlice (orderSize + 1) with
  | .ok numPacks, .ok usedPackSizes =>
    let placeholder := orderSize + 1
    let numPacks := fillWithPlaceholderFromIndex numPacks placeholder 1
    match packSizes with
    | [] => .error .indexOutOfRange
    | smallestPackSize :: _ =>
      let usedPackSizes := fillWithPlaceholderFromIndex usedPackSizes smallestPackSize 1
      targetLoop packSizes (numPacks.length - 1) 1 ⟨numPacks, usedPackSizes⟩
  | .error e, _ => .error e
  | _, .error e => .error e

/-- The inner loop as the specification's alternative reading has it: a size that exceeds
the target is skipped and the scan goes on with the remaining sizes (`continue` in place
of `break`). -/
def sizeLoopSkipping (targetOrderSize : Int) : List Int → Tables → Except Fault Tables
  | [], tb => .ok tb
  | packSize :: rest, tb =>
    if targetOrderSize - packSize < 0 then sizeLoopSkipping targetOrderSize rest tb
    else
      match index tb.numPacks (targetOrderSize - packSize), index tb.numPacks targetOrderSize with
      | .ok a, .ok b =>
        if a + 1 < b then
          match store tb.numPacks targetOrderSize (a + 1),
              store tb.usedPackSizes targetOrderSize packSize with
          | .ok np, .ok us => sizeLoopSkipping targetOrderSize rest ⟨np, us⟩
          | .error e, _ => .error e
          | _, .error e => .error e
        else sizeLoopSkipping targetOrderSize rest tb
      | .error e, _ => .error e
      | _, .error e => .error e

/-- The outer loop over the targets, with the skipping inner loop. -/
def targetLoopSkipping (packSizes : List Int) : Nat → Int → Tables → Except Fault Tables
  | 0, _, tb => .ok tb
  | n + 1, targetOrderSize, tb =>
    match sizeLoopSkipping targetOrderSize packSizes tb with
    | .ok tb' => targetLoopSkipping packSizes n (targetOrderSize + 1) tb'
    | .error e => .error e

/-- The tables computed with the skipping inner loop. -/
def computeTablesSkipping (packSizes : List Int) (orderSize : Int) : Except Fault Tables :=
  match makeSlice (orderSize + 1), makeSlice (orderSize + 1) with
  | .ok numPacks, .ok usedPackSizes =>
    let placeholder := orderSize + 1
    let numPacks := fillWithPlaceholderFromIndex numPacks placeholder 1
    match packSizes with
    | [] => .error .indexOutOfRange
    | smallestPackSize :: _ =>
      let usedPackSizes := fillWithPlaceholderFromIndex usedPackSizes smallestPackSize 1
      targetLoopSkipping packSizes (numPacks.length - 1) 1 ⟨numPacks, usedPackSizes⟩
  | .error e, _ => .error e
  | _, .error e => .error e

/-- The raw pack list computed with the skipping inner loop. -/
def computeRawPacksSkipping (packSizes : List Int) (orderSize : Int) :
    Except Fault (List Int) :=
  match computeTablesSkipping packSizes orderSize with
  | .ok tb => computePacksByUsedPackSizes tb.usedPackSizes
  | .error e => .error e

/-! ## Runs in which every `range` over a map picks its own visiting order -/

/-- The assignments `mergeToLargerPacks` can end with over the given targets, when each
`range quantityByPack` of `mergeToPackSize` visits the entries in an order `es` of its
own. -/
inductive MergeRun : List Int → QuantityByPack → QuantityByPack → Prop
  | done (m : QuantityByPack) : MergeRun [] m m
  | step (T : Int) (ts : List Int) (m : QuantityByPack) (es : List (Int × Int))
      (out : QuantityByPack) :
      es.Perm m → MergeRun ts (mergeEntries T es m) out → MergeRun (T :: ts) m out

/-- The slices `optimizePacks` can return: the merge passes and the final `range` of
`quantityByPackMapToPackSlice` each pick a visiting order. -/
def OptimizeRun (packSizes packs out : List Int) : Prop :=
  ∃ (merged : QuantityByPack) (es : List (Int × Int)),
    MergeRun (packSizes.drop 1).reverse (packSliceToQuantityByPackMap packs) merged ∧
      es.Perm merged ∧ out = quantityByPackMapToPackSlice es

/-- The slices `toPackModelSlice` can return, its `range` picking a visiting order. -/
def ToPackModelRun (packs : List Int) (out : List Pack) : Prop :=
  if packs.length = 0 then out = []
  else
    ∃ es : List (Int × Int), es.Perm (packSliceToQuantityByPackMap packs) ∧
      out = (es.filter (fun e => decide (e.2 > 0))).map
        (fun e => { Size := e.1, Quantity := e.2 })

/-- The results `compute` can return. -/
def ComputeRun (packSizes : List Int) (orderSize : Int) (out : List Pack) : Prop :=
  ∃ rawPacks optimizedPacks, computeRawPacks packSizes orderSize = .ok rawPacks ∧
    OptimizeRun packSizes rawPacks optimizedPacks ∧ ToPackModelRun optimizedPacks out

/-- The results `ComputePacks` can return. -/
def ComputePacksRun (packSizes : List Int) (orderSize : Int) (out : List Pack) : Prop :=
  if isValidInput packSizes orderSize = true then
    ComputeRun (cloneAndSort packSizes) orderSize out
  else out = []

/-! ## The program on 64-bit integers

The definitions above compute on unbounded integers.  The definitions of this section
are the same program with every arithmetic operation of `computer.go` reduced to a 64-bit
two's complement `int`, and with an allocation that can fail. -/

/-- The value a Go `int` (64 bits, two's complement) holds after an operation whose exact
result is `x`. -/
def wrap64 (x : Int) : Int := (x + 2 ^ 63) % 2 ^ 64 - 2 ^ 63

/-- The allocation `make([]int, n)` on a machine that can allocate slices of at most
`maxLen` elements: it panics for a negative length and for a length above `maxLen` (the Go
runtime allows at most `maxAlloc / 8` elements, which is `2 ^ 45` on linux/amd64). -/
def makeSlice64 (maxLen : Nat) (n : Int) : Except Fault (List Int) :=
  if 0 ≤ n ∧ n ≤ maxLen then .ok (List.replicate n.toNat 0) else .error .lenOutOfRange

/-- The inner loop of `computeRawPacks` on 64-bit integers. -/
def sizeLoop64 (targetOrderSize : Int) : List Int → Tables → Except Fault Tables
  | [], tb => .ok tb
  | packSize :: rest, tb =>
    if wrap64 (targetOrderSize - packSize) < 0 then .ok tb
    else
      match index tb.numPacks (wrap64 (targetOrderSize - packSize)),
          index tb.numPacks targetOrderSize with
      | .ok a, .ok b =>
        if wrap64 (a + 1) < b then
          match store tb.numPacks targetOrderSize (wrap64 (a + 1)),
              store tb.usedPackSizes targetOrderSize packSize with
          | .ok np, .ok us => sizeLoop64 targetOrderSize rest ⟨np, us⟩
          | .error e, _ => .error e
          | _, .error e => .error e
        else sizeLoop64 targetOrderSize rest tb
      | .error e, _ => .error e
      | _, .error e => .error e

/-- The outer loop of `computeRawPacks` on 64-bit integers. -/
def targetLoop64 (packSizes : List Int) : Nat → Int → Tables → Except Fault Tables
  | 0, _, tb => .ok tb
  | n + 1, targetOrderSize, tb =>
    match sizeLoop64 targetOrderSize packSizes tb with
    | .ok tb' => targetLoop64 packSizes n (wrap64 (targetOrderSize + 1)) tb'
    | .error e => .error e

/-- The loop of `computePacksByUsedPackSizes` on 64-bit integers, on fuel. -/
def walk64 (usedPackSizes : List Int) : Nat → Int → List Int → Except Fault (List Int)
  | 0, targetOrderSize, result =>
    if targetOrderSize > 0 then .error .diverges else .ok result
  | fuel + 1, targetOrderSize, result =>
    if targetOrderSize > 0 then
      match index usedPackSizes targetOrderSize with
      | .ok s => walk64 usedPackSizes fuel (wrap64 (targetOrderSize - s)) (result ++ [s])
      | .error e => .error e
    else .ok result

/-- The function `Computer.computePacksByUsedPackSizes` on 64-bit integers. -/
def computePacksByUsedPackSizes64 (usedPackSizes : List Int) : Except Fault (List Int) :=
  walk64 usedPackSizes usedPackSizes.length ((usedPackSizes.length : Int) - 1) []

/-- The first part of `computeRawPacks` (lines 44 to 64) on 64-bit integers, on a machine
that allocates at most `maxLen` elements. -/
def computeTables64 (maxLen : Nat) (packSizes : List Int) (orderSize : Int) :
    Except Fault Tables :=
  match makeSlice64 maxLen (wrap64 (orderSize + 1)), makeSlice64 maxLen (wrap64 (orderSize + 1)) with
  | .ok numPacks, .ok usedPackSizes =>
    let placeholder := wrap64 (orderSize + 1)
    let numPacks := fillWithPlaceholderFromIndex numPacks placeholder 1
    match packSizes with
    | [] => .error .indexOutOfRange
    | smallestPackSize :: _ =>
      let usedPackSizes := fillWithPlaceholderFromIndex usedPackSizes smallestPackSize 1
      targetLoop64 packSizes (numPacks.length - 1) 1 ⟨numPacks, usedPackSizes⟩
  | .error e, _ => .error e
  | _, .error e => .error e

/-- The function `Computer.computeRawPacks` on 64-bit integers. -/
def computeRawPacks64 (maxLen : Nat) (packSizes : List Int) (orderSize : Int) :
    Except Fault (List Int) :=
  match computeTables64 maxLen packSizes orderSize with
  | .ok tb => computePacksByUsedPackSizes64 tb.usedPackSizes
  | .error e => .error e

/-- The function `Computer.packSliceToQuantityByPackMap` on 64-bit integers. -/
def packSliceToQuantityByPackMap64 (packs : List Int) : QuantityByPack :=
  packs.foldl (fun result pack => assign result pack (wrap64 (lookup result pack + 1))) []

/-- The innermost loop of `mergeToPackSize` on 64-bit integers: `sum += pack`, `count++`,
`result[pack] -= count` and `result[packSize]++` all wrap. -/
def unitLoop64 (packSize pack : Int) : Nat → Int → Int → QuantityByPack → QuantityByPack
  | 0, _, _, result => result
  | n + 1, sum, count, result =>
    if wrap64 (sum + pack) = packSize then
      let result1 := assign result pack (wrap64 (lookup result pack - wrap64 (count + 1)))
      unitLoop64 packSize pack n 0 0
        (assign result1 packSize (wrap64 (lookup result1 packSize + 1)))
    else unitLoop64 packSize pack n (wrap64 (sum + pack)) (wrap64 (count + 1)) result

/-- The loop over the entries of `mergeToPackSize` on 64-bit integers. -/
def mergeEntries64 (packSize : Int) (entries : List (Int × Int)) (result : QuantityByPack) :
    QuantityByPack :=
  entries.foldl (fun r e => unitLoop64 packSize e.1 e.2.toNat 0 0 r) result

/-- The function `Computer.mergeToPackSize` on 64-bit integers. -/
def mergeToPackSize64 (packSize : Int) (quantityByPack : QuantityByPack) : QuantityByPack :=
  mergeEntries64 packSize quantityByPack quantityByPack

/-- The function `Computer.mergeToLargerPacks` on 64-bit integers. -/
def mergeToLargerPacks64 (packSizes : List Int) (quantityByPack : QuantityByPack) :
    QuantityByPack :=
  (packSizes.drop 1).reverse.foldl (fun m packSize => mergeToPackSize64 packSize m)
    quantityByPack

/-- The function `Computer.optimizePacks` on 64-bit integers. -/
def optimizePacks64 (packSizes packs : List Int) : List Int :=
  quantityByPackMapToPackSlice
    (mergeToLargerPacks64 packSizes (packSliceToQuantityByPackMap64 packs))

/-- The function `Computer.toPackModelSlice` on 64-bit integers. -/
def toPackModelSlice64 (packs : List Int) : List Pack :=
  if packs.length = 0 then []
  else
    ((packSliceToQuantityByPackMap64 packs).filter (fun e => decide (e.2 > 0))).map
      (fun e => { Size := e.1, Quantity := e.2 })

/-- The function `Computer.compute` on 64-bit integers. -/
def compute64 (maxLen : Nat) (packSizes : List Int) (orderSize : Int) :
    Except Fault (List Pack) :=
  match computeRawPacks64 maxLen packSizes orderSize with
  | .ok rawPacks => .ok (toPackModelSlice64 (optimizePacks64 packSizes rawPacks))
  | .error e => .error e

/-- The function `Computer.ComputePacks` on 64-bit integers, on a machine that allocates
slices of at most `maxLen` elements. -/
def ComputePacks64 (maxLen : Nat) (packSizes : List Int) (orderSize : Int) :
    Except Fault (List Pack) :=
  if !isValidInput packSizes orderSize then .ok []
  else compute64 maxLen (cloneAndSort packSizes) orderSize

/-! ## Auxiliary definitions for the proofs -/

/-- The value of slice `xs` at position `i`, for reasoning about in-range reads. -/
def cell (xs : List Int) (i : Int) : Int := xs.getD i.toNat 0

/-- The pair `(numPacks[t], usedPackSizes[t])` computed by the inner loop for target `t`,
as a function of the lower cells of `np`. -/
def scan (np : List Int) (t : Int) : List Int → Int × Int → Int × Int
  | [], vw => vw
  | s :: rest, vw =>
    if t - s < 0 then vw
    else if cell np (t - s) + 1 < vw.1 then scan np t rest (cell np (t - s) + 1, s)
    else scan np t rest vw

/-- A finished cell `t` of the tables: either it still holds the placeholder `P` and the
default size `s0`, or it records a size `s` with `numPacks[t] = numPacks[t - s] + 1`; and no
allowed size gives a smaller count. -/
structure CellOK (S : List Int) (P s0 : Int) (np used : List Int) (t : Int) : Prop where
  shape : (cell np t = P ∧ cell used t = s0) ∨
    (cell np t ≤ t ∧ cell used t ∈ S ∧ cell used t ≤ t ∧
      cell np (t - cell used t) + 1 = cell np t)
  closed : ∀ s ∈ S, s ≤ t → cell np t ≤ cell np (t - s) + 1

/-- The loop invariant of the outer loop of `computeRawPacks`: the cells below `B` are
finished, the cells from `B` on are untouched. -/
structure TablesInv (S : List Int) (N : Nat) (s0 : Int) (B : Int) (tb : Tables) : Prop where
  len_np : tb.numPacks.length = N + 1
  len_used : tb.usedPackSizes.length = N + 1
  zero : cell tb.numPacks 0 = 0
  done : ∀ t, 1 ≤ t → t < B → CellOK S (N + 1) s0 tb.numPacks tb.usedPackSizes t
  todo : ∀ t, B ≤ t → t ≤ N → cell tb.numPacks t = N + 1 ∧ cell tb.usedPackSizes t = s0

/-! ## Notions of the specification -/

/-- A combination of allowed packs, repetition allowed: a list of pack sizes each of which
is one of `packSizes`.  Its total is `c.sum` and its number of packs is `c.length`. -/
def IsCombination (packSizes : List Int) (c : List Int) : Prop :=
  ∀ x ∈ c, x ∈ packSizes

/-- The amount `n` can be written exactly as a sum of allowed pack sizes. -/
def Representable (packSizes : List Int) (n : Int) : Prop :=
  ∃ c, IsCombination packSizes c ∧ c.sum = n

/-- The total shipped quantity of a result: the sum of `Size * Quantity`. -/
def shippedTotal (packs : List Pack) : Int :=
  (packs.map (fun p => p.Size * p.Quantity)).sum

/-- The number of packs of a result: the sum of `Quantity`. -/
def packCount (packs : List Pack) : Int :=
  (packs.map (fun p => p.Quantity)).sum

/-- The keys of a map, in visiting order. -/
def keys (m : QuantityByPack) : List Int := m.map Prod.fst

/-- The total quantity held by an assignment: the sum of `size * quantity`. -/
def mapTotal (m : QuantityByPack) : Int := (m.map (fun e => e.1 * e.2)).sum

/-- The number of packs held by an assignment: the sum of the quantities. -/
def mapCount (m : QuantityByPack) : Int := (m.map (fun e => e.2)).sum

/-- No run of `1 .. c` units of size `pack` sums to exactly `packSize`. -/
def NoFire (packSize pack c : Int) : Prop := ∀ i : Int, 1 ≤ i → i ≤ c → i * pack ≠ packSize

/-- An assignment in good shape: distinct keys and no negative quantity. -/
structure WellFormed (m : QuantityByPack) : Prop where
  nodup : (keys m).Nodup
  nonneg : ∀ e ∈ m, 0 ≤ e.2

/-- The change that the innermost loop of `mergeToPackSize` makes to the quantity read at
key `k`; it depends on the visited entry only, not on `result`. -/
def unitDelta (packSize pack : Int) : Nat → Int → Int → Int → Int
  | 0, _, _, _ => 0
  | n + 1, sum, count, k =>
    if sum + pack = packSize then
      ((if k = packSize then 1 else 0) - (if k = pack then count + 1 else 0)) +
        unitDelta packSize pack n 0 0 k
    else unitDelta packSize pack n (sum + pack) (count + 1) k

/-- Whether the innermost loop of `mergeToPackSize` merges at least once. -/
def unitFires (packSize pack : Int) : Nat → Int → Bool
  | 0, _ => false
  | n + 1, sum => if sum + pack = packSize then true else unitFires packSize pack n (sum + pack)

/-- The number of packs that largest-first change-making uses for the amount `a` with the
sizes in the given order: as many packs of the first size as fit, then the same for the
remainder with the remaining sizes. -/
def greedyCount : List Int → Int → Int
  | [], _ => 0
  | T :: rest, a => a / T + greedyCount rest (a % T)

/-- A check on a descending list of sizes: for every size `T` and the next smaller size `S`,
with `m` the least number of packs of size `S` that cover `T`, largest-first change-making
with the sizes from `S` down pays the amount `m * S - T` with fewer than `m` packs. -/
def greedyFriendly : List Int → Bool
  | [] => true
  | [_] => true
  | T :: S :: rest =>
    decide (1 + greedyCount (S :: rest) ((T + S - 1) / S * S - T) ≤ (T + S - 1) / S) &&
      greedyFriendly (S :: rest)

/-! ## Slices -/

theorem index_eq_cell {xs : List Int} {i : Int} (h0 : 0 ≤ i) (h1 : i < xs.length) :
    index xs i = .ok (cell xs i) := by
  simp [index, cell, h0, h1]

theorem store_eq_set (xs : List Int) {i : Int} (v : Int) (h0 : 0 ≤ i) (h1 : i < xs.length) :
    store xs i v = .ok (xs.set i.toNat v) := by
  simp [store, h0, h1]

theorem cell_set_self {xs : List Int} {i : Int} (v : Int) (h0 : 0 ≤ i) (h1 : i < xs.length) :
    cell (xs.set i.toNat v) i = v := by
  have : i.toNat < xs.length := by omega
  simp [cell, this]

theorem cell_set_ne {xs : List Int} {i j : Int} (v : Int) (hi : 0 ≤ i) (hj : 0 ≤ j)
    (h : i ≠ j) : cell (xs.set i.toNat v) j = cell xs j := by
  have : i.toNat ≠ j.toNat := by omega
  simp [cell, this]

theorem set_cell_self {xs : List Int} {i : Int} (h0 : 0 ≤ i) (h1 : i < xs.length) :
    xs.set i.toNat (cell xs i) = xs := by
  have h : i.toNat < xs.length := by omega
  apply List.ext_getElem?
  intro n
  by_cases hn : i.toNat = n
  · subst hn
    simp [cell, h]
  · simp [hn]

/-! ## The dynamic program -/

theorem scan_congr (np np' : List Int) (t : Int) (l : List Int)
    (h : ∀ s ∈ l, 0 ≤ t - s → cell np' (t - s) = cell np (t - s)) (vw : Int × Int) :
    scan np' t l vw = scan np t l vw := by
  induction l generalizing vw with
  | nil => rfl
  | cons s rest ih =>
    have ih' := ih (fun x hx => h x (List.mem_cons_of_mem _ hx))
    simp only [scan]
    by_cases hs : t - s < 0
    · simp [hs]
    · have hc := h s (List.mem_cons_self _ _) (by omega)
      simp only [hs, if_false, hc, ih']

theorem sizeLoop_eq_scan (t : Int) (l : List Int) (hl : ∀ s ∈ l, 0 < s) (np used : List Int)
    (h0 : 0 ≤ t) (h1 : t < np.length) (h2 : t < used.length) :
    sizeLoop t l ⟨np, used⟩ =
      .ok ⟨np.set t.toNat (scan np t l (cell np t, cell used t)).1,
        used.set t.toNat (scan np t l (cell np t, cell used t)).2⟩ := by
  induction l generalizing np used with
  | nil => simp [sizeLoop, scan, set_cell_self h0 h1, set_cell_self h0 h2]
  | cons s rest ih =>
    have hs : 0 < s := hl s (List.mem_cons_self _ _)
    have hrest : ∀ x ∈ rest, 0 < x := fun x hx => hl x (List.mem_cons_of_mem _ hx)
    by_cases hb : t - s < 0
    · simp [sizeLoop, scan, hb, set_cell_self h0 h1, set_cell_self h0 h2]
    · have ha : index np (t - s) = .ok (cell np (t - s)) :=
        index_eq_cell (by omega) (by omega)
      have hbt : index np t = .ok (cell np t) := index_eq_cell h0 h1
      by_cases hlt : cell np (t - s) + 1 < cell np t
      · have hnp := store_eq_set np (cell np (t - s) + 1) h0 h1
        have hus := store_eq_set used s h0 h2
        have hcongr := scan_congr np (np.set t.toNat (cell np (t - s) + 1)) t rest
          (fun x hx hx0 => cell_set_ne _ h0 hx0 (by have := hrest x hx; omega))
        have := ih hrest (np.set t.toNat (cell np (t - s) + 1)) (used.set t.toNat s)
          (by simpa using h1) (by simpa using h2)
        simp only [sizeLoop, hb, if_false, ha, hbt, hlt, if_true, hnp, hus, this, scan,
          cell_set_self _ h0 h1, cell_set_self _ h0 h2, hcongr, List.set_set]
      · simp only [sizeLoop, hb, if_false, ha, hbt, hlt, scan, ih hrest np used h1 h2]

theorem scan_shape (np : List Int) (t : Int) (l : List Int) (vw : Int × Int) :
    (scan np t l vw = vw ∨
      ((scan np t l vw).2 ∈ l ∧ (scan np t l vw).2 ≤ t ∧
        (scan np t l vw).1 = cell np (t - (scan np t l vw).2) + 1 ∧
        (scan np t l vw).1 < vw.1)) ∧ (scan np t l vw).1 ≤ vw.1 := by
  induction l generalizing vw with
  | nil => simp [scan]
  | cons s rest ih =>
    simp only [scan]
    by_cases hb : t - s < 0
    · simp [hb]
    · simp only [hb, if_false]
      by_cases hlt : cell np (t - s) + 1 < vw.1
      · simp only [hlt, if_true]
        obtain ⟨h1, h2⟩ := ih (cell np (t - s) + 1, s)
        refine ⟨Or.inr ?_, by simp only at h2; omega⟩
        rcases h1 with h1 | ⟨ha, hb', hc, hd⟩
        · rw [h1]
          exact ⟨List.mem_cons_self _ _, by simp only; omega, rfl, hlt⟩
        · exact ⟨List.mem_cons_of_mem _ ha, hb', hc, by simp only at hd; omega⟩
      · simp only [hlt, if_false]
        obtain ⟨h1, h2⟩ := ih vw
        refine ⟨?_, h2⟩
        rcases h1 with h1 | ⟨ha, hb', hc, hd⟩
        · exact Or.inl h1
        · exact Or.inr ⟨List.mem_cons_of_mem _ ha, hb', hc, hd⟩

theorem scan_closed (np : List Int) (t : Int) (l : List Int) (hsorted : l.Sorted (· ≤ ·))
    (vw : Int × Int) : ∀ s ∈ l, s ≤ t → (scan np t l vw).1 ≤ cell np (t - s) + 1 := by
  induction l generalizing vw with
  | nil => simp
  | cons a rest ih =>
    have hrest := (List.sorted_cons.mp hsorted).2
    have hle := (List.sorted_cons.mp hsorted).1
    intro s hs hst
    simp only [scan]
    by_cases hb : t - a < 0
    · exfalso
      rcases List.mem_cons.mp hs with h | h
      · omega
      · have := hle s h
        omega
    · simp only [hb, if_false]
      rcases List.mem_cons.mp hs with h | h
      · subst h
        by_cases hlt : cell np (t - s) + 1 < vw.1
        · simp only [hlt, if_true]
          exact (scan_shape np t rest _).2
        · simp only [hlt, if_false]
          have := (scan_shape np t rest vw).2
          omega
      · split
        · exact ih hrest _ s h hst
        · exact ih hrest _ s h hst

theorem CellOK.transfer {S : List Int} {P s0 : Int} {np used np' used' : List Int} {t : Int}
    (hpos : ∀ s ∈ S, 0 < s)
    (hagree : ∀ u, 0 ≤ u → u ≤ t → cell np' u = cell np u ∧ cell used' u = cell used u)
    (ht : 0 ≤ t) (h : CellOK S P s0 np used t) : CellOK S P s0 np' used' t := by
  obtain ⟨hnp, hused⟩ := hagree t ht le_rfl
  constructor
  · rcases h.shape with ⟨h1, h2⟩ | ⟨h1, h2, h3, h4⟩
    · exact Or.inl ⟨by rw [hnp]; exact h1, by rw [hused]; exact h2⟩
    · right
      have hp := hpos _ h2
      have := (hagree (t - cell used t) (by omega) (by omega)).1
      rw [hnp, hused, this]
      exact ⟨h1, h2, h3, h4⟩
  · intro s hs hst
    have hp := hpos _ hs
    have := (hagree (t - s) (by omega) (by omega)).1
    rw [hnp, this]
    exact h.closed s hs hst

theorem TablesInv.cell_le {S : List Int} {N : Nat} {s0 B : Int} {tb : Tables}
    (h : TablesInv S N s0 B tb) (u : Int) (h0 : 0 ≤ u) (hu : u < B)
    (hne : cell tb.numPacks u ≠ N + 1) : cell tb.numPacks u ≤ u := by
  by_cases hz : u = 0
  · subst hz
    rw [h.zero]
  · rcases (h.done u (by omega) hu).shape with ⟨h1, _⟩ | ⟨h1, _⟩
    · exact absurd h1 hne
    · exact h1

theorem sizeLoop_step {S : List Int} {N : Nat} {s0 B : Int} {tb : Tables}
    (hpos : ∀ s ∈ S, 0 < s) (hsorted : S.Sorted (· ≤ ·))
    (h : TablesInv S N s0 B tb) (hB1 : 1 ≤ B) (hBN : B ≤ N) :
    ∃ tb', sizeLoop B S tb = .ok tb' ∧ TablesInv S N s0 (B + 1) tb' := by
  obtain ⟨np, used⟩ := tb
  have hlen1 : B < (np.length : Int) := by have := h.len_np; simp only at this; omega
  have hlen2 : B < (used.length : Int) := by have := h.len_used; simp only at this; omega
  have hB0 : 0 ≤ B := by omega
  obtain ⟨hcB, huB⟩ := h.todo B le_rfl hBN
  simp only at hcB huB
  refine ⟨_, sizeLoop_eq_scan B S hpos np used hB0 hlen1 hlen2, ?_⟩
  rw [hcB, huB]
  have hshape := scan_shape np B S ((N : Int) + 1, s0)
  have hclosed := scan_closed np B S hsorted ((N : Int) + 1, s0)
  generalize scan np B S ((N : Int) + 1, s0) = vw at hshape hclosed
  obtain ⟨v, w⟩ := vw
  simp only at hshape hclosed
  have hagree : ∀ u, 0 ≤ u → u ≠ B →
      cell (np.set B.toNat v) u = cell np u ∧ cell (used.set B.toNat w) u = cell used u :=
    fun u hu hne => ⟨cell_set_ne v hB0 hu (Ne.symm hne), cell_set_ne w hB0 hu (Ne.symm hne)⟩
  constructor
  · simpa using h.len_np
  · simpa using h.len_used
  · have := (hagree 0 le_rfl (by omega)).1
    simp only [this]
    exact h.zero
  · intro t ht1 htB
    by_cases hlt : t < B
    · exact CellOK.transfer hpos (fun u hu0 hut => hagree u hu0 (by omega)) (by omega)
        (h.done t ht1 hlt)
    · have htB' : t = B := by omega
      subst htB'
      constructor
      · simp only [cell_set_self v hB0 hlen1, cell_set_self w hB0 hlen2]
        rcases hshape.1 with heq | ⟨ha, hb, hc, hd⟩
        · left
          simp only [Prod.mk.injEq] at heq
          exact heq
        · right
          have hw := hpos w ha
          have hne : cell np (t - w) ≠ (N : Int) + 1 := by omega
          have hle := h.cell_le (t - w) (by omega) (by omega) hne
          simp only at hle
          rw [(hagree (t - w) (by omega) (by omega)).1]
          exact ⟨by omega, ha, hb, hc.symm⟩
      · intro s hs hst
        have hsp := hpos s hs
        rw [cell_set_self v hB0 hlen1, (hagree (t - s) (by omega) (by omega)).1]
        exact hclosed s hs hst
  · intro t ht1 htN
    obtain ⟨h1, h2⟩ := hagree t (by omega) (by omega)
    simp only [h1, h2]
    exact h.todo t (by omega) htN

theorem targetLoop_spec {S : List Int} {N : Nat} {s0 : Int}
    (hpos : ∀ s ∈ S, 0 < s) (hsorted : S.Sorted (· ≤ ·)) (n : Nat) (B : Int) (tb : Tables)
    (h : TablesInv S N s0 B tb) (hB1 : 1 ≤ B) (hn : B + n = N + 1) :
    ∃ tb', targetLoop S n B tb = .ok tb' ∧ TablesInv S N s0 (N + 1) tb' := by
  induction n generalizing B tb with
  | zero =>
    have : B = N + 1 := by omega
    subst this
    exact ⟨tb, rfl, h⟩
  | succ n ih =>
    obtain ⟨tb1, h1, hinv⟩ := sizeLoop_step hpos hsorted h hB1 (by omega)
    obtain ⟨tb2, h2, hinv2⟩ := ih (B + 1) tb1 hinv (by omega) (by push_cast at hn; omega)
    exact ⟨tb2, by simp only [targetLoop, h1, h2], hinv2⟩

theorem fill_replicate (m : Nat) (placeholder : Int) :
    fillWithPlaceholderFromIndex (List.replicate (m + 1) 0) placeholder 1 =
      0 :: List.replicate m placeholder := by
  simp [fillWithPlaceholderFromIndex, List.replicate_succ]

theorem cell_cons_replicate (m : Nat) (a placeholder : Int) (t : Int) (ht1 : 1 ≤ t)
    (htn : t ≤ m) : cell (a :: List.replicate m placeholder) t = placeholder := by
  obtain ⟨k, hk⟩ : ∃ k, t.toNat = k + 1 := ⟨t.toNat - 1, by omega⟩
  have hkm : k < m := by omega
  simp [cell, hk, hkm]

theorem tablesInv_init (S : List Int) (N : Nat) (s0 : Int) :
    TablesInv S N s0 1
      ⟨fillWithPlaceholderFromIndex (List.replicate (N + 1) 0) ((N : Int) + 1) 1,
        fillWithPlaceholderFromIndex (List.replicate (N + 1) 0) s0 1⟩ := by
  rw [fill_replicate, fill_replicate]
  constructor
  · simp
  · simp
  · simp [cell]
  · intro t h1 h2
    omega
  · intro t h1 h2
    exact ⟨cell_cons_replicate N 0 _ t h1 h2, cell_cons_replicate N 0 _ t h1 h2⟩

theorem combination_sum_nonneg {S : List Int} (hpos : ∀ s ∈ S, 0 < s) {c : List Int}
    (hc : IsCombination S c) : 0 ≤ c.sum :=
  List.sum_nonneg (fun x hx => le_of_lt (hpos x (hc x hx)))

theorem TablesInv.le_combination {S : List Int} {N : Nat} {s0 : Int} {tb : Tables}
    (hpos : ∀ s ∈ S, 0 < s) (h : TablesInv S N s0 (N + 1) tb) (c : List Int)
    (hc : IsCombination S c) (t : Int) (hsum : c.sum = t) (htN : t ≤ N) :
    cell tb.numPacks t ≤ c.length := by
  induction c generalizing t with
  | nil =>
    simp only [List.sum_nil] at hsum
    subst hsum
    simp [h.zero]
  | cons s c ih =>
    have hs : s ∈ S := hc s (List.mem_cons_self _ _)
    have hc' : IsCombination S c := fun x hx => hc x (List.mem_cons_of_mem _ hx)
    have hsp := hpos s hs
    have hnn := combination_sum_nonneg hpos hc'
    simp only [List.sum_cons] at hsum
    have ih' := ih hc' (t - s) (by omega) (by omega)
    have := (h.done t (by omega) (by omega)).closed s hs (by omega)
    simp only [List.length_cons]
    push_cast
    omega

theorem walk_nonpos (used : List Int) (fuel : Nat) (t : Int) (acc : List Int) (ht : t ≤ 0) :
    walk used fuel t acc = .ok acc := by
  have : ¬ t > 0 := by omega
  cases fuel <;> simp [walk, this]

theorem walk_spec {S : List Int} {N : Nat} {s0 : Int} {tb : Tables}
    (hpos : ∀ s ∈ S, 0 < s) (hs0 : s0 ∈ S) (h : TablesInv S N s0 (N + 1) tb)
    (fuel : Nat) (t : Int) (acc : List Int) (h0 : 0 ≤ t) (htN : t ≤ N) (hf : t ≤ fuel) :
    ∃ c, walk tb.usedPackSizes fuel t acc = .ok (acc ++ c) ∧ IsCombination S c ∧
      (cell tb.numPacks t ≠ N + 1 → c.sum = t ∧ (c.length : Int) = cell tb.numPacks t) ∧
      (cell tb.numPacks t = N + 1 →
        ∃ k : Nat, c = List.replicate k s0 ∧ t ≤ k * s0 ∧ k * s0 < t + s0) := by
  induction fuel generalizing t acc with
  | zero =>
    have ht : t = 0 := by omega
    subst ht
    refine ⟨[], by simp [walk], by simp [IsCombination], ?_, ?_⟩
    · intro _
      simp [h.zero]
    · intro hP
      rw [h.zero] at hP
      omega
  | succ fuel ih =>
    by_cases ht : t = 0
    · subst ht
      refine ⟨[], by simp [walk], by simp [IsCombination], ?_, ?_⟩
      · intro _
        simp [h.zero]
      · intro hP
        rw [h.zero] at hP
        omega
    · have htpos : t > 0 := by omega
      have hidx : index tb.usedPackSizes t = .ok (cell tb.usedPackSizes t) :=
        index_eq_cell h0 (by rw [h.len_used]; push_cast; omega)
      have hcell := h.done t (by omega) (by omega)
      have hstep : walk tb.usedPackSizes (fuel + 1) t acc =
          walk tb.usedPackSizes fuel (t - cell tb.usedPackSizes t)
            (acc ++ [cell tb.usedPackSizes t]) := by
        simp only [walk, htpos, if_true, hidx]
      rw [hstep]
      rcases hcell.shape with ⟨hP, hu⟩ | ⟨hle, hmem, hule, hrec⟩
      · rw [hu]
        have hs0pos := hpos s0 hs0
        by_cases hdone : t - s0 ≤ 0
        · refine ⟨[s0], by rw [walk_nonpos _ _ _ _ hdone], ?_, fun hne => absurd hP hne,
            fun _ => ⟨1, by simp, by push_cast; omega, by push_cast; omega⟩⟩
          intro x hx
          simp only [List.mem_singleton] at hx
          rw [hx]
          exact hs0
        · obtain ⟨c, hw, hcomb, _, hrepl⟩ := ih (t - s0) (acc ++ [s0]) (by omega) (by omega)
            (by push_cast at hf; omega)
          have hP' : cell tb.numPacks (t - s0) = N + 1 := by
            by_contra hne
            have h1 := h.cell_le (t - s0) (by omega) (by omega) hne
            have h2 := hcell.closed s0 hs0 (by omega)
            omega
          obtain ⟨k, hk, hk1, hk2⟩ := hrepl hP'
          refine ⟨s0 :: c, by rw [hw]; simp, ?_, fun hne => absurd hP hne,
            fun _ => ⟨k + 1, by rw [hk, List.replicate_succ], by push_cast; linarith,
              by push_cast; linarith⟩⟩
          intro x hx
          rcases List.mem_cons.mp hx with hx | hx
          · rw [hx]
            exact hs0
          · exact hcomb x hx
      · have hup := hpos _ hmem
        obtain ⟨c, hw, hcomb, hexact, _⟩ := ih (t - cell tb.usedPackSizes t)
          (acc ++ [cell tb.usedPackSizes t]) (by omega) (by omega) (by push_cast at hf; omega)
        obtain ⟨hsum, hlen⟩ := hexact (by omega)
        refine ⟨cell tb.usedPackSizes t :: c, by rw [hw]; simp, ?_, fun _ => ?_,
          fun hP => by omega⟩
        · intro x hx
          rcases List.mem_cons.mp hx with hx | hx
          · rw [hx]
            exact hmem
          · exact hcomb x hx
        · simp only [List.sum_cons, List.length_cons]
          push_cast
          omega

theorem combination_length_le_sum {S : List Int} (hpos : ∀ s ∈ S, 0 < s) {c : List Int}
    (hc : IsCombination S c) : (c.length : Int) ≤ c.sum := by
  induction c with
  | nil => simp
  | cons s c ih =>
    have := hpos s (hc s (List.mem_cons_self _ _))
    have := ih (fun x hx => hc x (List.mem_cons_of_mem _ hx))
    simp only [List.length_cons, List.sum_cons]
    push_cast
    omega

/-- The raw pack list: for a representable order an exact combination with the fewest
packs, otherwise the smallest size repeated until the order is covered. -/
theorem computeRawPacks_spec (s0 : Int) (rest : List Int) (orderSize : Int)
    (hpos : ∀ s ∈ s0 :: rest, 0 < s) (hsorted : (s0 :: rest).Sorted (· ≤ ·))
    (horder : 0 < orderSize) :
    ∃ raw, computeRawPacks (s0 :: rest) orderSize = .ok raw ∧
      IsCombination (s0 :: rest) raw ∧
      (Representable (s0 :: rest) orderSize →
        raw.sum = orderSize ∧
        ∀ c, IsCombination (s0 :: rest) c → c.sum = orderSize → raw.length ≤ c.length) ∧
      (¬ Representable (s0 :: rest) orderSize →
        ∃ k : Nat, raw = List.replicate k s0 ∧ orderSize ≤ k * s0 ∧ k * s0 < orderSize + s0) := by
  obtain ⟨N, hN⟩ : ∃ N : Nat, orderSize = N := ⟨orderSize.toNat, by omega⟩
  subst hN
  have hmk : makeSlice ((N : Int) + 1) = .ok (List.replicate (N + 1) 0) := by
    have h1 : (0 : Int) ≤ (N : Int) + 1 := by omega
    have h2 : ((N : Int) + 1).toNat = N + 1 := by omega
    simp [makeSlice, h1, h2]
  have hlen : (fillWithPlaceholderFromIndex (List.replicate (N + 1) 0) ((N : Int) + 1) 1).length
      - 1 = N := by
    rw [fill_replicate]
    simp
  obtain ⟨tb, htb, hinv⟩ := targetLoop_spec hpos hsorted N 1 _
    (tablesInv_init (s0 :: rest) N s0) le_rfl (by omega)
  obtain ⟨c, hw, hcomb, hexact, hfallback⟩ := walk_spec hpos (List.mem_cons_self _ _) hinv
    (N + 1) N [] (by omega) le_rfl (by push_cast; omega)
  have hraw : computeRawPacks (s0 :: rest) N = .ok c := by
    simp only [computeRawPacks, hmk, hlen, htb, computePacksByUsedPackSizes, hinv.len_used]
    push_cast
    simpa using hw
  have hiff : Representable (s0 :: rest) N ↔ cell tb.numPacks N ≠ N + 1 := by
    constructor
    · rintro ⟨d, hd, hsum⟩
      have h1 := hinv.le_combination hpos d hd N hsum le_rfl
      have h2 := combination_length_le_sum hpos hd
      omega
    · intro hne
      exact ⟨c, hcomb, (hexact hne).1⟩
  refine ⟨c, hraw, hcomb, ?_, ?_⟩
  · intro hrep
    obtain ⟨hsum, hlenc⟩ := hexact (hiff.mp hrep)
    refine ⟨hsum, fun d hd hdsum => ?_⟩
    have := hinv.le_combination hpos d hd N hdsum le_rfl
    omega
  · intro hrep
    have hP : cell tb.numPacks N = N + 1 := by
      by_contra hne
      exact hrep (hiff.mpr hne)
    exact hfallback hP

/-! ## Maps -/

theorem lookup_assign_self (m : QuantityByPack) (k v : Int) : lookup (assign m k v) k = v := by
  induction m with
  | nil => simp [assign, lookup]
  | cons e m ih =>
    obtain ⟨k', v'⟩ := e
    by_cases h : k' = k <;> simp [assign, lookup, h, ih]

theorem lookup_assign_ne (m : QuantityByPack) {k k' : Int} (v : Int) (hne : k ≠ k') :
    lookup (assign m k v) k' = lookup m k' := by
  induction m with
  | nil => simp [assign, lookup, hne]
  | cons e m ih =>
    obtain ⟨a, b⟩ := e
    by_cases h : a = k
    · subst h
      simp [assign, lookup, hne]
    · by_cases h' : a = k'
      · subst h'
        simp [assign, lookup, h]
      · simp [assign, lookup, h, h', ih]

theorem mapTotal_assign (m : QuantityByPack) (k v : Int) :
    mapTotal (assign m k v) = mapTotal m + k * (v - lookup m k) := by
  induction m with
  | nil => simp [assign, lookup, mapTotal]
  | cons e m ih =>
    obtain ⟨a, b⟩ := e
    by_cases h : a = k
    · subst h
      simp only [assign, lookup, mapTotal, if_true, List.map_cons, List.sum_cons]
      ring
    · simp only [mapTotal, List.map_cons, List.sum_cons] at ih ⊢
      simp only [assign, lookup, h, if_false, List.map_cons, List.sum_cons, ih]
      ring

theorem mapCount_assign (m : QuantityByPack) (k v : Int) :
    mapCount (assign m k v) = mapCount m + (v - lookup m k) := by
  induction m with
  | nil => simp [assign, lookup, mapCount]
  | cons e m ih =>
    obtain ⟨a, b⟩ := e
    by_cases h : a = k
    · subst h
      simp only [assign, lookup, mapCount, if_true, List.map_cons, List.sum_cons]
      ring
    · simp only [mapCount, List.map_cons, List.sum_cons] at ih ⊢
      simp only [assign, lookup, h, if_false, List.map_cons, List.sum_cons, ih]
      ring

theorem keys_assign_of_mem (m : QuantityByPack) {k : Int} (v : Int) (hk : k ∈ keys m) :
    keys (assign m k v) = keys m := by
  induction m with
  | nil => simp [keys] at hk
  | cons e m ih =>
    obtain ⟨a, b⟩ := e
    by_cases h : a = k
    · subst h
      simp [assign, keys]
    · have hk' : k ∈ keys m := by
        simp only [keys, List.map_cons, List.mem_cons] at hk
        rcases hk with hk | hk
        · exact absurd hk.symm h
        · exact hk
      have := ih hk'
      simp only [keys] at this
      simp [assign, keys, h, this]

theorem keys_assign_of_not_mem (m : QuantityByPack) {k : Int} (v : Int) (hk : k ∉ keys m) :
    keys (assign m k v) = keys m ++ [k] := by
  induction m with
  | nil => simp [assign, keys]
  | cons e m ih =>
    obtain ⟨a, b⟩ := e
    have h : a ≠ k := by
      intro h
      apply hk
      simp [keys, h]
    have hk' : k ∉ keys m := by
      intro h'
      apply hk
      simp only [keys, List.map_cons, List.mem_cons]
      exact Or.inr h'
    have := ih hk'
    simp only [keys] at this
    simp [assign, keys, h, this]

theorem mem_keys_assign (m : QuantityByPack) (k v x : Int) :
    x ∈ keys (assign m k v) ↔ x = k ∨ x ∈ keys m := by
  by_cases hk : k ∈ keys m
  · rw [keys_assign_of_mem m v hk]
    constructor
    · exact Or.inr
    · rintro (h | h)
      · rw [h]
        exact hk
      · exact h
  · rw [keys_assign_of_not_mem m v hk]
    simp only [List.mem_append, List.mem_singleton]
    tauto

theorem nodup_keys_assign (m : QuantityByPack) (k v : Int) (h : (keys m).Nodup) :
    (keys (assign m k v)).Nodup := by
  by_cases hk : k ∈ keys m
  · rw [keys_assign_of_mem m v hk]
    exact h
  · rw [keys_assign_of_not_mem m v hk]
    exact List.Nodup.append h (List.nodup_singleton k) (by
      intro x hx hx'
      simp only [List.mem_singleton] at hx'
      exact hk (hx' ▸ hx))

theorem assign_assign (m : QuantityByPack) (k v w : Int) :
    assign (assign m k v) k w = assign m k w := by
  induction m with
  | nil => simp [assign]
  | cons e m ih =>
    obtain ⟨a, b⟩ := e
    by_cases h : a = k <;> simp [assign, h, ih]

theorem assign_lookup_self (m : QuantityByPack) {k : Int} (hk : k ∈ keys m) :
    assign m k (lookup m k) = m := by
  induction m with
  | nil => simp [keys] at hk
  | cons e m ih =>
    obtain ⟨a, b⟩ := e
    by_cases h : a = k
    · subst h
      simp [assign, lookup]
    · have hk' : k ∈ keys m := by
        simp only [keys, List.map_cons, List.mem_cons] at hk
        rcases hk with hk | hk
        · exact absurd hk.symm h
        · exact hk
      have := ih hk'
      simp [assign, lookup, h, this]

theorem lookup_of_mem (m : QuantityByPack) (h : (keys m).Nodup) (e : Int × Int) (he : e ∈ m) :
    lookup m e.1 = e.2 := by
  induction m with
  | nil => simp at he
  | cons a m ih =>
    obtain ⟨k, v⟩ := a
    simp only [keys, List.map_cons, List.nodup_cons] at h
    rcases List.mem_cons.mp he with he | he
    · subst he
      simp [lookup]
    · have hne : k ≠ e.1 := by
        intro hke
        apply h.1
        rw [hke]
        exact List.mem_map_of_mem Prod.fst he
      simp only [lookup, hne, if_false]
      exact ih h.2 he

theorem lookup_of_not_mem (m : QuantityByPack) (k : Int) (h : k ∉ keys m) : lookup m k = 0 := by
  induction m with
  | nil => rfl
  | cons a m ih =>
    obtain ⟨k', v⟩ := a
    simp only [keys, List.map_cons, List.mem_cons, not_or] at h
    have hne : k' ≠ k := fun hh => h.1 hh.symm
    simp only [lookup, hne, if_false]
    exact ih h.2

theorem mem_of_mem_keys (m : QuantityByPack) (k : Int) (h : k ∈ keys m) :
    (k, lookup m k) ∈ m := by
  induction m with
  | nil => simp [keys] at h
  | cons a m ih =>
    obtain ⟨k', v⟩ := a
    by_cases hk : k' = k
    · subst hk
      simp [lookup]
    · simp only [keys, List.map_cons, List.mem_cons] at h
      rcases h with h | h
      · exact absurd h.symm hk
      · simp only [lookup, hk, if_false]
        exact List.mem_cons_of_mem _ (ih h)

theorem mem_assign (m : QuantityByPack) (k v : Int) (e : Int × Int)
    (he : e ∈ assign m k v) : e = (k, v) ∨ e ∈ m := by
  induction m with
  | nil =>
    simp only [assign, List.mem_singleton] at he
    exact Or.inl he
  | cons a m ih =>
    obtain ⟨k', v'⟩ := a
    by_cases h : k' = k
    · simp only [assign, h, if_true, List.mem_cons] at he
      rcases he with he | he
      · exact Or.inl he
      · exact Or.inr (List.mem_cons_of_mem _ he)
    · simp only [assign, h, if_false, List.mem_cons] at he
      rcases he with he | he
      · exact Or.inr (he ▸ List.mem_cons_self _ _)
      · rcases ih he with h' | h'
        · exact Or.inl h'
        · exact Or.inr (List.mem_cons_of_mem _ h')

theorem lookup_nonneg (m : QuantityByPack) (h : ∀ e ∈ m, 0 ≤ e.2) (k : Int) :
    0 ≤ lookup m k := by
  by_cases hk : k ∈ keys m
  · exact h _ (mem_of_mem_keys m k hk)
  · rw [lookup_of_not_mem m k hk]

/-! ## Conversions between pack lists and assignments -/

theorem countFold_spec (packs : List Int) (m : QuantityByPack) (hnd : (keys m).Nodup)
    (hpos : ∀ e ∈ m, 0 < e.2) :
    let r := packs.foldl (fun result pack => assign result pack (lookup result pack + 1)) m
    mapTotal r = mapTotal m + packs.sum ∧ mapCount r = mapCount m + packs.length ∧
      (keys r).Nodup ∧ (∀ e ∈ r, 0 < e.2) ∧ (∀ x ∈ keys r, x ∈ keys m ∨ x ∈ packs) := by
  induction packs generalizing m with
  | nil => exact ⟨by simp, by simp, hnd, hpos, fun x hx => Or.inl hx⟩
  | cons a packs ih =>
    have hnd' := nodup_keys_assign m a (lookup m a + 1) hnd
    have hpos' : ∀ e ∈ assign m a (lookup m a + 1), 0 < e.2 := by
      intro e he
      rcases mem_assign m a _ e he with h | h
      · have := lookup_nonneg m (fun e he => le_of_lt (hpos e he)) a
        rw [h]
        simp only
        omega
      · exact hpos e h
    obtain ⟨h1, h2, h3, h4, h5⟩ := ih (assign m a (lookup m a + 1)) hnd' hpos'
    simp only [List.foldl_cons]
    refine ⟨?_, ?_, h3, h4, ?_⟩
    · rw [h1, mapTotal_assign, List.sum_cons]
      ring
    · rw [h2, mapCount_assign, List.length_cons]
      push_cast
      ring
    · intro x hx
      rcases h5 x hx with h | h
      · rcases (mem_keys_assign m a _ x).mp h with h' | h'
        · exact Or.inr (h' ▸ List.mem_cons_self _ _)
        · exact Or.inl h'
      · exact Or.inr (List.mem_cons_of_mem _ h)

theorem packSliceToQuantityByPackMap_spec (packs : List Int) :
    mapTotal (packSliceToQuantityByPackMap packs) = packs.sum ∧
      mapCount (packSliceToQuantityByPackMap packs) = packs.length ∧
      (keys (packSliceToQuantityByPackMap packs)).Nodup ∧
      (∀ e ∈ packSliceToQuantityByPackMap packs, 0 < e.2) ∧
      (∀ x ∈ keys (packSliceToQuantityByPackMap packs), x ∈ packs) := by
  obtain ⟨h1, h2, h3, h4, h5⟩ := countFold_spec packs [] (by simp [keys]) (by simp)
  refine ⟨by simpa [mapTotal] using h1, by simpa [mapCount] using h2, h3, h4, ?_⟩
  intro x hx
  rcases h5 x hx with h | h
  · simp [keys] at h
  · exact h

theorem quantityByPackMapToPackSlice_spec (m : QuantityByPack) (hnn : ∀ e ∈ m, 0 ≤ e.2) :
    (quantityByPackMapToPackSlice m).sum = mapTotal m ∧
      ((quantityByPackMapToPackSlice m).length : Int) = mapCount m ∧
      (∀ x ∈ quantityByPackMapToPackSlice m, x ∈ keys m) := by
  induction m with
  | nil => simp [quantityByPackMapToPackSlice, mapTotal, mapCount]
  | cons e m ih =>
    obtain ⟨k, v⟩ := e
    have hv : 0 ≤ v := hnn (k, v) (List.mem_cons_self _ _)
    obtain ⟨h1, h2, h3⟩ := ih (fun e he => hnn e (List.mem_cons_of_mem _ he))
    have hcast : ((v.toNat : Nat) : Int) = v := Int.toNat_of_nonneg hv
    refine ⟨?_, ?_, ?_⟩
    · simp only [quantityByPackMapToPackSlice, List.sum_append, List.sum_replicate, h1,
        mapTotal, List.map_cons, List.sum_cons, nsmul_eq_mul, hcast]
      ring
    · simp only [quantityByPackMapToPackSlice, List.length_append, List.length_replicate, mapCount,
        List.map_cons, List.sum_cons]
      simp only [mapCount] at h2
      push_cast
      rw [h2, hcast]
    · intro x hx
      simp only [quantityByPackMapToPackSlice, List.mem_append] at hx
      rcases hx with hx | hx
      · have := (List.mem_replicate.mp hx).2
        simp [keys, this]
      · have := h3 x hx
        simp only [keys, List.map_cons, List.mem_cons]
        exact Or.inr this

theorem toPackModelSlice_eq (packs : List Int) :
    toPackModelSlice packs =
      (packSliceToQuantityByPackMap packs).map (fun e => { Size := e.1, Quantity := e.2 }) := by
  obtain ⟨_, _, _, hpos, _⟩ := packSliceToQuantityByPackMap_spec packs
  unfold toPackModelSlice
  split
  · have : packs = [] := List.length_eq_zero.mp (by assumption)
    subst this
    rfl
  · congr 1
    apply List.filter_eq_self.mpr
    intro e he
    simpa using hpos e he

theorem toPackModelSlice_spec (packs : List Int) :
    shippedTotal (toPackModelSlice packs) = packs.sum ∧
      packCount (toPackModelSlice packs) = packs.length ∧
      (∀ p ∈ toPackModelSlice packs, p.Size ∈ packs ∧ 0 < p.Quantity) ∧
      ((toPackModelSlice packs).map (fun p => p.Size)).Nodup := by
  obtain ⟨h1, h2, h3, h4, h5⟩ := packSliceToQuantityByPackMap_spec packs
  rw [toPackModelSlice_eq]
  refine ⟨?_, ?_, ?_, ?_⟩
  · simpa [shippedTotal, mapTotal, Function.comp_def] using h1
  · simpa [packCount, mapCount, Function.comp_def] using h2
  · intro p hp
    obtain ⟨e, he, rfl⟩ := List.mem_map.mp hp
    exact ⟨h5 _ (List.mem_map_of_mem Prod.fst he), h4 e he⟩
  · simpa [keys, Function.comp_def] using h3

/-! ## Consolidation -/

theorem unitLoop_fire (T p : Int) (n : Nat) (sum count : Int) (r : QuantityByPack)
    (h : sum + p = T) :
    unitLoop T p (n + 1) sum count r =
      unitLoop T p n 0 0
        (assign (assign r p (lookup r p - (count + 1))) T
          (lookup (assign r p (lookup r p - (count + 1))) T + 1)) := by
  simp [unitLoop, h]

theorem unitLoop_skip (T p : Int) (n : Nat) (sum count : Int) (r : QuantityByPack)
    (h : sum + p ≠ T) :
    unitLoop T p (n + 1) sum count r = unitLoop T p n (sum + p) (count + 1) r := by
  simp [unitLoop, h]

theorem unitLoop_total (T p : Int) (n : Nat) (sum count : Int) (r : QuantityByPack)
    (hsum : sum = count * p) (hcount : 0 ≤ count) :
    mapTotal (unitLoop T p n sum count r) = mapTotal r ∧
      mapCount (unitLoop T p n sum count r) ≤ mapCount r := by
  induction n generalizing sum count r with
  | zero => simp [unitLoop]
  | succ n ih =>
    by_cases h : sum + p = T
    · rw [unitLoop_fire T p n sum count r h]
      obtain ⟨h1, h2⟩ := ih 0 0 (assign (assign r p (lookup r p - (count + 1))) T
        (lookup (assign r p (lookup r p - (count + 1))) T + 1)) (by ring) le_rfl
      rw [h1]
      refine ⟨?_, le_trans h2 ?_⟩
      · rw [mapTotal_assign, mapTotal_assign, ← h, hsum]
        ring
      · rw [mapCount_assign, mapCount_assign]
        linarith
    · rw [unitLoop_skip T p n sum count r h]
      exact ih (sum + p) (count + 1) r (by rw [hsum]; ring) (by omega)

theorem unitLoop_keys (T p : Int) (n : Nat) (sum count : Int) (r : QuantityByPack) :
    ((keys r).Nodup → (keys (unitLoop T p n sum count r)).Nodup) ∧
      (∀ x ∈ keys (unitLoop T p n sum count r), x = T ∨ x = p ∨ x ∈ keys r) ∧
      (∀ x ∈ keys r, x ∈ keys (unitLoop T p n sum count r)) := by
  induction n generalizing sum count r with
  | zero => exact ⟨fun h => h, fun x hx => Or.inr (Or.inr hx), fun x hx => hx⟩
  | succ n ih =>
    by_cases h : sum + p = T
    · rw [unitLoop_fire T p n sum count r h]
      obtain ⟨h1, h2, h3⟩ := ih 0 0 (assign (assign r p (lookup r p - (count + 1))) T
        (lookup (assign r p (lookup r p - (count + 1))) T + 1))
      refine ⟨fun hnd => h1 (nodup_keys_assign _ _ _ (nodup_keys_assign _ _ _ hnd)), ?_, ?_⟩
      · intro x hx
        rcases h2 x hx with hx | hx | hx
        · exact Or.inl hx
        · exact Or.inr (Or.inl hx)
        · rcases (mem_keys_assign _ _ _ _).mp hx with hx | hx
          · exact Or.inl hx
          · rcases (mem_keys_assign _ _ _ _).mp hx with hx | hx
            · exact Or.inr (Or.inl hx)
            · exact Or.inr (Or.inr hx)
      · intro x hx
        exact h3 x ((mem_keys_assign _ _ _ _).mpr (Or.inr ((mem_keys_assign _ _ _ _).mpr
          (Or.inr hx))))
    · rw [unitLoop_skip T p n sum count r h]
      exact ih (sum + p) (count + 1) r

theorem unitLoop_lookup (T p : Int) (hne : p ≠ T) (n : Nat) (sum count : Int)
    (r : QuantityByPack) (hsum : sum = count * p) (hcount : 0 ≤ count)
    (hnf : NoFire T p count) :
    ∃ c : Int, 0 ≤ c ∧ c ≤ count + n ∧ NoFire T p c ∧
      lookup (unitLoop T p n sum count r) p = lookup r p - (count + n) + c ∧
      lookup r T ≤ lookup (unitLoop T p n sum count r) T ∧
      ∀ k, k ≠ p → k ≠ T → lookup (unitLoop T p n sum count r) k = lookup r k := by
  induction n generalizing sum count r with
  | zero =>
    exact ⟨count, hcount, by simp, hnf, by simp [unitLoop], by simp [unitLoop],
      fun k _ _ => by simp [unitLoop]⟩
  | succ n ih =>
    by_cases h : sum + p = T
    · rw [unitLoop_fire T p n sum count r h]
      obtain ⟨c, hc0, hc1, hc2, hc3, hc4, hc5⟩ := ih 0 0
        (assign (assign r p (lookup r p - (count + 1))) T
          (lookup (assign r p (lookup r p - (count + 1))) T + 1)) (by ring) le_rfl
        (fun i hi1 hi2 => by omega)
      refine ⟨c, hc0, by push_cast; omega, hc2, ?_, ?_, ?_⟩
      · rw [hc3, lookup_assign_ne _ _ (Ne.symm hne), lookup_assign_self]
        push_cast
        ring
      · refine le_trans ?_ hc4
        rw [lookup_assign_self, lookup_assign_ne _ _ hne]
        omega
      · intro k hk1 hk2
        rw [hc5 k hk1 hk2, lookup_assign_ne _ _ (Ne.symm hk2), lookup_assign_ne _ _ (Ne.symm hk1)]
    · rw [unitLoop_skip T p n sum count r h]
      obtain ⟨c, hc0, hc1, hc2, hc3, hc4, hc5⟩ := ih (sum + p) (count + 1) r
        (by rw [hsum]; ring) (by omega) (by
          intro i hi1 hi2
          by_cases hi : i = count + 1
          · rw [hi]
            intro hT
            apply h
            rw [hsum, ← hT]
            ring
          · exact hnf i hi1 (by omega))
      exact ⟨c, hc0, by push_cast; omega, hc2, by rw [hc3]; push_cast; ring, hc4, hc5⟩

theorem unitLoop_self (T : Int) (n : Nat) (r : QuantityByPack) (hT : T ∈ keys r) :
    unitLoop T T n 0 0 r = r := by
  induction n with
  | zero => rfl
  | succ n ih =>
    rw [unitLoop_fire T T n 0 0 r (by ring), lookup_assign_self, assign_assign]
    have : lookup r T - (0 + 1) + 1 = lookup r T := by ring
    rw [this, assign_lookup_self r hT]
    exact ih

theorem unitLoop_noFire (T p : Int) (n : Nat) (sum count : Int) (r : QuantityByPack)
    (hsum : sum = count * p) (hcount : 0 ≤ count) (hnf : NoFire T p (count + n)) :
    unitLoop T p n sum count r = r := by
  induction n generalizing sum count with
  | zero => rfl
  | succ n ih =>
    have h : sum + p ≠ T := by
      have := hnf (count + 1) (by omega) (by push_cast; omega)
      intro hT
      apply this
      rw [← hT, hsum]
      ring
    rw [unitLoop_skip T p n sum count r h]
    exact ih (sum + p) (count + 1) (by rw [hsum]; ring) (by omega) (by
      intro i hi1 hi2
      exact hnf i hi1 (by push_cast; omega))

theorem mergeEntries_cons (T : Int) (e : Int × Int) (es : List (Int × Int))
    (r : QuantityByPack) :
    mergeEntries T (e :: es) r = mergeEntries T es (unitLoop T e.1 e.2.toNat 0 0 r) := rfl

theorem mergeEntries_total (T : Int) (es : List (Int × Int)) (r : QuantityByPack) :
    mapTotal (mergeEntries T es r) = mapTotal r ∧ mapCount (mergeEntries T es r) ≤ mapCount r := by
  induction es generalizing r with
  | nil => simp [mergeEntries]
  | cons e es ih =>
    rw [mergeEntries_cons]
    obtain ⟨h1, h2⟩ := ih (unitLoop T e.1 e.2.toNat 0 0 r)
    obtain ⟨h3, h4⟩ := unitLoop_total T e.1 e.2.toNat 0 0 r (by ring) le_rfl
    exact ⟨h1.trans h3, h2.trans h4⟩

theorem mergeEntries_keys (T : Int) (es : List (Int × Int)) (r : QuantityByPack) :
    ((keys r).Nodup → (keys (mergeEntries T es r)).Nodup) ∧
      (∀ x ∈ keys (mergeEntries T es r), x = T ∨ x ∈ keys es ∨ x ∈ keys r) ∧
      (∀ x ∈ keys r, x ∈ keys (mergeEntries T es r)) := by
  induction es generalizing r with
  | nil => exact ⟨fun h => h, fun x hx => Or.inr (Or.inr hx), fun x hx => hx⟩
  | cons e es ih =>
    rw [mergeEntries_cons]
    obtain ⟨h1, h2, h3⟩ := ih (unitLoop T e.1 e.2.toNat 0 0 r)
    obtain ⟨h4, h5, h6⟩ := unitLoop_keys T e.1 e.2.toNat 0 0 r
    refine ⟨fun hnd => h1 (h4 hnd), ?_, fun x hx => h3 x (h6 x hx)⟩
    intro x hx
    rcases h2 x hx with hx | hx | hx
    · exact Or.inl hx
    · exact Or.inr (Or.inl (by simp only [keys, List.map_cons, List.mem_cons]; exact Or.inr hx))
    · rcases h5 x hx with hx | hx | hx
      · exact Or.inl hx
      · exact Or.inr (Or.inl (by simp [keys, hx]))
      · exact Or.inr (Or.inr hx)

theorem mergeEntries_lookup (T : Int) (es : List (Int × Int)) (r : QuantityByPack)
    (hnd : (keys es).Nodup) (hin : ∀ e ∈ es, e.1 ∈ keys r)
    (hfresh : ∀ e ∈ es, e.1 ≠ T → lookup r e.1 = e.2) (hnn : ∀ e ∈ es, 0 ≤ e.2) :
    (∀ e ∈ es, e.1 ≠ T → 0 ≤ lookup (mergeEntries T es r) e.1 ∧
        lookup (mergeEntries T es r) e.1 ≤ e.2 ∧
        NoFire T e.1 (lookup (mergeEntries T es r) e.1)) ∧
      lookup r T ≤ lookup (mergeEntries T es r) T ∧
      (∀ k, k ∉ keys es → k ≠ T → lookup (mergeEntries T es r) k = lookup r k) := by
  induction es generalizing r with
  | nil => simp [mergeEntries]
  | cons e es ih =>
    rw [mergeEntries_cons]
    simp only [keys, List.map_cons, List.nodup_cons] at hnd
    have he_notin : e.1 ∉ keys es := hnd.1
    have hin_e := hin e (List.mem_cons_self _ _)
    have hnn_e := hnn e (List.mem_cons_self _ _)
    have hnn' : ∀ e' ∈ es, 0 ≤ e'.2 := fun e' he' => hnn e' (List.mem_cons_of_mem _ he')
    have hmono := (unitLoop_keys T e.1 e.2.toNat 0 0 r).2.2
    have hin' : ∀ e' ∈ es, e'.1 ∈ keys (unitLoop T e.1 e.2.toNat 0 0 r) :=
      fun e' he' => hmono _ (hin e' (List.mem_cons_of_mem _ he'))
    have hne_of_mem : ∀ e' ∈ es, e'.1 ≠ e.1 := by
      intro e' he' heq
      apply he_notin
      rw [← heq]
      exact List.mem_map_of_mem Prod.fst he'
    by_cases hT : e.1 = T
    · have hself : unitLoop T e.1 e.2.toNat 0 0 r = r := by
        rw [hT]
        exact unitLoop_self T _ r (hT ▸ hin_e)
      rw [hself]
      obtain ⟨h1, h2, h3⟩ := ih r hnd.2 (fun e' he' => hin e' (List.mem_cons_of_mem _ he'))
        (fun e' he' => hfresh e' (List.mem_cons_of_mem _ he')) hnn'
      refine ⟨?_, h2, ?_⟩
      · intro e' he' hne'
        rcases List.mem_cons.mp he' with h | h
        · rw [h] at hne'
          exact absurd hT hne'
        · exact h1 e' h hne'
      · intro k hk hkT
        simp only [keys, List.map_cons, List.mem_cons, not_or] at hk
        exact h3 k hk.2 hkT
    · obtain ⟨c, hc0, hc1, hc2, hc3, hc4, hc5⟩ := unitLoop_lookup T e.1 hT e.2.toNat 0 0 r
        (by ring) le_rfl (fun i hi1 hi2 => by omega)
      have hval : lookup (unitLoop T e.1 e.2.toNat 0 0 r) e.1 = c := by
        rw [hc3, hfresh e (List.mem_cons_self _ _) hT]
        have := Int.toNat_of_nonneg hnn_e
        omega
      obtain ⟨h1, h2, h3⟩ := ih (unitLoop T e.1 e.2.toNat 0 0 r) hnd.2 hin'
        (fun e' he' hne' => by
          rw [hc5 _ (hne_of_mem e' he') hne']
          exact hfresh e' (List.mem_cons_of_mem _ he') hne') hnn'
      refine ⟨?_, le_trans hc4 h2, ?_⟩
      · intro e' he' hne'
        rcases List.mem_cons.mp he' with h | h
        · rw [h, h3 e.1 he_notin hT, hval]
          have := Int.toNat_of_nonneg hnn_e
          exact ⟨hc0, by omega, hc2⟩
        · exact h1 e' h hne'
      · intro k hk hkT
        simp only [keys, List.map_cons, List.mem_cons, not_or] at hk
        rw [h3 k hk.2 hkT, hc5 k hk.1 hkT]

theorem mergeToPackSize_spec (T : Int) (m : QuantityByPack) (hwf : WellFormed m) :
    mapTotal (mergeToPackSize T m) = mapTotal m ∧
      mapCount (mergeToPackSize T m) ≤ mapCount m ∧
      WellFormed (mergeToPackSize T m) ∧
      (∀ x ∈ keys (mergeToPackSize T m), x = T ∨ x ∈ keys m) ∧
      (∀ e ∈ mergeToPackSize T m, e.1 ≠ T → NoFire T e.1 e.2) := by
  obtain ⟨h1, h2⟩ := mergeEntries_total T m m
  obtain ⟨h3, h4, h5⟩ := mergeEntries_keys T m m
  obtain ⟨h6, h7, h8⟩ := mergeEntries_lookup T m m hwf.nodup
    (fun e he => List.mem_map_of_mem Prod.fst he)
    (fun e he _ => lookup_of_mem m hwf.nodup e he) hwf.nonneg
  have hnd := h3 hwf.nodup
  have hkeys : ∀ x ∈ keys (mergeToPackSize T m), x = T ∨ x ∈ keys m := by
    intro x hx
    rcases h4 x hx with h | h | h
    · exact Or.inl h
    · exact Or.inr h
    · exact Or.inr h
  have hentry : ∀ e ∈ mergeToPackSize T m, e.1 ≠ T →
      0 ≤ e.2 ∧ NoFire T e.1 e.2 := by
    intro e he hne
    have hk := hkeys e.1 (List.mem_map_of_mem Prod.fst he)
    rcases hk with hk | hk
    · exact absurd hk hne
    · obtain ⟨ha, _, hc⟩ := h6 _ (mem_of_mem_keys m e.1 hk) hne
      have hval := lookup_of_mem _ hnd e he
      simp only [mergeToPackSize] at hval
      simp only at ha hc
      rw [hval] at ha hc
      exact ⟨ha, hc⟩
  refine ⟨h1, h2, ⟨hnd, ?_⟩, hkeys, fun e he hne => (hentry e he hne).2⟩
  intro e he
  by_cases hne : e.1 = T
  · have hval := lookup_of_mem _ hnd e he
    simp only [mergeToPackSize] at hval
    rw [hne] at hval
    rw [← hval]
    exact le_trans (lookup_nonneg m hwf.nonneg T) h7
  · exact (hentry e he hne).1

theorem mergeFold_spec (ts : List Int) (m : QuantityByPack) (hwf : WellFormed m) :
    mapTotal (ts.foldl (fun m T => mergeToPackSize T m) m) = mapTotal m ∧
      mapCount (ts.foldl (fun m T => mergeToPackSize T m) m) ≤ mapCount m ∧
      WellFormed (ts.foldl (fun m T => mergeToPackSize T m) m) ∧
      (∀ x ∈ keys (ts.foldl (fun m T => mergeToPackSize T m) m), x ∈ ts ∨ x ∈ keys m) := by
  induction ts generalizing m with
  | nil => exact ⟨rfl, le_rfl, hwf, fun x hx => Or.inr hx⟩
  | cons T ts ih =>
    obtain ⟨h1, h2, h3, h4, _⟩ := mergeToPackSize_spec T m hwf
    obtain ⟨g1, g2, g3, g4⟩ := ih (mergeToPackSize T m) h3
    simp only [List.foldl_cons]
    refine ⟨g1.trans h1, g2.trans h2, g3, ?_⟩
    intro x hx
    rcases g4 x hx with h | h
    · exact Or.inl (List.mem_cons_of_mem _ h)
    · rcases h4 x h with h | h
      · exact Or.inl (h ▸ List.mem_cons_self _ _)
      · exact Or.inr h

theorem mergeToLargerPacks_spec (packSizes : List Int) (m : QuantityByPack)
    (hwf : WellFormed m) :
    mapTotal (mergeToLargerPacks packSizes m) = mapTotal m ∧
      mapCount (mergeToLargerPacks packSizes m) ≤ mapCount m ∧
      WellFormed (mergeToLargerPacks packSizes m) ∧
      (∀ x ∈ keys (mergeToLargerPacks packSizes m), x ∈ packSizes ∨ x ∈ keys m) := by
  obtain ⟨h1, h2, h3, h4⟩ := mergeFold_spec (packSizes.drop 1).reverse m hwf
  refine ⟨h1, h2, h3, ?_⟩
  intro x hx
  rcases h4 x hx with h | h
  · exact Or.inl (List.mem_of_mem_drop (List.mem_reverse.mp h))
  · exact Or.inr h

theorem wellFormed_packSliceToQuantityByPackMap (packs : List Int) :
    WellFormed (packSliceToQuantityByPackMap packs) := by
  obtain ⟨_, _, h3, h4, _⟩ := packSliceToQuantityByPackMap_spec packs
  exact ⟨h3, fun e he => le_of_lt (h4 e he)⟩

theorem optimizePacks_spec (packSizes packs : List Int) :
    (optimizePacks packSizes packs).sum = packs.sum ∧
      (optimizePacks packSizes packs).length ≤ packs.length ∧
      (∀ x ∈ optimizePacks packSizes packs, x ∈ packSizes ∨ x ∈ packs) := by
  obtain ⟨c1, c2, _, _, c5⟩ := packSliceToQuantityByPackMap_spec packs
  obtain ⟨m1, m2, m3, m4⟩ := mergeToLargerPacks_spec packSizes _
    (wellFormed_packSliceToQuantityByPackMap packs)
  obtain ⟨e1, e2, e3⟩ := quantityByPackMapToPackSlice_spec _ m3.nonneg
  refine ⟨?_, ?_, ?_⟩
  · rw [optimizePacks, e1, m1, c1]
  · have : ((optimizePacks packSizes packs).length : Int) ≤ packs.length := by
      rw [optimizePacks, e2, ← c2]
      exact m2
    exact_mod_cast this
  · intro x hx
    rcases m4 x (e3 x hx) with h | h
    · exact Or.inl h
    · exact Or.inr (c5 x h)

/-! ## The facade -/

theorem cloneAndSort_cases (packSizes : List Int) (hne : packSizes ≠ []) :
    ∃ s0 rest, cloneAndSort packSizes = s0 :: rest ∧ (s0 :: rest).Sorted (· ≤ ·) ∧
      (∀ x, x ∈ s0 :: rest ↔ x ∈ packSizes) := by
  have hperm : (cloneAndSort packSizes).Perm packSizes := List.perm_insertionSort _ _
  have hsorted : (cloneAndSort packSizes).Sorted (· ≤ ·) := List.sorted_insertionSort _ _
  cases hcs : cloneAndSort packSizes with
  | nil =>
    rw [hcs] at hperm
    exact absurd (List.Perm.nil_eq hperm).symm hne
  | cons s0 rest =>
    rw [hcs] at hperm hsorted
    exact ⟨s0, rest, rfl, hsorted, fun x => hperm.mem_iff⟩

theorem isValidInput_eq_true (packSizes : List Int) (orderSize : Int) (hne : packSizes ≠ [])
    (horder : 0 < orderSize) : isValidInput packSizes orderSize = true := by
  have := List.length_pos.mpr hne
  simp [isValidInput, this, horder]

/-- What `ComputePacks` returns on a valid input: the entries are allowed sizes with positive
quantities and no repeated size; a representable order is shipped exactly with the fewest
packs; any other order is shipped as the least multiple of the smallest size covering it. -/
theorem ComputePacks_spec (packSizes : List Int) (orderSize : Int) (hne : packSizes ≠ [])
    (hpos : ∀ s ∈ packSizes, 0 < s) (horder : 0 < orderSize) :
    ∃ r s0, ComputePacks packSizes orderSize = .ok r ∧
      s0 ∈ packSizes ∧ (∀ x ∈ packSizes, s0 ≤ x) ∧
      (∀ p ∈ r, p.Size ∈ packSizes ∧ 0 < p.Quantity) ∧
      (r.map (fun p => p.Size)).Nodup ∧
      (Representable packSizes orderSize →
        shippedTotal r = orderSize ∧
        ∀ c, IsCombination packSizes c → c.sum = orderSize → packCount r ≤ c.length) ∧
      (¬ Representable packSizes orderSize →
        ∃ k : Nat, shippedTotal r = k * s0 ∧ orderSize ≤ k * s0 ∧ k * s0 < orderSize + s0 ∧
          packCount r ≤ k) := by
  obtain ⟨s0, rest, hcs, hsorted, hmem⟩ := cloneAndSort_cases packSizes hne
  have hpos' : ∀ s ∈ s0 :: rest, 0 < s := fun s hs => hpos s ((hmem s).mp hs)
  have hcomb : ∀ c, IsCombination (s0 :: rest) c ↔ IsCombination packSizes c :=
    fun c => ⟨fun h x hx => (hmem x).mp (h x hx), fun h x hx => (hmem x).mpr (h x hx)⟩
  have hrep : Representable (s0 :: rest) orderSize ↔ Representable packSizes orderSize :=
    ⟨fun ⟨c, h1, h2⟩ => ⟨c, (hcomb c).mp h1, h2⟩, fun ⟨c, h1, h2⟩ => ⟨c, (hcomb c).mpr h1, h2⟩⟩
  obtain ⟨raw, hraw, hrawc, hexact, hfallback⟩ :=
    computeRawPacks_spec s0 rest orderSize hpos' hsorted horder
  obtain ⟨o1, o2, o3⟩ := optimizePacks_spec (s0 :: rest) raw
  obtain ⟨t1, t2, t3, t4⟩ := toPackModelSlice_spec (optimizePacks (s0 :: rest) raw)
  have hcount : packCount (toPackModelSlice (optimizePacks (s0 :: rest) raw)) ≤ raw.length := by
    rw [t2]
    exact_mod_cast o2
  refine ⟨toPackModelSlice (optimizePacks (s0 :: rest) raw), s0, ?_,
    (hmem s0).mp (List.mem_cons_self _ _), ?_, ?_, t4, ?_, ?_⟩
  · simp [ComputePacks, isValidInput_eq_true packSizes orderSize hne horder, compute, hcs, hraw]
  · intro x hx
    rcases List.mem_cons.mp ((hmem x).mpr hx) with h | h
    · exact le_of_eq h.symm
    · exact (List.sorted_cons.mp hsorted).1 x h
  · intro p hp
    obtain ⟨h1, h2⟩ := t3 p hp
    refine ⟨?_, h2⟩
    rcases o3 _ h1 with h | h
    · exact (hmem _).mp h
    · exact (hmem _).mp (hrawc _ h)
  · intro hr
    obtain ⟨h1, h2⟩ := hexact (hrep.mpr hr)
    refine ⟨by rw [t1, o1, h1], fun c hc hsum => le_trans hcount ?_⟩
    exact_mod_cast h2 c ((hcomb c).mpr hc) hsum
  · intro hr
    obtain ⟨k, hk, hk1, hk2⟩ := hfallback (fun h => hr (hrep.mp h))
    refine ⟨k, ?_, hk1, hk2, ?_⟩
    · rw [t1, o1, hk, List.sum_replicate, nsmul_eq_mul]
    · have hlen : raw.length = k := by rw [hk, List.length_replicate]
      rw [hlen] at hcount
      exact hcount

theorem mergeFold_total (ts : List Int) (m : QuantityByPack) :
    mapTotal (ts.foldl (fun m T => mergeToPackSize T m) m) = mapTotal m := by
  induction ts generalizing m with
  | nil => rfl
  | cons T ts ih =>
    simp only [List.foldl_cons]
    rw [ih, mergeToPackSize, (mergeEntries_total T m m).1]

/-! ## Repeated pack sizes -/

theorem sorted_cons_of_mem {a : Int} {l : List Int} (hsorted : (a :: l).Sorted (· ≤ ·))
    (ha : a ∈ l) : ∃ l', l = a :: l' := by
  cases l with
  | nil => simp at ha
  | cons b l' =>
    have hab : a ≤ b := (List.sorted_cons.mp hsorted).1 b (List.mem_cons_self _ _)
    have hba : b ≤ a := by
      rcases List.mem_cons.mp ha with h | h
      · exact le_of_eq h.symm
      · exact (List.sorted_cons.mp (List.sorted_cons.mp hsorted).2).1 a h
    exact ⟨l', by rw [le_antisymm hab hba]⟩

theorem scan_dup (np : List Int) (t a : Int) (rest : List Int) (vw : Int × Int) :
    scan np t (a :: a :: rest) vw = scan np t (a :: rest) vw := by
  simp only [scan]
  by_cases hb : t - a < 0
  · simp [hb]
  · by_cases hlt : cell np (t - a) + 1 < vw.1
    · simp [hb, hlt]
    · simp [hb, hlt]

theorem scan_dedup (np : List Int) (t : Int) (l : List Int) (hsorted : l.Sorted (· ≤ ·))
    (vw : Int × Int) : scan np t l vw = scan np t l.dedup vw := by
  induction l generalizing vw with
  | nil => rfl
  | cons a l ih =>
    have hl := (List.sorted_cons.mp hsorted).2
    by_cases ha : a ∈ l
    · obtain ⟨l', rfl⟩ := sorted_cons_of_mem hsorted ha
      rw [List.dedup_cons_of_mem ha, scan_dup, ih hl]
    · rw [List.dedup_cons_of_not_mem ha]
      simp only [scan]
      split
      · rfl
      · split
        · exact ih hl _
        · exact ih hl _

theorem targetLoop_congr (L L' : List Int) (hpos : ∀ s ∈ L, 0 < s) (hpos' : ∀ s ∈ L', 0 < s)
    (hscan : ∀ np t vw, scan np t L vw = scan np t L' vw) (n : Nat) (B : Int) (tb : Tables)
    (hB : 0 ≤ B) (h1 : B + n ≤ tb.numPacks.length) (h2 : B + n ≤ tb.usedPackSizes.length) :
    targetLoop L n B tb = targetLoop L' n B tb := by
  induction n generalizing B tb with
  | zero => rfl
  | succ n ih =>
    obtain ⟨np, used⟩ := tb
    simp only at h1 h2
    push_cast at h1 h2
    have e1 := sizeLoop_eq_scan B L hpos np used hB (by omega) (by omega)
    have e2 := sizeLoop_eq_scan B L' hpos' np used hB (by omega) (by omega)
    rw [hscan] at e1
    simp only [targetLoop, e1, e2]
    exact ih (B + 1) _ (by omega) (by simp only [List.length_set]; omega)
      (by simp only [List.length_set]; omega)

theorem computeRawPacks_congr (s0 : Int) (rest rest' : List Int) (orderSize : Int)
    (hpos : ∀ s ∈ s0 :: rest, 0 < s) (hpos' : ∀ s ∈ s0 :: rest', 0 < s)
    (hscan : ∀ np t vw, scan np t (s0 :: rest) vw = scan np t (s0 :: rest') vw)
    (horder : 0 < orderSize) :
    computeRawPacks (s0 :: rest) orderSize = computeRawPacks (s0 :: rest') orderSize := by
  obtain ⟨N, hN⟩ : ∃ N : Nat, orderSize = N := ⟨orderSize.toNat, by omega⟩
  subst hN
  have hmk : makeSlice ((N : Int) + 1) = .ok (List.replicate (N + 1) 0) := by
    have h1 : (0 : Int) ≤ (N : Int) + 1 := by omega
    have h2 : ((N : Int) + 1).toNat = N + 1 := by omega
    simp [makeSlice, h1, h2]
  have hloop := targetLoop_congr (s0 :: rest) (s0 :: rest') hpos hpos' hscan N 1
    ⟨fillWithPlaceholderFromIndex (List.replicate (N + 1) 0) ((N : Int) + 1) 1,
      fillWithPlaceholderFromIndex (List.replicate (N + 1) 0) s0 1⟩ (by omega)
    (by simp only [fill_replicate, List.length_cons, List.length_replicate]; omega)
    (by simp only [fill_replicate, List.length_cons, List.length_replicate]; omega)
  have hlen : (fillWithPlaceholderFromIndex (List.replicate (N + 1) 0) ((N : Int) + 1) 1).length
      - 1 = N := by
    rw [fill_replicate]
    simp
  simp only [computeRawPacks, hmk, hlen, hloop]

theorem dedup_sorted_head (s0 : Int) (rest : List Int)
    (hsorted : (s0 :: rest).Sorted (· ≤ ·)) :
    ∃ rest', (s0 :: rest).dedup = s0 :: rest' := by
  have hsd : ((s0 :: rest).dedup).Sorted (· ≤ ·) :=
    List.Pairwise.sublist (List.dedup_sublist _) hsorted
  have hmem : s0 ∈ (s0 :: rest).dedup := List.mem_dedup.mpr (List.mem_cons_self _ _)
  cases hd : (s0 :: rest).dedup with
  | nil => rw [hd] at hmem; simp at hmem
  | cons b l =>
    rw [hd] at hsd hmem
    have hb : b ∈ s0 :: rest := List.mem_dedup.mp (hd ▸ List.mem_cons_self _ _)
    have h1 : s0 ≤ b := by
      rcases List.mem_cons.mp hb with h | h
      · exact le_of_eq h.symm
      · exact (List.sorted_cons.mp hsorted).1 b h
    have h2 : b ≤ s0 := by
      rcases List.mem_cons.mp hmem with h | h
      · exact le_of_eq h.symm
      · exact (List.sorted_cons.mp hsd).1 s0 h
    exact ⟨l, by rw [le_antisymm h1 h2]⟩

theorem mergeEntries_noop (T : Int) (es : List (Int × Int)) (r : QuantityByPack)
    (hin : ∀ e ∈ es, e.1 ∈ keys r) (hnf : ∀ e ∈ es, e.1 ≠ T → NoFire T e.1 (e.2.toNat : Int)) :
    mergeEntries T es r = r := by
  induction es with
  | nil => rfl
  | cons e es ih =>
    have hstep : unitLoop T e.1 e.2.toNat 0 0 r = r := by
      by_cases hT : e.1 = T
      · rw [hT]
        exact unitLoop_self T _ r (hT ▸ hin e (List.mem_cons_self _ _))
      · exact unitLoop_noFire T e.1 e.2.toNat 0 0 r (by ring) le_rfl
          (by simpa using hnf e (List.mem_cons_self _ _) hT)
    rw [mergeEntries_cons, hstep]
    exact ih (fun e' he' => hin e' (List.mem_cons_of_mem _ he'))
      (fun e' he' => hnf e' (List.mem_cons_of_mem _ he'))

theorem mergeToPackSize_idem (T : Int) (m : QuantityByPack) (hwf : WellFormed m) :
    mergeToPackSize T (mergeToPackSize T m) = mergeToPackSize T m := by
  obtain ⟨_, _, hwf', _, hnf⟩ := mergeToPackSize_spec T m hwf
  apply mergeEntries_noop
  · intro e he
    exact List.mem_map_of_mem Prod.fst he
  · intro e he hne
    rw [Int.toNat_of_nonneg (hwf'.nonneg e he)]
    exact hnf e he hne

theorem mergeToPackSize_of_le_keys (T : Int) (m : QuantityByPack) (hT : 0 < T)
    (hle : ∀ k ∈ keys m, T ≤ k) : mergeToPackSize T m = m := by
  apply mergeEntries_noop
  · intro e he
    exact List.mem_map_of_mem Prod.fst he
  · intro e he hne i hi1 _
    have hk := hle e.1 (List.mem_map_of_mem Prod.fst he)
    have hlt : T < e.1 := lt_of_le_of_ne hk (Ne.symm hne)
    have : e.1 ≤ i * e.1 := by nlinarith
    omega

theorem mergeRev_cons (a : Int) (l : List Int) (m : QuantityByPack) :
    (a :: l).reverse.foldl (fun m T => mergeToPackSize T m) m =
      mergeToPackSize a (l.reverse.foldl (fun m T => mergeToPackSize T m) m) := by
  simp [List.foldl_append]

theorem mergeRev_dedup (ts : List Int) (hsorted : ts.Sorted (· ≤ ·)) (m : QuantityByPack)
    (hwf : WellFormed m) :
    ts.reverse.foldl (fun m T => mergeToPackSize T m) m =
      ts.dedup.reverse.foldl (fun m T => mergeToPackSize T m) m := by
  induction ts with
  | nil => rfl
  | cons a l ih =>
    have hl := (List.sorted_cons.mp hsorted).2
    by_cases ha : a ∈ l
    · obtain ⟨l', rfl⟩ := sorted_cons_of_mem hsorted ha
      rw [List.dedup_cons_of_mem ha, ← ih hl, mergeRev_cons, mergeRev_cons]
      exact mergeToPackSize_idem a _ (mergeFold_spec l'.reverse m hwf).2.2.1
    · rw [List.dedup_cons_of_not_mem ha, mergeRev_cons, mergeRev_cons, ih hl]

theorem mergeToLargerPacks_dedup (L : List Int) (hsorted : L.Sorted (· ≤ ·))
    (hpos : ∀ s ∈ L, 0 < s) (m : QuantityByPack) (hwf : WellFormed m)
    (hkeys : ∀ k ∈ keys m, k ∈ L) :
    mergeToLargerPacks L m = mergeToLargerPacks L.dedup m := by
  induction L with
  | nil => rfl
  | cons a l ih =>
    have hl := (List.sorted_cons.mp hsorted).2
    have hle := (List.sorted_cons.mp hsorted).1
    by_cases ha : a ∈ l
    · obtain ⟨l', rfl⟩ := sorted_cons_of_mem hsorted ha
      have hkeys' : ∀ k ∈ keys m, k ∈ a :: l' := by
        intro k hk
        rcases List.mem_cons.mp (hkeys k hk) with h | h
        · exact h ▸ List.mem_cons_self _ _
        · exact h
      have hstep : mergeToLargerPacks (a :: a :: l') m = mergeToLargerPacks (a :: l') m := by
        simp only [mergeToLargerPacks, List.drop_one, List.tail_cons]
        rw [mergeRev_cons]
        apply mergeToPackSize_of_le_keys a _ (hpos a (List.mem_cons_self _ _))
        intro k hk
        rcases (mergeFold_spec l'.reverse m hwf).2.2.2 k hk with h | h
        · exact (List.sorted_cons.mp hl).1 k (List.mem_reverse.mp h)
        · rcases List.mem_cons.mp (hkeys' k h) with h' | h'
          · exact le_of_eq h'.symm
          · exact (List.sorted_cons.mp hl).1 k h'
      rw [hstep, List.dedup_cons_of_mem ha]
      exact ih hl (fun s hs => hpos s (List.mem_cons_of_mem _ hs)) hkeys'
    · rw [List.dedup_cons_of_not_mem ha]
      simp only [mergeToLargerPacks, List.drop_one, List.tail_cons]
      exact mergeRev_dedup l hl m hwf

theorem compute_dedup (s0 : Int) (rest : List Int) (orderSize : Int)
    (hpos : ∀ s ∈ s0 :: rest, 0 < s) (hsorted : (s0 :: rest).Sorted (· ≤ ·))
    (horder : 0 < orderSize) :
    compute (s0 :: rest).dedup orderSize = compute (s0 :: rest) orderSize := by
  obtain ⟨rest', hd⟩ := dedup_sorted_head s0 rest hsorted
  have hpos' : ∀ s ∈ s0 :: rest', 0 < s := by
    intro s hs
    rw [← hd] at hs
    exact hpos s (List.mem_dedup.mp hs)
  have hraw : computeRawPacks (s0 :: rest) orderSize = computeRawPacks (s0 :: rest') orderSize :=
    computeRawPacks_congr s0 rest rest' orderSize hpos hpos'
      (fun np t vw => by rw [← hd]; exact scan_dedup np t _ hsorted vw) horder
  obtain ⟨raw, hr, hcomb, _, _⟩ := computeRawPacks_spec s0 rest orderSize hpos hsorted horder
  have hopt : optimizePacks (s0 :: rest) raw = optimizePacks (s0 :: rest).dedup raw := by
    simp only [optimizePacks]
    rw [mergeToLargerPacks_dedup (s0 :: rest) hsorted hpos _
      (wellFormed_packSliceToQuantityByPackMap raw)
      (fun k hk => hcomb k ((packSliceToQuantityByPackMap_spec raw).2.2.2.2 k hk))]
  rw [hd] at hopt ⊢
  simp only [compute, ← hraw, hr, hopt]

theorem cloneAndSort_of_nodup (packSizes l : List Int) (hnd : l.Nodup)
    (hsame : ∀ x, x ∈ l ↔ x ∈ packSizes) :
    cloneAndSort l = (cloneAndSort packSizes).dedup := by
  have hs1 : (cloneAndSort l).Sorted (· ≤ ·) := List.sorted_insertionSort _ _
  have hs2 : ((cloneAndSort packSizes).dedup).Sorted (· ≤ ·) :=
    List.Pairwise.sublist (List.dedup_sublist _) (List.sorted_insertionSort _ _)
  have hp1 : (cloneAndSort l).Perm l := List.perm_insertionSort _ _
  have hp2 : (cloneAndSort packSizes).Perm packSizes := List.perm_insertionSort _ _
  have hperm : l.Perm (cloneAndSort packSizes).dedup :=
    (List.perm_ext_iff_of_nodup hnd (List.nodup_dedup _)).mpr (fun x => by
      rw [List.mem_dedup, hp2.mem_iff]
      exact hsame x)
  exact List.eq_of_perm_of_sorted (hp1.trans hperm) hs1 hs2

/-! ## The tables and the early exit -/

theorem computeRawPacks_eq_tables (packSizes : List Int) (orderSize : Int) :
    computeRawPacks packSizes orderSize =
      match computeTables packSizes orderSize with
      | .ok tb => computePacksByUsedPackSizes tb.usedPackSizes
      | .error e => .error e := by
  unfold computeRawPacks computeTables
  cases makeSlice (orderSize + 1) with
  | error e => rfl
  | ok xs =>
    cases packSizes with
    | nil => rfl
    | cons s0 rest => rfl

theorem sizeLoopSkipping_of_all_large (t : Int) (l : List Int) (tb : Tables)
    (h : ∀ x ∈ l, t - x < 0) : sizeLoopSkipping t l tb = .ok tb := by
  induction l with
  | nil => rfl
  | cons a l ih =>
    simp only [sizeLoopSkipping, h a (List.mem_cons_self _ _), if_true]
    exact ih (fun x hx => h x (List.mem_cons_of_mem _ hx))

theorem sizeLoop_eq_skipping (t : Int) (l : List Int) (hsorted : l.Sorted (· ≤ ·))
    (tb : Tables) : sizeLoop t l tb = sizeLoopSkipping t l tb := by
  induction l generalizing tb with
  | nil => rfl
  | cons a l ih =>
    have hl := (List.sorted_cons.mp hsorted).2
    have hle := (List.sorted_cons.mp hsorted).1
    by_cases hb : t - a < 0
    · have hall : ∀ x ∈ l, t - x < 0 := by
        intro x hx
        have := hle x hx
        omega
      simp only [sizeLoop, sizeLoopSkipping, hb, if_true]
      exact (sizeLoopSkipping_of_all_large t l tb hall).symm
    · simp only [sizeLoop, sizeLoopSkipping, hb, if_false]
      cases index tb.numPacks (t - a) with
      | error e => cases index tb.numPacks t <;> rfl
      | ok x =>
        cases index tb.numPacks t with
        | error e => rfl
        | ok y =>
          simp only
          split
          · cases store tb.numPacks t (x + 1) with
            | error e => cases store tb.usedPackSizes t a <;> rfl
            | ok np =>
              cases store tb.usedPackSizes t a with
              | error e => rfl
              | ok us => exact ih hl _
          · exact ih hl _

theorem targetLoop_eq_skipping (packSizes : List Int) (hsorted : packSizes.Sorted (· ≤ ·))
    (n : Nat) (t : Int) (tb : Tables) :
    targetLoop packSizes n t tb = targetLoopSkipping packSizes n t tb := by
  induction n generalizing t tb with
  | zero => rfl
  | succ n ih =>
    simp only [targetLoop, targetLoopSkipping, sizeLoop_eq_skipping t packSizes hsorted tb]
    cases sizeLoopSkipping t packSizes tb with
    | error e => rfl
    | ok tb' => exact ih _ _

theorem computeTables_eq_skipping (packSizes : List Int) (hsorted : packSizes.Sorted (· ≤ ·))
    (orderSize : Int) :
    computeTables packSizes orderSize = computeTablesSkipping packSizes orderSize := by
  unfold computeTables computeTablesSkipping
  cases makeSlice (orderSize + 1) with
  | error e => rfl
  | ok xs =>
    cases packSizes with
    | nil => rfl
    | cons s0 rest => exact targetLoop_eq_skipping _ hsorted _ _ _

theorem computeTables_spec (s0 : Int) (rest : List Int) (N : Nat)
    (hpos : ∀ s ∈ s0 :: rest, 0 < s) (hsorted : (s0 :: rest).Sorted (· ≤ ·)) :
    ∃ tb, computeTables (s0 :: rest) N = .ok tb ∧ TablesInv (s0 :: rest) N s0 (N + 1) tb := by
  have hmk : makeSlice ((N : Int) + 1) = .ok (List.replicate (N + 1) 0) := by
    have h1 : (0 : Int) ≤ (N : Int) + 1 := by omega
    have h2 : ((N : Int) + 1).toNat = N + 1 := by omega
    simp [makeSlice, h1, h2]
  have hlen : (fillWithPlaceholderFromIndex (List.replicate (N + 1) 0) ((N : Int) + 1) 1).length
      - 1 = N := by
    rw [fill_replicate]
    simp
  obtain ⟨tb, htb, hinv⟩ := targetLoop_spec hpos hsorted N 1 _
    (tablesInv_init (s0 :: rest) N s0) le_rfl (by omega)
  exact ⟨tb, by simp only [computeTables, hmk, hlen, htb], hinv⟩

theorem TablesInv.representable_iff {S : List Int} {N : Nat} {s0 : Int} {tb : Tables}
    (hpos : ∀ s ∈ S, 0 < s) (hs0 : s0 ∈ S) (h : TablesInv S N s0 (N + 1) tb) (t : Int)
    (h0 : 0 ≤ t) (htN : t ≤ N) : Representable S t ↔ cell tb.numPacks t ≠ N + 1 := by
  constructor
  · rintro ⟨d, hd, hsum⟩
    have h1 := h.le_combination hpos d hd t hsum htN
    have h2 := combination_length_le_sum hpos hd
    omega
  · intro hne
    obtain ⟨c, _, hcomb, hexact, _⟩ := walk_spec hpos hs0 h t.toNat t [] h0 htN (by omega)
    exact ⟨c, hcomb, (hexact hne).1⟩

theorem walk_mono (used : List Int) (fuel fuel' : Nat) (t : Int) (acc r : List Int)
    (hle : fuel ≤ fuel') (h : walk used fuel t acc = .ok r) : walk used fuel' t acc = .ok r := by
  induction fuel generalizing fuel' t acc with
  | zero =>
    by_cases ht : t > 0
    · simp [walk, ht] at h
    · simp only [walk, ht, if_false] at h
      rw [walk_nonpos used fuel' t acc (by omega)]
      exact h
  | succ fuel ih =>
    obtain ⟨f, rfl⟩ : ∃ f, fuel' = f + 1 := ⟨fuel' - 1, by omega⟩
    by_cases ht : t > 0
    · simp only [walk, ht, if_true] at h ⊢
      cases hidx : index used t with
      | error e => simp [hidx] at h
      | ok s =>
        simp only [hidx] at h ⊢
        exact ih f _ _ (by omega) h
    · simp only [walk, ht, if_false] at h ⊢
      exact h

theorem mul_le_of_dvd_of_covering (s0 n T : Int) (k : Nat) (hs0 : 0 < s0)
    (hk : (k : Int) * s0 < n + s0) (hdvd : s0 ∣ T) (hcover : n ≤ T) : (k : Int) * s0 ≤ T := by
  obtain ⟨j, rfl⟩ := hdvd
  rw [mul_comm s0 j]
  have hlt : ((k : Int) - 1) * s0 < j * s0 := by
    have : ((k : Int) - 1) * s0 = k * s0 - s0 := by ring
    rw [mul_comm s0 j] at hcover
    omega
  have hkj : (k : Int) - 1 < j := lt_of_mul_lt_mul_right hlt (le_of_lt hs0)
  exact mul_le_mul_of_nonneg_right (by omega) (le_of_lt hs0)

theorem dvd_combination_sum (s0 : Int) (S c : List Int) (hdiv : ∀ x ∈ S, s0 ∣ x)
    (hc : IsCombination S c) : s0 ∣ c.sum :=
  List.dvd_sum (fun x hx => hdiv x (hc x hx))

theorem ceil_mul_eq (s0 n : Int) (k : Nat) (hs0 : 0 < s0) (h1 : n ≤ k * s0)
    (h2 : (k : Int) * s0 < n + s0) : (n + s0 - 1) / s0 * s0 = k * s0 := by
  have hle : (k : Int) ≤ (n + s0 - 1) / s0 := (Int.le_ediv_iff_mul_le hs0).mpr (by omega)
  have hlt : (n + s0 - 1) / s0 < (k : Int) + 1 :=
    (Int.ediv_lt_iff_lt_mul hs0).mpr (by
      have : ((k : Int) + 1) * s0 = k * s0 + s0 := by ring
      omega)
  have hq : (n + s0 - 1) / s0 = k := by omega
  rw [hq]

/-! ## pack.go: validation, duplicates, comparison -/

theorem sizesValidLoop_iff (l : List Int) : sizesValidLoop l = true ↔ ∀ x ∈ l, 0 < x := by
  induction l with
  | nil => simp [sizesValidLoop]
  | cons a l ih =>
    by_cases ha : a ≤ 0
    · simp only [sizesValidLoop, ha, if_true, List.mem_cons, forall_eq_or_imp]
      constructor
      · intro h
        exact absurd h (by decide)
      · intro h
        omega
    · simp only [sizesValidLoop, ha, if_false, ih, List.mem_cons, forall_eq_or_imp]
      constructor
      · intro h
        exact ⟨by omega, h⟩
      · intro h
        exact h.2

theorem SizesValid_some (l : List Int) :
    SizesValid (some l) = true ↔ l ≠ [] ∧ ∀ x ∈ l, 0 < x := by
  cases l with
  | nil => simp [SizesValid, sliceElems]
  | cons a l =>
    have : SizesValid (some (a :: l)) = sizesValidLoop (a :: l) := by
      simp [SizesValid, sliceElems]
    rw [this, sizesValidLoop_iff]
    simp

theorem keys_setTrue (m : SizeSet) (k : Int) :
    (setTrue m k).map Prod.fst =
      if k ∈ m.map Prod.fst then m.map Prod.fst else m.map Prod.fst ++ [k] := by
  induction m with
  | nil => simp [setTrue]
  | cons e m ih =>
    obtain ⟨a, b⟩ := e
    by_cases h : a = k
    · subst h
      simp [setTrue]
    · have hk : k ≠ a := fun hh => h hh.symm
      simp only [setTrue, h, if_false, List.map_cons, ih, List.mem_cons, hk, false_or]
      split <;> simp

theorem sliceToSet_fold (l : List Int) (m : SizeSet) (hnd : (m.map Prod.fst).Nodup) :
    ((l.foldl setTrue m).map Prod.fst).Nodup ∧
      ∀ x, x ∈ (l.foldl setTrue m).map Prod.fst ↔ x ∈ m.map Prod.fst ∨ x ∈ l := by
  induction l generalizing m with
  | nil => simp [hnd]
  | cons a l ih =>
    have hnd' : ((setTrue m a).map Prod.fst).Nodup := by
      rw [keys_setTrue]
      split
      · exact hnd
      · rename_i hnot
        exact List.Nodup.append hnd (List.nodup_singleton a) (by
          intro x hx hx'
          simp only [List.mem_singleton] at hx'
          exact hnot (hx' ▸ hx))
    obtain ⟨h1, h2⟩ := ih (setTrue m a) hnd'
    refine ⟨h1, fun x => ?_⟩
    simp only [List.foldl_cons]
    rw [h2, keys_setTrue]
    split
    · rename_i hmem
      simp only [List.mem_cons]
      constructor
      · rintro (h | h)
        · exact Or.inl h
        · exact Or.inr (Or.inr h)
      · rintro (h | h | h)
        · exact Or.inl h
        · exact Or.inl (h ▸ hmem)
        · exact Or.inr h
    · simp only [List.mem_append, List.mem_singleton, List.mem_cons]
      tauto

theorem sliceElems_some (l : List Int) : sliceElems (some l) = l := rfl

theorem sliceElems_none : sliceElems none = [] := rfl

theorem setToSlice_fold (m : SizeSet) (acc : IntSlice) :
    sliceElems (m.foldl (fun result e => some (sliceElems result ++ [e.1])) acc) =
      sliceElems acc ++ m.map Prod.fst := by
  induction m generalizing acc with
  | nil => simp
  | cons e m ih =>
    rw [List.foldl_cons, ih, sliceElems_some, List.map_cons, List.append_assoc,
      List.singleton_append]

theorem sliceElems_RemoveDuplicateSizes (packSizes : IntSlice) :
    (sliceElems (RemoveDuplicateSizes packSizes)).Nodup ∧
      ∀ x, x ∈ sliceElems (RemoveDuplicateSizes packSizes) ↔ x ∈ sliceElems packSizes := by
  have hfold := sliceToSet_fold (sliceElems packSizes) [] (by simp)
  have helems : sliceElems (RemoveDuplicateSizes packSizes) =
      (sliceToSet packSizes).map Prod.fst := by
    rw [RemoveDuplicateSizes, setToSlice, setToSlice_fold, sliceElems_none, List.nil_append]
  rw [helems]
  exact ⟨hfold.1, fun x => by rw [sliceToSet, hfold.2 x]; simp⟩

theorem foundIn_iff (p1 : Pack) (s2 : List Pack) : foundIn p1 s2 = true ↔ p1 ∈ s2 := by
  induction s2 with
  | nil => simp [foundIn]
  | cons p2 s2 ih =>
    by_cases h : p1.Size = p2.Size ∧ p1.Quantity = p2.Quantity
    · have heq : p1 = p2 := by
        cases p1
        cases p2
        simp only [Pack.mk.injEq]
        exact h
      simp [foundIn, h, heq]
    · have hne : p1 ≠ p2 := by
        intro heq
        exact h (by rw [heq]; exact ⟨rfl, rfl⟩)
      simp [foundIn, h, ih, hne]

theorem equalSliceLoop_iff (s1 s2 : List Pack) :
    equalSliceLoop s1 s2 = true ↔ ∀ p ∈ s1, p ∈ s2 := by
  induction s1 with
  | nil => simp [equalSliceLoop]
  | cons p s1 ih =>
    by_cases h : foundIn p s2 = true
    · simp [equalSliceLoop, h, ih, (foundIn_iff p s2).mp h]
    · have hnot : p ∉ s2 := fun hm => h ((foundIn_iff p s2).mpr hm)
      simp [equalSliceLoop, h, hnot]

theorem EqualSlice_iff (s1 s2 : List Pack) :
    EqualSlice s1 s2 = true ↔ s1.length = s2.length ∧ ∀ p ∈ s1, p ∈ s2 := by
  by_cases h : s1.length = s2.length
  · simp [EqualSlice, h, equalSliceLoop_iff]
  · simp [EqualSlice, h]

theorem sizesValid_elems (packSizes : IntSlice) :
    SizesValid packSizes = true ↔
      sliceElems packSizes ≠ [] ∧ ∀ x ∈ sliceElems packSizes, 0 < x := by
  cases packSizes with
  | none => simp [SizesValid, sliceElems]
  | some l => exact SizesValid_some l

/-! ## Visiting order of the map entries -/

theorem unitLoop_lookup_delta (T p : Int) (n : Nat) (sum count : Int) (r : QuantityByPack)
    (k : Int) :
    lookup (unitLoop T p n sum count r) k = lookup r k + unitDelta T p n sum count k := by
  induction n generalizing sum count r with
  | zero => simp [unitLoop, unitDelta]
  | succ n ih =>
    by_cases h : sum + p = T
    · rw [unitLoop_fire T p n sum count r h, ih]
      simp only [unitDelta, h, if_true]
      have hstep : lookup (assign (assign r p (lookup r p - (count + 1))) T
          (lookup (assign r p (lookup r p - (count + 1))) T + 1)) k =
          lookup r k + ((if k = T then 1 else 0) - (if k = p then count + 1 else 0)) := by
        by_cases hkT : k = T
        · subst hkT
          rw [lookup_assign_self]
          by_cases hkp : k = p
          · subst hkp
            rw [lookup_assign_self]
            simp
            ring
          · rw [lookup_assign_ne _ _ (Ne.symm hkp)]
            simp [hkp]
        · rw [lookup_assign_ne _ _ (Ne.symm hkT)]
          by_cases hkp : k = p
          · subst hkp
            rw [lookup_assign_self]
            simp [hkT]
            ring
          · rw [lookup_assign_ne _ _ (Ne.symm hkp)]
            simp [hkT, hkp]
      rw [hstep]
      ring
    · rw [unitLoop_skip T p n sum count r h, ih]
      simp only [unitDelta, h, if_false]

theorem unitLoop_keys_of_mem (T p : Int) (n : Nat) (sum count : Int) (r : QuantityByPack)
    (hp : p ∈ keys r) (hT : T ∈ keys r) : keys (unitLoop T p n sum count r) = keys r := by
  induction n generalizing sum count r with
  | zero => rfl
  | succ n ih =>
    by_cases h : sum + p = T
    · rw [unitLoop_fire T p n sum count r h]
      have h1 : keys (assign r p (lookup r p - (count + 1))) = keys r :=
        keys_assign_of_mem r _ hp
      have h2 : keys (assign (assign r p (lookup r p - (count + 1))) T
          (lookup (assign r p (lookup r p - (count + 1))) T + 1)) = keys r := by
        rw [keys_assign_of_mem _ _ (h1 ▸ hT), h1]
      rw [ih _ _ _ (h2 ▸ hp) (h2 ▸ hT), h2]
    · rw [unitLoop_skip T p n sum count r h]
      exact ih _ _ r hp hT

theorem unitLoop_keys_eq (T p : Int) (n : Nat) (sum count : Int) (r : QuantityByPack)
    (hp : p ∈ keys r) :
    keys (unitLoop T p n sum count r) =
      if unitFires T p n sum = true ∧ T ∉ keys r then keys r ++ [T] else keys r := by
  by_cases hT : T ∈ keys r
  · rw [unitLoop_keys_of_mem T p n sum count r hp hT]
    simp [hT]
  · induction n generalizing sum count with
    | zero => simp [unitLoop, unitFires]
    | succ n ih =>
      by_cases h : sum + p = T
      · rw [unitLoop_fire T p n sum count r h]
        have h1 : keys (assign r p (lookup r p - (count + 1))) = keys r :=
          keys_assign_of_mem r _ hp
        have h2 : keys (assign (assign r p (lookup r p - (count + 1))) T
            (lookup (assign r p (lookup r p - (count + 1))) T + 1)) = keys r ++ [T] := by
          rw [keys_assign_of_not_mem _ _ (h1 ▸ hT), h1]
        rw [unitLoop_keys_of_mem T p n 0 0 _ (by rw [h2]; simp [hp]) (by rw [h2]; simp), h2]
        simp [unitFires, h, hT]
      · rw [unitLoop_skip T p n sum count r h, ih]
        simp [unitFires, h]

theorem mergeEntries_lookup_delta (T : Int) (es : List (Int × Int)) (r : QuantityByPack)
    (k : Int) :
    lookup (mergeEntries T es r) k =
      lookup r k + (es.map (fun e => unitDelta T e.1 e.2.toNat 0 0 k)).sum := by
  induction es generalizing r with
  | nil => simp [mergeEntries]
  | cons e es ih =>
    rw [mergeEntries_cons, ih, unitLoop_lookup_delta, List.map_cons, List.sum_cons]
    ring

theorem mergeEntries_keys_eq (T : Int) (es : List (Int × Int)) (r : QuantityByPack)
    (hin : ∀ e ∈ es, e.1 ∈ keys r) :
    keys (mergeEntries T es r) =
      if (∃ e ∈ es, unitFires T e.1 e.2.toNat 0 = true) ∧ T ∉ keys r then keys r ++ [T]
      else keys r := by
  induction es generalizing r with
  | nil => simp [mergeEntries]
  | cons e es ih =>
    have hmono := (unitLoop_keys T e.1 e.2.toNat 0 0 r).2.2
    have hin' : ∀ e' ∈ es, e'.1 ∈ keys (unitLoop T e.1 e.2.toNat 0 0 r) :=
      fun e' he' => hmono _ (hin e' (List.mem_cons_of_mem _ he'))
    rw [mergeEntries_cons, ih _ hin',
      unitLoop_keys_eq T e.1 e.2.toNat 0 0 r (hin e (List.mem_cons_self _ _))]
    by_cases hT : T ∈ keys r
    · simp [hT]
    · by_cases hf : unitFires T e.1 e.2.toNat 0 = true
      · simp [hT, hf]
      · have hiff : (∃ x ∈ e :: es, unitFires T x.1 x.2.toNat 0 = true) ↔
            (∃ x ∈ es, unitFires T x.1 x.2.toNat 0 = true) := by
          constructor
          · rintro ⟨x, hx, hP⟩
            rcases List.mem_cons.mp hx with h | h
            · rw [h] at hP
              exact absurd hP hf
            · exact ⟨x, h, hP⟩
          · rintro ⟨x, hx, hP⟩
            exact ⟨x, List.mem_cons_of_mem _ hx, hP⟩
        have hinner : (if unitFires T e.1 e.2.toNat 0 = true ∧ T ∉ keys r then keys r ++ [T]
            else keys r) = keys r := if_neg (fun hcon => hf hcon.1)
        rw [hinner]
        simp only [hiff]

theorem eq_of_keys_of_lookup (a b : QuantityByPack) (hkeys : keys a = keys b)
    (hnd : (keys a).Nodup) (hlook : ∀ k, lookup a k = lookup b k) : a = b := by
  induction a generalizing b with
  | nil =>
    cases b with
    | nil => rfl
    | cons e b => simp [keys] at hkeys
  | cons e a ih =>
    cases b with
    | nil => simp [keys] at hkeys
    | cons f b =>
      obtain ⟨k, v⟩ := e
      obtain ⟨k', w⟩ := f
      simp only [keys, List.map_cons, List.cons.injEq] at hkeys
      obtain ⟨hk, htail⟩ := hkeys
      subst hk
      simp only [keys, List.map_cons, List.nodup_cons] at hnd
      have hv : v = w := by
        have := hlook k
        simpa [lookup] using this
      subst hv
      have hrest : a = b := by
        apply ih b htail hnd.2
        intro x
        by_cases hx : k = x
        · subst hx
          rw [lookup_of_not_mem a k hnd.1, lookup_of_not_mem b k (by
            have : keys b = keys a := htail.symm
            rw [this]
            exact hnd.1)]
        · have := hlook x
          simpa [lookup, hx] using this
      rw [hrest]

theorem mergeEntries_perm (T : Int) (m : QuantityByPack) (es : List (Int × Int))
    (hnd : (keys m).Nodup) (hperm : es.Perm m) :
    mergeEntries T es m = mergeToPackSize T m := by
  have hin : ∀ e ∈ m, e.1 ∈ keys m := fun e he => List.mem_map_of_mem Prod.fst he
  have hin' : ∀ e ∈ es, e.1 ∈ keys m := fun e he => hin e (hperm.mem_iff.mp he)
  apply eq_of_keys_of_lookup
  · rw [mergeToPackSize, mergeEntries_keys_eq T es m hin', mergeEntries_keys_eq T m m hin]
    have hiff : (∃ e ∈ es, unitFires T e.1 e.2.toNat 0 = true) ↔
        (∃ e ∈ m, unitFires T e.1 e.2.toNat 0 = true) :=
      ⟨fun ⟨e, he, hf⟩ => ⟨e, hperm.mem_iff.mp he, hf⟩,
        fun ⟨e, he, hf⟩ => ⟨e, hperm.mem_iff.mpr he, hf⟩⟩
    simp only [hiff]
  · exact (mergeEntries_keys T es m).1 hnd
  · intro k
    rw [mergeToPackSize, mergeEntries_lookup_delta, mergeEntries_lookup_delta]
    congr 1
    exact (hperm.map _).sum_eq

theorem MergeRun.eq_fold {ts : List Int} {m out : QuantityByPack} (h : MergeRun ts m out)
    (hnd : (keys m).Nodup) : out = ts.foldl (fun m T => mergeToPackSize T m) m := by
  induction h with
  | done m => rfl
  | step T ts m es out hperm _ ih =>
    rw [mergeEntries_perm T m es hnd hperm] at ih
    rw [List.foldl_cons]
    exact ih ((mergeEntries_keys T m m).1 hnd)

theorem MergeRun.of_fold (ts : List Int) (m : QuantityByPack) :
    MergeRun ts m (ts.foldl (fun m T => mergeToPackSize T m) m) := by
  induction ts generalizing m with
  | nil => exact MergeRun.done m
  | cons T ts ih => exact MergeRun.step T ts m m _ (List.Perm.refl m) (ih _)

theorem quantityByPackMapToPackSlice_perm {es m : QuantityByPack} (h : es.Perm m) :
    (quantityByPackMapToPackSlice es).Perm (quantityByPackMapToPackSlice m) := by
  induction h with
  | nil => exact List.Perm.refl _
  | cons e _ ih =>
    obtain ⟨k, v⟩ := e
    exact List.Perm.append_left _ ih
  | swap e f l =>
    obtain ⟨k, v⟩ := e
    obtain ⟨k', v'⟩ := f
    simp only [quantityByPackMapToPackSlice]
    rw [← List.append_assoc, ← List.append_assoc]
    exact List.Perm.append_right _ List.perm_append_comm
  | trans _ _ ih1 ih2 => exact ih1.trans ih2

theorem countFold_lookup (packs : List Int) (m : QuantityByPack) (k : Int) :
    lookup (packs.foldl (fun result pack => assign result pack (lookup result pack + 1)) m) k =
      lookup m k + packs.count k := by
  induction packs generalizing m with
  | nil => simp
  | cons a packs ih =>
    rw [List.foldl_cons, ih]
    by_cases h : a = k
    · subst h
      rw [lookup_assign_self, List.count_cons_self]
      push_cast
      ring
    · rw [lookup_assign_ne _ _ h, List.count_cons_of_ne (Ne.symm h)]

theorem countFold_mem_keys (packs : List Int) (m : QuantityByPack) (x : Int) :
    x ∈ keys (packs.foldl (fun result pack => assign result pack (lookup result pack + 1)) m) ↔
      x ∈ keys m ∨ x ∈ packs := by
  induction packs generalizing m with
  | nil => simp
  | cons a packs ih =>
    rw [List.foldl_cons, ih, mem_keys_assign, List.mem_cons]
    tauto

theorem nodup_of_nodup_keys (m : QuantityByPack) (h : (keys m).Nodup) : m.Nodup :=
  List.Nodup.of_map Prod.fst h

theorem perm_of_keys_of_lookup (a b : QuantityByPack) (ha : (keys a).Nodup)
    (hb : (keys b).Nodup) (hkeys : ∀ k, k ∈ keys a ↔ k ∈ keys b)
    (hlook : ∀ k, lookup a k = lookup b k) : a.Perm b := by
  apply (List.perm_ext_iff_of_nodup (nodup_of_nodup_keys a ha) (nodup_of_nodup_keys b hb)).mpr
  intro e
  constructor
  · intro he
    have h1 := lookup_of_mem a ha e he
    have h2 := mem_of_mem_keys b e.1 ((hkeys e.1).mp (List.mem_map_of_mem Prod.fst he))
    rw [← hlook, h1] at h2
    exact h2
  · intro he
    have h1 := lookup_of_mem b hb e he
    have h2 := mem_of_mem_keys a e.1 ((hkeys e.1).mpr (List.mem_map_of_mem Prod.fst he))
    rw [hlook, h1] at h2
    exact h2

theorem packSliceToQuantityByPackMap_perm {packs packs' : List Int} (h : packs'.Perm packs) :
    (packSliceToQuantityByPackMap packs').Perm (packSliceToQuantityByPackMap packs) := by
  apply perm_of_keys_of_lookup
  · exact (packSliceToQuantityByPackMap_spec packs').2.2.1
  · exact (packSliceToQuantityByPackMap_spec packs).2.2.1
  · intro k
    simp only [packSliceToQuantityByPackMap, countFold_mem_keys, h.mem_iff]
  · intro k
    simp only [packSliceToQuantityByPackMap, countFold_lookup, h.count_eq]

theorem toPackModelRun_perm {packs packs' : List Int} {out : List Pack}
    (h : ToPackModelRun packs' out) (hperm : packs'.Perm packs) :
    out.Perm (toPackModelSlice packs) := by
  unfold ToPackModelRun at h
  unfold toPackModelSlice
  rw [← hperm.length_eq]
  by_cases hlen : packs'.length = 0
  · rw [if_pos hlen] at h
    rw [if_pos hlen, h]
  · rw [if_neg hlen] at h
    rw [if_neg hlen]
    obtain ⟨es, hes, rfl⟩ := h
    exact ((hes.trans (packSliceToQuantityByPackMap_perm hperm)).filter _).map _

theorem toPackModelRun_of_eq (packs : List Int) :
    ToPackModelRun packs (toPackModelSlice packs) := by
  unfold ToPackModelRun toPackModelSlice
  by_cases hlen : packs.length = 0
  · rw [if_pos hlen, if_pos hlen]
  · rw [if_neg hlen, if_neg hlen]
    exact ⟨_, List.Perm.refl _, rfl⟩

theorem optimizeRun_perm {packSizes packs out : List Int} (h : OptimizeRun packSizes packs out) :
    out.Perm (optimizePacks packSizes packs) := by
  obtain ⟨merged, es, hrun, hes, rfl⟩ := h
  have hm := hrun.eq_fold (packSliceToQuantityByPackMap_spec packs).2.2.1
  subst hm
  exact quantityByPackMapToPackSlice_perm hes

theorem computePacksRun_perm {packSizes : List Int} {orderSize : Int} {out : List Pack}
    (h : ComputePacksRun packSizes orderSize out) :
    ∃ r, ComputePacks packSizes orderSize = .ok r ∧ out.Perm r := by
  unfold ComputePacksRun at h
  by_cases hv : isValidInput packSizes orderSize = true
  · rw [if_pos hv] at h
    obtain ⟨raw, opt, hraw, hopt, hto⟩ := h
    refine ⟨toPackModelSlice (optimizePacks (cloneAndSort packSizes) raw), ?_,
      toPackModelRun_perm hto (optimizeRun_perm hopt)⟩
    simp [ComputePacks, hv, compute, hraw]
  · rw [if_neg hv] at h
    subst h
    exact ⟨[], by simp [ComputePacks, hv], List.Perm.refl _⟩

theorem computePacksRun_of_eq {packSizes : List Int} {orderSize : Int} {r : List Pack}
    (h : ComputePacks packSizes orderSize = .ok r) : ComputePacksRun packSizes orderSize r := by
  unfold ComputePacksRun
  by_cases hv : isValidInput packSizes orderSize = true
  · rw [if_pos hv]
    simp only [ComputePacks, hv, Bool.not_true, compute] at h
    cases hraw : computeRawPacks (cloneAndSort packSizes) orderSize with
    | error e => simp [hraw] at h
    | ok raw =>
      simp only [hraw, Bool.false_eq_true, if_false, Except.ok.injEq] at h
      subst h
      exact ⟨raw, optimizePacks (cloneAndSort packSizes) raw, hraw,
        ⟨_, _, MergeRun.of_fold _ _, List.Perm.refl _, rfl⟩, toPackModelRun_of_eq _⟩
  · rw [if_neg hv]
    simp only [ComputePacks] at h
    have hv' : isValidInput packSizes orderSize = false := by simpa using hv
    simp [hv'] at h
    exact h

theorem EqualSlice_iff_perm_of_nodup (s1 s2 : List Pack) (hnd : s1.Nodup) :
    EqualSlice s1 s2 = true ↔ s1.Perm s2 := by
  rw [EqualSlice_iff]
  constructor
  · rintro ⟨hlen, hsub⟩
    exact (List.subperm_of_subset hnd hsub).perm_of_length_le (le_of_eq hlen.symm)
  · intro hperm
    exact ⟨hperm.length_eq, fun p hp => hperm.mem_iff.mp hp⟩

/-! ## The 64-bit program agrees with the unbounded one while nothing wraps -/

theorem wrap64_eq (x : Int) (h0 : -2 ^ 63 ≤ x) (h1 : x < 2 ^ 63) : wrap64 x = x := by
  unfold wrap64
  rw [Int.emod_eq_of_lt (by omega) (by omega)]
  omega

theorem lookup_le_mapCount (r : QuantityByPack) (hnn : ∀ e ∈ r, 0 ≤ e.2) (k : Int) :
    lookup r k ≤ mapCount r := by
  induction r with
  | nil => simp [lookup, mapCount]
  | cons e r ih =>
    obtain ⟨a, b⟩ := e
    have hb : 0 ≤ b := hnn (a, b) (List.mem_cons_self _ _)
    have hr : ∀ e ∈ r, 0 ≤ e.2 := fun e he => hnn e (List.mem_cons_of_mem _ he)
    have ih' := ih hr
    have hnonneg : 0 ≤ mapCount r := by
      simp only [mapCount]
      exact List.sum_nonneg (by
        intro x hx
        obtain ⟨e, he, rfl⟩ := List.mem_map.mp hx
        exact hr e he)
    simp only [mapCount, List.map_cons, List.sum_cons] at ih' hnonneg ⊢
    by_cases h : a = k
    · simp only [lookup, h, if_true]
      omega
    · simp only [lookup, h, if_false]
      omega

theorem nonneg_assign (r : QuantityByPack) (k v : Int) (hnn : ∀ e ∈ r, 0 ≤ e.2)
    (hv : 0 ≤ v) : ∀ e ∈ assign r k v, 0 ≤ e.2 := by
  intro e he
  rcases mem_assign r k v e he with h | h
  · rw [h]
    exact hv
  · exact hnn e h

theorem unitLoop64_fire (T p : Int) (n : Nat) (sum count : Int) (r : QuantityByPack)
    (h : wrap64 (sum + p) = T) :
    unitLoop64 T p (n + 1) sum count r =
      unitLoop64 T p n 0 0
        (assign (assign r p (wrap64 (lookup r p - wrap64 (count + 1)))) T
          (wrap64 (lookup (assign r p (wrap64 (lookup r p - wrap64 (count + 1)))) T + 1))) := by
  simp [unitLoop64, h]

theorem unitLoop64_skip (T p : Int) (n : Nat) (sum count : Int) (r : QuantityByPack)
    (h : wrap64 (sum + p) ≠ T) :
    unitLoop64 T p (n + 1) sum count r =
      unitLoop64 T p n (wrap64 (sum + p)) (wrap64 (count + 1)) r := by
  simp [unitLoop64, h]

theorem unitLoop64_eq (T p : Int) (n : Nat) (sum count : Int) (r : QuantityByPack)
    (hp : 0 < p) (hsum : sum = count * p) (hcount : 0 ≤ count)
    (hfit : (count + n) * p < 2 ^ 63) (hnn : ∀ e ∈ r, 0 ≤ e.2)
    (hcnt : mapCount r < 2 ^ 63) (hunits : count + n ≤ lookup r p) :
    unitLoop64 T p n sum count r = unitLoop T p n sum count r ∧
      ∀ e ∈ unitLoop T p n sum count r, 0 ≤ e.2 := by
  induction n generalizing sum count r with
  | zero => exact ⟨rfl, hnn⟩
  | succ n ih =>
    push_cast at hfit hunits
    have hle : count + 1 ≤ (count + (n + 1)) * p := by nlinarith
    have hle2 : (count + 1) * p ≤ (count + (n + 1)) * p := by nlinarith
    have hw1 : wrap64 (sum + p) = sum + p := by
      apply wrap64_eq
      · nlinarith
      · have : sum + p = (count + 1) * p := by rw [hsum]; ring
        omega
    have hw2 : wrap64 (count + 1) = count + 1 := wrap64_eq _ (by omega) (by omega)
    have hlk := lookup_le_mapCount r hnn p
    by_cases h : sum + p = T
    · have hw3 : wrap64 (lookup r p - (count + 1)) = lookup r p - (count + 1) :=
        wrap64_eq _ (by omega) (by omega)
      have hnn1 := nonneg_assign r p (lookup r p - (count + 1)) hnn (by omega)
      have hc1 : mapCount (assign r p (lookup r p - (count + 1))) =
          mapCount r - (count + 1) := by
        rw [mapCount_assign]
        ring
      have hlk1 := lookup_le_mapCount _ hnn1 T
      have hlk1' := lookup_nonneg _ hnn1 T
      have hw4 : wrap64 (lookup (assign r p (lookup r p - (count + 1))) T + 1) =
          lookup (assign r p (lookup r p - (count + 1))) T + 1 :=
        wrap64_eq _ (by omega) (by omega)
      have hnn2 := nonneg_assign _ T
        (lookup (assign r p (lookup r p - (count + 1))) T + 1) hnn1 (by omega)
      have hc2 : mapCount (assign (assign r p (lookup r p - (count + 1))) T
          (lookup (assign r p (lookup r p - (count + 1))) T + 1)) = mapCount r - count := by
        rw [mapCount_assign, hc1]
        ring
      have hunits2 : (0 : Int) + n ≤ lookup (assign (assign r p (lookup r p - (count + 1))) T
          (lookup (assign r p (lookup r p - (count + 1))) T + 1)) p := by
        by_cases hpT : p = T
        · subst hpT
          rw [lookup_assign_self, lookup_assign_self]
          omega
        · rw [lookup_assign_ne _ _ (Ne.symm hpT), lookup_assign_self]
          omega
      obtain ⟨ih1, ih2⟩ := ih 0 0 _ (by ring) le_rfl (by nlinarith) hnn2 (by rw [hc2]; omega)
        hunits2
      rw [unitLoop_fire T p n sum count r h]
      refine ⟨?_, ih2⟩
      rw [unitLoop64_fire T p n sum count r (hw1.trans h), hw2, hw3, hw4]
      exact ih1
    · obtain ⟨ih1, ih2⟩ := ih (sum + p) (count + 1) r (by rw [hsum]; ring) (by omega)
        (by
          have : (count + 1 + (n : Int)) * p = (count + (n + 1)) * p := by ring
          omega) hnn hcnt (by omega)
      rw [unitLoop_skip T p n sum count r h]
      refine ⟨?_, ih2⟩
      rw [unitLoop64_skip T p n sum count r (by rw [hw1]; exact h), hw1, hw2]
      exact ih1

theorem unitDelta_nonneg_of_ne (T p : Int) (n : Nat) (sum count k : Int) (hk : k ≠ p)
    (hcount : 0 ≤ count) : 0 ≤ unitDelta T p n sum count k := by
  induction n generalizing sum count with
  | zero => simp [unitDelta]
  | succ n ih =>
    by_cases h : sum + p = T
    · have := ih 0 0 le_rfl
      have h2 : (if k = p then count + 1 else 0) = (0 : Int) := if_neg hk
      simp only [unitDelta, h, if_true, h2]
      by_cases hkT : k = T
      · rw [if_pos hkT]
        omega
      · rw [if_neg hkT]
        omega
    · simp only [unitDelta, h, if_false]
      exact ih _ _ (by omega)

theorem mergeEntries64_eq (T : Int) (es : List (Int × Int)) (r : QuantityByPack)
    (hnd : (keys es).Nodup)
    (hes : ∀ e ∈ es, 0 < e.1 ∧ 0 ≤ e.2 ∧ e.2 ≤ lookup r e.1 ∧ e.2 * e.1 < 2 ^ 63)
    (hnn : ∀ e ∈ r, 0 ≤ e.2) (hcnt : mapCount r < 2 ^ 63) :
    mergeEntries64 T es r = mergeEntries T es r := by
  induction es generalizing r with
  | nil => rfl
  | cons e es ih =>
    simp only [keys, List.map_cons, List.nodup_cons] at hnd
    obtain ⟨h1, h2, h3, h4⟩ := hes e (List.mem_cons_self _ _)
    have hcast : ((e.2.toNat : Nat) : Int) = e.2 := Int.toNat_of_nonneg h2
    obtain ⟨heq, hnn'⟩ := unitLoop64_eq T e.1 e.2.toNat 0 0 r h1 (by ring) le_rfl
      (by rw [hcast]; simpa using h4) hnn hcnt (by rw [hcast]; simpa using h3)
    have hcnt' := (unitLoop_total T e.1 e.2.toNat 0 0 r (by ring) le_rfl).2
    have hstep : mergeEntries64 T (e :: es) r =
        mergeEntries64 T es (unitLoop64 T e.1 e.2.toNat 0 0 r) := rfl
    rw [hstep, heq, mergeEntries_cons]
    apply ih _ hnd.2 _ hnn' (by omega)
    intro e' he'
    obtain ⟨g1, g2, g3, g4⟩ := hes e' (List.mem_cons_of_mem _ he')
    refine ⟨g1, g2, ?_, g4⟩
    have hne : e'.1 ≠ e.1 := by
      intro hcon
      apply hnd.1
      rw [← hcon]
      exact List.mem_map_of_mem Prod.fst he'
    rw [unitLoop_lookup_delta]
    have := unitDelta_nonneg_of_ne T e.1 e.2.toNat 0 0 e'.1 hne le_rfl
    omega

theorem entry_le_mapTotal (m : QuantityByPack) (hpos : ∀ e ∈ m, 0 < e.1)
    (hnn : ∀ e ∈ m, 0 ≤ e.2) (e : Int × Int) (he : e ∈ m) : e.2 * e.1 ≤ mapTotal m := by
  induction m with
  | nil => simp at he
  | cons a m ih =>
    have hrest : 0 ≤ mapTotal m := by
      simp only [mapTotal]
      apply List.sum_nonneg
      intro x hx
      obtain ⟨f, hf, rfl⟩ := List.mem_map.mp hx
      exact mul_nonneg (le_of_lt (hpos f (List.mem_cons_of_mem _ hf)))
        (hnn f (List.mem_cons_of_mem _ hf))
    have ha : 0 ≤ a.1 * a.2 :=
      mul_nonneg (le_of_lt (hpos a (List.mem_cons_self _ _))) (hnn a (List.mem_cons_self _ _))
    simp only [mapTotal, List.map_cons, List.sum_cons] at hrest ⊢
    rcases List.mem_cons.mp he with h | h
    · rw [h, mul_comm]
      omega
    · have := ih (fun f hf => hpos f (List.mem_cons_of_mem _ hf))
        (fun f hf => hnn f (List.mem_cons_of_mem _ hf)) h
      simp only [mapTotal] at this
      omega

theorem mapCount_le_mapTotal (m : QuantityByPack) (hpos : ∀ e ∈ m, 0 < e.1)
    (hnn : ∀ e ∈ m, 0 ≤ e.2) : mapCount m ≤ mapTotal m := by
  induction m with
  | nil => simp [mapCount, mapTotal]
  | cons a m ih =>
    have := ih (fun f hf => hpos f (List.mem_cons_of_mem _ hf))
      (fun f hf => hnn f (List.mem_cons_of_mem _ hf))
    have h1 := hpos a (List.mem_cons_self _ _)
    have h2 := hnn a (List.mem_cons_self _ _)
    simp only [mapCount, mapTotal, List.map_cons, List.sum_cons] at this ⊢
    nlinarith

theorem mergeToPackSize64_eq (T : Int) (m : QuantityByPack) (hwf : WellFormed m)
    (hpos : ∀ e ∈ m, 0 < e.1) (hfit : mapTotal m < 2 ^ 63) :
    mergeToPackSize64 T m = mergeToPackSize T m := by
  apply mergeEntries64_eq T m m hwf.nodup _ hwf.nonneg
  · have := mapCount_le_mapTotal m hpos hwf.nonneg
    omega
  · intro e he
    have := entry_le_mapTotal m hpos hwf.nonneg e he
    exact ⟨hpos e he, hwf.nonneg e he, le_of_eq (lookup_of_mem m hwf.nodup e he).symm,
      by omega⟩

theorem pos_keys_mergeToPackSize (T : Int) (m : QuantityByPack) (hwf : WellFormed m)
    (hT : 0 < T) (hpos : ∀ e ∈ m, 0 < e.1) : ∀ e ∈ mergeToPackSize T m, 0 < e.1 := by
  intro e he
  rcases (mergeToPackSize_spec T m hwf).2.2.2.1 e.1 (List.mem_map_of_mem Prod.fst he) with h | h
  · rw [h]
    exact hT
  · obtain ⟨f, hf, hfe⟩ := List.mem_map.mp h
    rw [← hfe]
    exact hpos f hf

theorem mergeFold64_eq (ts : List Int) (hts : ∀ T ∈ ts, 0 < T) (m : QuantityByPack)
    (hwf : WellFormed m) (hpos : ∀ e ∈ m, 0 < e.1) (hfit : mapTotal m < 2 ^ 63) :
    ts.foldl (fun m T => mergeToPackSize64 T m) m =
      ts.foldl (fun m T => mergeToPackSize T m) m := by
  induction ts generalizing m with
  | nil => rfl
  | cons T ts ih =>
    obtain ⟨h1, _, h3, _, _⟩ := mergeToPackSize_spec T m hwf
    rw [List.foldl_cons, List.foldl_cons, mergeToPackSize64_eq T m hwf hpos hfit]
    exact ih (fun T' hT' => hts T' (List.mem_cons_of_mem _ hT')) _ h3
      (pos_keys_mergeToPackSize T m hwf (hts T (List.mem_cons_self _ _)) hpos)
      (by rw [h1]; exact hfit)

theorem mergeToLargerPacks64_eq (packSizes : List Int) (hps : ∀ T ∈ packSizes, 0 < T)
    (m : QuantityByPack) (hwf : WellFormed m) (hpos : ∀ e ∈ m, 0 < e.1)
    (hfit : mapTotal m < 2 ^ 63) :
    mergeToLargerPacks64 packSizes m = mergeToLargerPacks packSizes m :=
  mergeFold64_eq _ (fun T hT => hps T (List.mem_of_mem_drop (List.mem_reverse.mp hT))) m hwf
    hpos hfit

theorem countFold64_eq (packs : List Int) (m : QuantityByPack)
    (hm : ∀ k, 0 ≤ lookup m k ∧ lookup m k + packs.length < 2 ^ 63) :
    packs.foldl (fun result pack => assign result pack (wrap64 (lookup result pack + 1))) m =
      packs.foldl (fun result pack => assign result pack (lookup result pack + 1)) m := by
  induction packs generalizing m with
  | nil => rfl
  | cons a packs ih =>
    have ha := hm a
    simp only [List.length_cons] at ha
    push_cast at ha
    rw [List.foldl_cons, List.foldl_cons, wrap64_eq _ (by omega) (by omega)]
    apply ih
    intro k
    have hk := hm k
    simp only [List.length_cons] at hk
    push_cast at hk
    by_cases h : a = k
    · subst h
      rw [lookup_assign_self]
      omega
    · rw [lookup_assign_ne _ _ h]
      omega

theorem packSliceToQuantityByPackMap64_eq (packs : List Int)
    (hlen : (packs.length : Int) < 2 ^ 63) :
    packSliceToQuantityByPackMap64 packs = packSliceToQuantityByPackMap packs := by
  apply countFold64_eq
  intro k
  simp only [lookup]
  omega

theorem length_le_sum_of_pos (packs : List Int) (hpos : ∀ p ∈ packs, 0 < p) :
    (packs.length : Int) ≤ packs.sum := by
  induction packs with
  | nil => simp
  | cons a packs ih =>
    have := hpos a (List.mem_cons_self _ _)
    have := ih (fun p hp => hpos p (List.mem_cons_of_mem _ hp))
    simp only [List.length_cons, List.sum_cons]
    push_cast
    omega

theorem optimizePacks64_eq (packSizes packs : List Int) (hps : ∀ T ∈ packSizes, 0 < T)
    (hpos : ∀ p ∈ packs, 0 < p) (hfit : packs.sum < 2 ^ 63) :
    optimizePacks64 packSizes packs = optimizePacks packSizes packs := by
  have hlen := length_le_sum_of_pos packs hpos
  obtain ⟨c1, _, _, _, c5⟩ := packSliceToQuantityByPackMap_spec packs
  unfold optimizePacks64 optimizePacks
  rw [packSliceToQuantityByPackMap64_eq packs (by omega),
    mergeToLargerPacks64_eq packSizes hps _ (wellFormed_packSliceToQuantityByPackMap packs)
      (fun e he => hpos _ (c5 _ (List.mem_map_of_mem Prod.fst he))) (by rw [c1]; exact hfit)]

theorem index_ok {xs : List Int} {i a : Int} (h : index xs i = .ok a) :
    0 ≤ i ∧ i < xs.length ∧ a = cell xs i := by
  unfold index at h
  split at h
  · rename_i hr
    injection h with h
    exact ⟨hr.1, hr.2, h.symm⟩
  · cases h

theorem TablesInv.cell_range {S : List Int} {N : Nat} {s0 B : Int} {tb : Tables}
    (hpos : ∀ s ∈ S, 0 < s) (h : TablesInv S N s0 B tb) (n : Nat) (t : Int) (h0 : 0 ≤ t)
    (htn : t ≤ n) (htN : t ≤ N) :
    0 ≤ cell tb.numPacks t ∧ cell tb.numPacks t ≤ N + 1 := by
  induction n generalizing t with
  | zero =>
    have : t = 0 := by omega
    subst this
    rw [h.zero]
    omega
  | succ n ih =>
    by_cases hle : t ≤ n
    · exact ih t h0 hle htN
    · by_cases ht0 : t = 0
      · subst ht0
        rw [h.zero]
        omega
      · by_cases hB : t < B
        · rcases (h.done t (by omega) hB).shape with ⟨hP, _⟩ | ⟨h1, h2, h3, h4⟩
          · rw [hP]
            omega
          · have hu := hpos _ h2
            have := ih (t - cell tb.usedPackSizes t) (by omega) (by push_cast at htn; omega)
              (by omega)
            omega
        · rw [(h.todo t (by omega) htN).1]
          omega

theorem sizeLoop64_eq (t : Int) (l : List Int) (tb : Tables) (ht1 : 1 ≤ t)
    (ht2 : t < 2 ^ 62) (hl : ∀ s ∈ l, 0 < s ∧ s < 2 ^ 63)
    (hcells : ∀ i, 0 ≤ i → i < t → 0 ≤ cell tb.numPacks i ∧ cell tb.numPacks i < 2 ^ 63 - 1) :
    sizeLoop64 t l tb = sizeLoop t l tb := by
  induction l generalizing tb with
  | nil => rfl
  | cons s rest ih =>
    obtain ⟨hs1, hs2⟩ := hl s (List.mem_cons_self _ _)
    have hrest : ∀ x ∈ rest, 0 < x ∧ x < 2 ^ 63 := fun x hx => hl x (List.mem_cons_of_mem _ hx)
    have hw : wrap64 (t - s) = t - s := wrap64_eq _ (by omega) (by omega)
    simp only [sizeLoop64, sizeLoop, hw]
    by_cases hb : t - s < 0
    · simp only [hb, if_true]
    · simp only [hb, if_false]
      cases h1 : index tb.numPacks (t - s) with
      | error e => cases index tb.numPacks t <;> rfl
      | ok a =>
        obtain ⟨_, _, ha⟩ := index_ok h1
        have hrange := hcells (t - s) (by omega) (by omega)
        rw [← ha] at hrange
        have hw2 : wrap64 (a + 1) = a + 1 := wrap64_eq _ (by omega) (by omega)
        cases h2 : index tb.numPacks t with
        | error e => rfl
        | ok b =>
          simp only [hw2]
          split
          · cases h3 : store tb.numPacks t (a + 1) with
            | error e => cases store tb.usedPackSizes t s <;> rfl
            | ok np =>
              cases h4 : store tb.usedPackSizes t s with
              | error e => rfl
              | ok us =>
                simp only
                apply ih _ hrest
                intro i hi0 hit
                have hnp : np = tb.numPacks.set t.toNat (a + 1) := by
                  unfold store at h3
                  split at h3
                  · injection h3 with h3
                    exact h3.symm
                  · cases h3
                simp only [hnp]
                rw [cell_set_ne _ (by omega) hi0 (by omega)]
                exact hcells i hi0 hit
          · exact ih tb hrest hcells

theorem targetLoop64_eq {S : List Int} {N : Nat} {s0 : Int}
    (hpos : ∀ s ∈ S, 0 < s) (hsorted : S.Sorted (· ≤ ·)) (hsz : ∀ s ∈ S, s < 2 ^ 63)
    (hN : (N : Int) + 1 < 2 ^ 62) (n : Nat) (B : Int) (tb : Tables)
    (h : TablesInv S N s0 B tb) (hB1 : 1 ≤ B) (hn : B + n = N + 1) :
    targetLoop64 S n B tb = targetLoop S n B tb := by
  induction n generalizing B tb with
  | zero => rfl
  | succ n ih =>
    have hs : sizeLoop64 B S tb = sizeLoop B S tb := by
      apply sizeLoop64_eq B S tb hB1 (by push_cast at hn; omega)
        (fun s hs => ⟨hpos s hs, hsz s hs⟩)
      intro i hi0 hiB
      have := h.cell_range hpos i.toNat i hi0 (by omega) (by push_cast at hn; omega)
      omega
    obtain ⟨tb1, h1, hinv⟩ := sizeLoop_step hpos hsorted h hB1 (by push_cast at hn; omega)
    have hw : wrap64 (B + 1) = B + 1 :=
      wrap64_eq _ (by omega) (by push_cast at hn; omega)
    simp only [targetLoop64, targetLoop, hs, h1, hw]
    exact ih (B + 1) tb1 hinv (by omega) (by push_cast at hn; omega)

theorem walk64_eq {S : List Int} {N : Nat} {s0 : Int} {tb : Tables}
    (hpos : ∀ s ∈ S, 0 < s) (hsz : ∀ s ∈ S, s < 2 ^ 63) (hs0 : s0 ∈ S)
    (h : TablesInv S N s0 (N + 1) tb) (hN : (N : Int) < 2 ^ 62)
    (fuel : Nat) (t : Int) (acc : List Int) (htN : t ≤ N) :
    walk64 tb.usedPackSizes fuel t acc = walk tb.usedPackSizes fuel t acc := by
  induction fuel generalizing t acc with
  | zero => rfl
  | succ fuel ih =>
    by_cases ht : t > 0
    · simp only [walk64, walk, ht, if_true]
      cases hidx : index tb.usedPackSizes t with
      | error e => rfl
      | ok u =>
        obtain ⟨_, _, hu⟩ := index_ok hidx
        have hmem : u ∈ S := by
          rw [hu]
          rcases (h.done t (by omega) (by omega)).shape with ⟨_, h2⟩ | ⟨_, h2, _, _⟩
          · rw [h2]
            exact hs0
          · exact h2
        have hu1 := hpos u hmem
        have hu2 := hsz u hmem
        have hw : wrap64 (t - u) = t - u := wrap64_eq _ (by omega) (by omega)
        simp only [hw]
        exact ih (t - u) _ (by omega)
    · simp only [walk64, walk, ht, if_false]

theorem makeSlice64_eq (maxLen : Nat) (N : Nat) (hlen : N + 1 ≤ maxLen)
    (hmax : (maxLen : Int) < 2 ^ 62) :
    wrap64 ((N : Int) + 1) = N + 1 ∧
      makeSlice64 maxLen ((N : Int) + 1) = .ok (List.replicate (N + 1) 0) ∧
      makeSlice ((N : Int) + 1) = .ok (List.replicate (N + 1) 0) := by
  have h1 : (0 : Int) ≤ (N : Int) + 1 := by omega
  have h2 : ((N : Int) + 1).toNat = N + 1 := by omega
  have h3 : (N : Int) + 1 ≤ maxLen := by exact_mod_cast hlen
  refine ⟨wrap64_eq _ (by omega) (by omega), ?_, by simp [makeSlice, h1, h2]⟩
  simp [makeSlice64, h1, h2, h3]

theorem computeTables64_eq (maxLen : Nat) (s0 : Int) (rest : List Int) (N : Nat)
    (hpos : ∀ s ∈ s0 :: rest, 0 < s) (hsorted : (s0 :: rest).Sorted (· ≤ ·))
    (hsz : ∀ s ∈ s0 :: rest, s < 2 ^ 63) (hlen : N + 1 ≤ maxLen)
    (hmax : (maxLen : Int) < 2 ^ 62) :
    computeTables64 maxLen (s0 :: rest) N = computeTables (s0 :: rest) N := by
  obtain ⟨hw, hmk64, hmk⟩ := makeSlice64_eq maxLen N hlen hmax
  have h3 : (N : Int) + 1 ≤ maxLen := by exact_mod_cast hlen
  have hlenf : (fillWithPlaceholderFromIndex (List.replicate (N + 1) 0) ((N : Int) + 1) 1).length
      - 1 = N := by
    rw [fill_replicate]
    simp
  rw [computeTables64, computeTables, hw, hmk64, hmk]
  simp only [hlenf]
  exact targetLoop64_eq hpos hsorted hsz (by omega) N 1 _ (tablesInv_init (s0 :: rest) N s0)
    le_rfl (by omega)

theorem computeRawPacks64_eq (maxLen : Nat) (s0 : Int) (rest : List Int) (N : Nat)
    (hpos : ∀ s ∈ s0 :: rest, 0 < s) (hsorted : (s0 :: rest).Sorted (· ≤ ·))
    (hsz : ∀ s ∈ s0 :: rest, s < 2 ^ 63) (hlen : N + 1 ≤ maxLen)
    (hmax : (maxLen : Int) < 2 ^ 62) :
    computeRawPacks64 maxLen (s0 :: rest) N = computeRawPacks (s0 :: rest) N := by
  have h3 : (N : Int) + 1 ≤ maxLen := by exact_mod_cast hlen
  obtain ⟨tb, htb, hinv⟩ := computeTables_spec s0 rest N hpos hsorted
  rw [computeRawPacks_eq_tables, computeRawPacks64,
    computeTables64_eq maxLen s0 rest N hpos hsorted hsz hlen hmax, htb]
  simp only [computePacksByUsedPackSizes64, computePacksByUsedPackSizes]
  exact walk64_eq hpos hsz (List.mem_cons_self _ _) hinv (by omega) _ _ _
    (by rw [hinv.len_used]; push_cast; omega)

theorem toPackModelSlice64_eq (packs : List Int) (hlen : (packs.length : Int) < 2 ^ 63) :
    toPackModelSlice64 packs = toPackModelSlice packs := by
  rw [toPackModelSlice64, toPackModelSlice, packSliceToQuantityByPackMap64_eq packs hlen]

theorem fallback_sum_lt (k : Nat) (s0 n : Int) (hs0 : 0 < s0) (hs1 : s0 < 2 ^ 63)
    (hn : n < 2 ^ 62) (hk : (k : Int) * s0 < n + s0) : (k : Int) * s0 < 2 ^ 63 := by
  rcases k with _ | _ | k
  · simp
  · simpa using hs1
  · have hk0 : (0 : Int) ≤ (k : Int) := Int.natCast_nonneg k
    push_cast at hk ⊢
    have h1 : s0 ≤ ((k : Int) + 1) * s0 := by nlinarith
    have h2 : ((k : Int) + 1 + 1) * s0 = ((k : Int) + 1) * s0 + s0 := by ring
    omega

/-- On a machine that allocates `orderSize + 1` elements, with sizes that are positive 64-bit
integers, the 64-bit program and the unbounded one return the same. -/
theorem ComputePacks64_eq (maxLen : Nat) (packSizes : List Int) (orderSize : Int)
    (hpos : ∀ s ∈ packSizes, 0 < s) (hsz : ∀ s ∈ packSizes, s < 2 ^ 63)
    (hlen : orderSize < maxLen) (hmax : (maxLen : Int) < 2 ^ 62) :
    ComputePacks64 maxLen packSizes orderSize = ComputePacks packSizes orderSize := by
  by_cases hvalid : packSizes ≠ [] ∧ 0 < orderSize
  · obtain ⟨hne, horder⟩ := hvalid
    obtain ⟨s0, rest, hcs, hsorted, hmem⟩ := cloneAndSort_cases packSizes hne
    have hpos1 : ∀ s ∈ s0 :: rest, 0 < s := fun s hs => hpos s ((hmem s).mp hs)
    have hsz1 : ∀ s ∈ s0 :: rest, s < 2 ^ 63 := fun s hs => hsz s ((hmem s).mp hs)
    obtain ⟨N, hN⟩ : ∃ N : Nat, orderSize = N := ⟨orderSize.toNat, by omega⟩
    subst hN
    have hlen1 : N + 1 ≤ maxLen := by omega
    have hraw64 := computeRawPacks64_eq maxLen s0 rest N hpos1 hsorted hsz1 hlen1 hmax
    obtain ⟨raw, hraw, hcomb, hexact, hfallback⟩ :=
      computeRawPacks_spec s0 rest N hpos1 hsorted horder
    have hrawpos : ∀ p ∈ raw, 0 < p := fun p hp => hpos1 p (hcomb p hp)
    have hsum : raw.sum < 2 ^ 63 := by
      by_cases hrep : Representable (s0 :: rest) N
      · rw [(hexact hrep).1]
        omega
      · obtain ⟨k, hk, _, hk2⟩ := hfallback hrep
        rw [hk, List.sum_replicate, nsmul_eq_mul]
        exact fallback_sum_lt k s0 N (hpos1 s0 (List.mem_cons_self _ _))
          (hsz1 s0 (List.mem_cons_self _ _)) (by omega) hk2
    have hl1 := (optimizePacks_spec (s0 :: rest) raw).2.1
    have hl2 := length_le_sum_of_pos raw hrawpos
    have hl3 : ((optimizePacks (s0 :: rest) raw).length : Int) < 2 ^ 63 := by
      have : ((optimizePacks (s0 :: rest) raw).length : Int) ≤ raw.length := by
        exact_mod_cast hl1
      omega
    have hv := isValidInput_eq_true packSizes N hne horder
    rw [ComputePacks64, ComputePacks, hv, hcs, compute64, compute, hraw64, hraw]
    simp only [Bool.not_true, Bool.false_eq_true, if_false]
    rw [optimizePacks64_eq (s0 :: rest) raw hpos1 hrawpos hsum, toPackModelSlice64_eq _ hl3]
  · have hinvalid : isValidInput packSizes orderSize = false := by
      by_cases hl : packSizes = []
      · simp [isValidInput, hl]
      · have : ¬ orderSize > 0 := fun h => hvalid ⟨hl, h⟩
        simp [isValidInput, this]
    simp [ComputePacks64, ComputePacks, hinvalid]

/-! ## Largest-first change-making -/

theorem greedyCount_zero (L : List Int) : greedyCount L 0 = 0 := by
  induction L with
  | nil => rfl
  | cons T rest ih => simp [greedyCount, ih]

theorem greedyCount_add_mul (S : Int) (tl : List Int) (y m : Int) (hS : S ≠ 0) :
    greedyCount (S :: tl) (y + m * S) = m + greedyCount (S :: tl) y := by
  simp only [greedyCount, Int.add_mul_ediv_right _ _ hS, Int.add_mul_emod_self]
  ring

theorem combination_singleton (s0 : Int) (c : List Int) (hc : IsCombination [s0] c) :
    c.sum = c.length * s0 := by
  induction c with
  | nil => simp
  | cons x c ih =>
    have hx : x = s0 := by simpa using hc x (List.mem_cons_self _ _)
    have := ih (fun y hy => hc y (List.mem_cons_of_mem _ hy))
    simp only [List.sum_cons, List.length_cons, this, hx]
    push_cast
    ring

/-- Largest-first change-making pays every amount that is a multiple of the last size, which
divides all the others, with the number of packs that `greedyCount` gives. -/
theorem greedy_realizable (s0 : Int) (hs0 : 0 < s0) (rest : List Int)
    (hrest : ∀ T ∈ rest, 0 < T ∧ s0 ∣ T) (a : Int) (ha : 0 ≤ a) (hdvd : s0 ∣ a) :
    ∃ c, IsCombination (rest ++ [s0]) c ∧ c.sum = a ∧
      (c.length : Int) = greedyCount (rest ++ [s0]) a := by
  induction rest generalizing a with
  | nil =>
    refine ⟨List.replicate (a / s0).toNat s0, ?_, ?_, ?_⟩
    · intro x hx
      rw [List.eq_of_mem_replicate hx]
      simp
    · rw [List.sum_replicate, nsmul_eq_mul]
      have h1 : 0 ≤ a / s0 := Int.ediv_nonneg ha (le_of_lt hs0)
      have h2 : (((a / s0).toNat : Nat) : Int) = a / s0 := Int.toNat_of_nonneg h1
      rw [h2]
      exact Int.ediv_mul_cancel hdvd
    · have h1 : 0 ≤ a / s0 := Int.ediv_nonneg ha (le_of_lt hs0)
      simp [greedyCount, Int.toNat_of_nonneg h1]
  | cons T rest ih =>
    obtain ⟨hT, hTd⟩ := hrest T (List.mem_cons_self _ _)
    have hr : ∀ U ∈ rest, 0 < U ∧ s0 ∣ U := fun U hU => hrest U (List.mem_cons_of_mem _ hU)
    have hmod0 : 0 ≤ a % T := Int.emod_nonneg a (ne_of_gt hT)
    have hmodd : s0 ∣ a % T := by
      rw [Int.emod_def]
      exact dvd_sub hdvd (Dvd.dvd.mul_right hTd _)
    obtain ⟨c, hc, hsum, hlen⟩ := ih hr (a % T) hmod0 hmodd
    have h1 : 0 ≤ a / T := Int.ediv_nonneg ha (le_of_lt hT)
    have h2 : (((a / T).toNat : Nat) : Int) = a / T := Int.toNat_of_nonneg h1
    refine ⟨List.replicate (a / T).toNat T ++ c, ?_, ?_, ?_⟩
    · intro x hx
      rcases List.mem_append.mp hx with h | h
      · rw [List.eq_of_mem_replicate h]
        simp
      · exact List.mem_cons_of_mem _ (hc x h)
    · rw [List.sum_append, List.sum_replicate, nsmul_eq_mul, h2, hsum]
      exact Int.ediv_add_emod' a T
    · simp only [List.length_append, List.length_replicate, List.cons_append, greedyCount]
      push_cast
      rw [h2, hlen]
      rfl

theorem ceil_cover (T S : Int) (hS : 0 < S) : T ≤ (T + S - 1) / S * S := by
  have h1 := Int.emod_add_ediv (T + S - 1) S
  have h2 := Int.emod_lt_of_pos (T + S - 1) hS
  have h3 : (T + S - 1) / S * S = S * ((T + S - 1) / S) := mul_comm _ _
  linarith

theorem combination_split (T : Int) (L c : List Int) (hc : IsCombination (T :: L) c) :
    ∃ (j : Nat) (d : List Int), IsCombination L d ∧ c.sum = j * T + d.sum ∧
      c.length = j + d.length := by
  induction c with
  | nil => exact ⟨0, [], fun x hx => absurd hx (List.not_mem_nil x), by simp, by simp⟩
  | cons x c ih =>
    obtain ⟨j, d, hd, hsum, hlen⟩ := ih (fun y hy => hc y (List.mem_cons_of_mem _ hy))
    rcases List.mem_cons.mp (hc x (List.mem_cons_self _ _)) with h | h
    · refine ⟨j + 1, d, hd, ?_, ?_⟩
      · rw [List.sum_cons, hsum, h]
        push_cast
        ring
      · rw [List.length_cons, hlen]
        omega
    · refine ⟨j, x :: d, ?_, ?_, ?_⟩
      · intro y hy
        rcases List.mem_cons.mp hy with h1 | h1
        · rw [h1]
          exact h
        · exact hd y h1
      · rw [List.sum_cons, List.sum_cons, hsum]
        ring
      · rw [List.length_cons, List.length_cons, hlen]
        omega

/-- One more size on top: when largest-first change-making is best possible with the sizes
from `S` down and the check of `greedyFriendly` holds for the new size `T`, it is best
possible with `T` as well. -/
theorem greedy_step (s0 T S : Int) (tl : List Int) (hT : 0 < T) (hTd : s0 ∣ T)
    (hS : 0 < S) (hSd : s0 ∣ S)
    (hR : ∀ a, 0 ≤ a → s0 ∣ a → ∃ c, IsCombination (S :: tl) c ∧ c.sum = a ∧
      (c.length : Int) = greedyCount (S :: tl) a)
    (hP : ∀ c, IsCombination (S :: tl) c → greedyCount (S :: tl) c.sum ≤ c.length)
    (hC : ∀ c, IsCombination (S :: tl) c → 0 ≤ c.sum ∧ s0 ∣ c.sum)
    (hfr : 1 + greedyCount (S :: tl) ((T + S - 1) / S * S - T) ≤ (T + S - 1) / S) :
    ∀ c, IsCombination (T :: S :: tl) c → greedyCount (T :: S :: tl) c.sum ≤ c.length := by
  have hK : ∀ x, 0 ≤ x → s0 ∣ x →
      greedyCount (S :: tl) (x - T) + 1 ≤ greedyCount (S :: tl) x := by
    intro x hx hxd
    have hd0 : 0 ≤ (T + S - 1) / S * S - T := by
      have := ceil_cover T S hS
      linarith
    have hdd : s0 ∣ (T + S - 1) / S * S - T := dvd_sub (Dvd.dvd.mul_left hSd _) hTd
    obtain ⟨cx, hcx, hsx, hlx⟩ := hR x hx hxd
    obtain ⟨cd, hcd, hsd, hld⟩ := hR _ hd0 hdd
    have hcat : IsCombination (S :: tl) (cx ++ cd) := by
      intro y hy
      rcases List.mem_append.mp hy with h | h
      · exact hcx y h
      · exact hcd y h
    have h1 := hP (cx ++ cd) hcat
    rw [List.sum_append, List.length_append, hsx, hsd] at h1
    push_cast at h1
    rw [hlx, hld] at h1
    have h2 : x + ((T + S - 1) / S * S - T) = (x - T) + (T + S - 1) / S * S := by ring
    rw [h2, greedyCount_add_mul S tl (x - T) _ (ne_of_gt hS)] at h1
    linarith
  have hA : ∀ n : Nat, ∀ x : Int, 0 ≤ x → x ≤ n → s0 ∣ x →
      greedyCount (T :: S :: tl) x ≤ greedyCount (S :: tl) x := by
    intro n
    induction n with
    | zero =>
      intro x hx0 hxn _
      have : x = 0 := by
        push_cast at hxn
        omega
      subst this
      rw [greedyCount_zero, greedyCount_zero]
    | succ n ih =>
      intro x hx0 hxn hxd
      by_cases hlt : x < T
      · have e1 : x / T = 0 := Int.ediv_eq_zero_of_lt hx0 hlt
        have e2 : x % T = x := Int.emod_eq_of_lt hx0 hlt
        have e3 : greedyCount (T :: S :: tl) x = x / T + greedyCount (S :: tl) (x % T) := rfl
        rw [e3, e1, e2]
        simp
      · have hx1 : x - T + 1 * T = x := by ring
        have e := greedyCount_add_mul T (S :: tl) (x - T) 1 (ne_of_gt hT)
        rw [hx1] at e
        have h1 := ih (x - T) (by omega) (by push_cast at hxn; omega) (dvd_sub hxd hTd)
        have h2 := hK x hx0 hxd
        rw [e]
        linarith
  intro c hc
  obtain ⟨j, d, hd, hsum, hlen⟩ := combination_split T (S :: tl) c hc
  obtain ⟨hd0, hdd⟩ := hC d hd
  have h1 := hA d.sum.toNat d.sum hd0 (by omega) hdd
  have h2 := hP d hd
  rw [hsum, add_comm, greedyCount_add_mul T (S :: tl) d.sum j (ne_of_gt hT), hlen]
  push_cast
  linarith

/-- Largest-first change-making is best possible on a list of positive sizes that passes
`greedyFriendly` and ends in a size `s0` dividing all the others: no combination of these
sizes has fewer packs than `greedyCount` gives for its total. -/
theorem greedy_optimal (s0 : Int) (hs0 : 0 < s0) (rest : List Int)
    (hrest : ∀ T ∈ rest, 0 < T ∧ s0 ∣ T) (hfr : greedyFriendly (rest ++ [s0]) = true)
    (c : List Int) (hc : IsCombination (rest ++ [s0]) c) :
    greedyCount (rest ++ [s0]) c.sum ≤ c.length := by
  induction rest generalizing c with
  | nil =>
    rw [combination_singleton s0 c hc]
    simp [greedyCount, Int.mul_ediv_cancel _ (ne_of_gt hs0)]
  | cons T rest ih =>
    obtain ⟨hT, hTd⟩ := hrest T (List.mem_cons_self _ _)
    have hr : ∀ U ∈ rest, 0 < U ∧ s0 ∣ U := fun U hU => hrest U (List.mem_cons_of_mem _ hU)
    have hall : ∀ U ∈ rest ++ [s0], 0 < U ∧ s0 ∣ U := by
      intro U hU
      rcases List.mem_append.mp hU with h | h
      · exact hr U h
      · rw [List.mem_singleton.mp h]
        exact ⟨hs0, dvd_rfl⟩
    obtain ⟨S, tl, hL⟩ : ∃ S tl, rest ++ [s0] = S :: tl := by
      cases rest with
      | nil => exact ⟨s0, [], rfl⟩
      | cons a l => exact ⟨a, l ++ [s0], rfl⟩
    obtain ⟨hS, hSd⟩ := hall S (by rw [hL]; exact List.mem_cons_self _ _)
    have hfr1 : greedyFriendly (T :: S :: tl) = true := by
      rw [← hL]
      exact hfr
    simp only [greedyFriendly, Bool.and_eq_true, decide_eq_true_eq] at hfr1
    have hstep := greedy_step s0 T S tl hT hTd hS hSd
      (by rw [← hL]; exact greedy_realizable s0 hs0 rest hr)
      (by rw [← hL]; exact fun d hd => ih hr (by rw [hL]; exact hfr1.2) d hd)
      (by
        rw [← hL]
        exact fun d hd => ⟨combination_sum_nonneg (fun x hx => (hall x hx).1) hd,
          dvd_combination_sum s0 _ d (fun x hx => (hall x hx).2) hd⟩)
      hfr1.1
    have hc1 : IsCombination (T :: S :: tl) c := by
      rw [← hL]
      exact hc
    have := hstep c hc1
    rw [← hL] at this
    exact this

/-! ## Consolidation of a run of the smallest size -/

/-- The innermost loop of `mergeToPackSize` on units of a size `s0` with target `d * s0`: of
`count + n` units every `d` become one pack of the target. -/
theorem unitLoop_divisor (s0 d : Int) (hs0 : 0 < s0) (hd : 2 ≤ d) (n : Nat) (count : Int)
    (r : QuantityByPack) (hc0 : 0 ≤ count) (hc1 : count < d) :
    mapCount (unitLoop (d * s0) s0 n (count * s0) count r) =
        mapCount r - (d - 1) * ((count + n) / d) ∧
      lookup (unitLoop (d * s0) s0 n (count * s0) count r) s0 =
        lookup r s0 - d * ((count + n) / d) := by
  have hne : d * s0 ≠ s0 := by
    intro h
    have : d * s0 = 1 * s0 := by rw [h, one_mul]
    have := Int.eq_of_mul_eq_mul_right (ne_of_gt hs0) this
    omega
  induction n generalizing count r with
  | zero =>
    have e : (count + ((0 : Nat) : Int)) / d = 0 := by
      rw [Nat.cast_zero, add_zero]
      exact Int.ediv_eq_zero_of_lt hc0 hc1
    rw [e]
    simp [unitLoop]
  | succ n ih =>
    by_cases h : count * s0 + s0 = d * s0
    · have hcd : count + 1 = d := by
        have : (count + 1) * s0 = d * s0 := by rw [← h]; ring
        exact Int.eq_of_mul_eq_mul_right (ne_of_gt hs0) this
      have e : (count + ((n + 1 : Nat) : Int)) / d = n / d + 1 := by
        have : count + ((n + 1 : Nat) : Int) = n + 1 * d := by
          push_cast
          omega
        rw [this, Int.add_mul_ediv_right _ _ (by omega : d ≠ 0)]
      have ih0 := ih 0
        (assign (assign r s0 (lookup r s0 - (count + 1))) (d * s0)
          (lookup (assign r s0 (lookup r s0 - (count + 1))) (d * s0) + 1)) le_rfl (by omega)
      simp only [zero_mul, zero_add] at ih0
      rw [unitLoop_fire _ _ _ _ _ _ h, ih0.1, ih0.2, e, mapCount_assign, mapCount_assign,
        lookup_assign_ne _ _ hne, lookup_assign_self]
      constructor
      · rw [← hcd]
        ring
      · rw [← hcd]
        ring
    · have hlt : count + 1 < d := by
        rcases lt_or_eq_of_le (show count + 1 ≤ d by omega) with h1 | h1
        · exact h1
        · exact absurd (by rw [← h1]; ring) h
      have e1 : count * s0 + s0 = (count + 1) * s0 := by ring
      have e2 : count + ((n + 1 : Nat) : Int) = count + 1 + n := by
        push_cast
        ring
      have ih1 := ih (count + 1) r (by omega) hlt
      rw [unitLoop_skip _ _ _ _ _ _ h, e1, e2]
      exact ih1

theorem mergeEntries_single (T s0 : Int) (hT : 0 < T) (es : List (Int × Int))
    (r : QuantityByPack) (hnd : (keys es).Nodup) (hbig : ∀ e ∈ es, e.1 ≠ s0 → T < e.1) :
    mergeEntries T es r = unitLoop T s0 (lookup es s0).toNat 0 0 r := by
  induction es generalizing r with
  | nil => rfl
  | cons e es ih =>
    obtain ⟨k, v⟩ := e
    have hnd1 : (keys es).Nodup := by
      simp only [keys, List.map_cons, List.nodup_cons] at hnd
      exact hnd.2
    have hbig1 : ∀ e ∈ es, e.1 ≠ s0 → T < e.1 := fun e he => hbig e (List.mem_cons_of_mem _ he)
    rw [mergeEntries_cons, ih _ hnd1 hbig1]
    by_cases hk : k = s0
    · have hnot : s0 ∉ keys es := by
        simp only [keys, List.map_cons, List.nodup_cons] at hnd
        rw [← hk]
        exact hnd.1
      have e1 : lookup es s0 = 0 := lookup_of_not_mem es s0 hnot
      have e2 : lookup ((k, v) :: es) s0 = v := by simp [lookup, hk]
      rw [e1, e2, hk]
      rfl
    · have hTk : T < k := hbig (k, v) (List.mem_cons_self _ _) hk
      have e2 : lookup ((k, v) :: es) s0 = lookup es s0 := by simp [lookup, hk]
      have hnf : NoFire T k (0 + (v.toNat : Int)) := by
        intro i hi1 _ h
        have : k ≤ i * k := by nlinarith
        omega
      have e3 : unitLoop T k v.toNat 0 0 r = r :=
        unitLoop_noFire T k v.toNat 0 0 r (by ring) le_rfl hnf
      rw [e2]
      show unitLoop T s0 (lookup es s0).toNat 0 0 (unitLoop T k v.toNat 0 0 r) = _
      rw [e3]

/-- Merging into descending targets that are multiples of `s0`, when every other key of the
map lies above the targets: the units of size `s0` are changed largest-first. -/
theorem mergeFold_greedy (s0 : Int) (hs0 : 0 < s0) (ts : List Int) (m : QuantityByPack)
    (hwf : WellFormed m) (hts : ∀ T ∈ ts, s0 ∣ T ∧ s0 < T) (hdesc : ts.Pairwise (· > ·))
    (hkeys : ∀ k ∈ keys m, k ≠ s0 → ∀ T ∈ ts, T < k) :
    mapCount (ts.foldl (fun m T => mergeToPackSize T m) m) =
      mapCount m - lookup m s0 + greedyCount (ts ++ [s0]) (lookup m s0 * s0) := by
  induction ts generalizing m with
  | nil => simp [greedyCount, Int.mul_ediv_cancel _ (ne_of_gt hs0)]
  | cons T ts ih =>
    obtain ⟨hTd, hTlt⟩ := hts T (List.mem_cons_self _ _)
    obtain ⟨d, hd⟩ := hTd
    have hT1 : T = d * s0 := by rw [hd, mul_comm]
    have hd2 : 2 ≤ d := by
      by_contra hcon
      have : d * s0 ≤ 1 * s0 := mul_le_mul_of_nonneg_right (by omega) (le_of_lt hs0)
      omega
    have hu : 0 ≤ lookup m s0 := lookup_nonneg m hwf.nonneg s0
    have hcast : ((lookup m s0).toNat : Int) = lookup m s0 := Int.toNat_of_nonneg hu
    have hsingle : mergeToPackSize T m = unitLoop T s0 (lookup m s0).toNat 0 0 m :=
      mergeEntries_single T s0 (by omega) m m hwf.nodup
        (fun e he hne => hkeys e.1 (List.mem_map_of_mem _ he) hne T (List.mem_cons_self _ _))
    obtain ⟨hcnt, hlk⟩ := unitLoop_divisor s0 d hs0 hd2 (lookup m s0).toNat 0 m le_rfl
      (by omega)
    simp only [zero_mul, zero_add, hcast] at hcnt hlk
    rw [← hT1, ← hsingle] at hcnt hlk
    obtain ⟨_, _, hwf1, hk1, _⟩ := mergeToPackSize_spec T m hwf
    have hdesc1 := List.pairwise_cons.mp hdesc
    have ih1 := ih (mergeToPackSize T m) hwf1
      (fun U hU => hts U (List.mem_cons_of_mem _ hU)) hdesc1.2
      (by
        intro k hk hne U hU
        rcases hk1 k hk with h | h
        · rw [h]
          exact hdesc1.1 U hU
        · exact hkeys k h hne U (List.mem_cons_of_mem _ hU))
    have e1 : lookup m s0 * s0 / (d * s0) = lookup m s0 / d :=
      Int.mul_ediv_mul_of_pos_left _ _ hs0
    have e2 : lookup m s0 * s0 % (d * s0) = (lookup m s0 - d * (lookup m s0 / d)) * s0 := by
      rw [mul_comm (lookup m s0) s0, mul_comm d s0, Int.mul_emod_mul_of_pos _ _ hs0,
        Int.emod_def]
      ring
    simp only [List.foldl_cons, List.cons_append, greedyCount, List.append_eq]
    rw [ih1, hcnt, hlk, hT1, e1, e2]
    ring

/-- An order that is not exactly representable, with distinct sizes that are all multiples
of one of them: the packs returned are those of largest-first change-making for the shipped
total. -/
theorem ComputePacks_fallback_greedy (packSizes : List Int) (orderSize : Int)
    (hne : packSizes ≠ []) (hnd : packSizes.Nodup) (hpos : ∀ s ∈ packSizes, 0 < s)
    (horder : 0 < orderSize) (hdiv : ∃ s0 ∈ packSizes, ∀ x ∈ packSizes, s0 ∣ x)
    (hrep : ¬ Representable packSizes orderSize) :
    ∃ r s0 rest, ComputePacks packSizes orderSize = .ok r ∧
      cloneAndSort packSizes = s0 :: rest ∧ (∀ x, x ∈ s0 :: rest ↔ x ∈ packSizes) ∧
      0 < s0 ∧ (∀ T ∈ rest, 0 < T ∧ s0 ∣ T) ∧
      packCount r = greedyCount (rest.reverse ++ [s0]) (shippedTotal r) := by
  obtain ⟨s0, rest, hcs, hsorted, hmem⟩ := cloneAndSort_cases packSizes hne
  have hpos1 : ∀ s ∈ s0 :: rest, 0 < s := fun s hs => hpos s ((hmem s).mp hs)
  have hs0 : 0 < s0 := hpos1 s0 (List.mem_cons_self _ _)
  have hmin : ∀ x ∈ rest, s0 ≤ x := (List.sorted_cons.mp hsorted).1
  have hnd1 : (s0 :: rest).Nodup := by
    rw [← hcs]
    exact (List.perm_insertionSort _ packSizes).nodup_iff.mpr hnd
  have hdvd : ∀ x ∈ s0 :: rest, s0 ∣ x := by
    obtain ⟨u, hu, hudiv⟩ := hdiv
    have hu0 : 0 < u := hpos u hu
    have h1 : u ∣ s0 := hudiv s0 ((hmem s0).mp (List.mem_cons_self _ _))
    have h2 : u ≤ s0 := Int.le_of_dvd hs0 h1
    have h3 : s0 ≤ u := by
      rcases List.mem_cons.mp ((hmem u).mpr hu) with h | h
      · exact le_of_eq h.symm
      · exact hmin u h
    have h4 : u = s0 := le_antisymm h2 h3
    intro x hx
    rw [← h4]
    exact hudiv x ((hmem x).mp hx)
  have hrep1 : ¬ Representable (s0 :: rest) orderSize :=
    fun ⟨c, h1, h2⟩ => hrep ⟨c, fun x hx => (hmem x).mp (h1 x hx), h2⟩
  obtain ⟨raw, hraw, _, _, hfallback⟩ :=
    computeRawPacks_spec s0 rest orderSize hpos1 hsorted horder
  obtain ⟨k, hk, _, _⟩ := hfallback hrep1
  obtain ⟨o1, _, _⟩ := optimizePacks_spec (s0 :: rest) raw
  obtain ⟨t1, t2, _, _⟩ := toPackModelSlice_spec (optimizePacks (s0 :: rest) raw)
  obtain ⟨_, c2, _, _, c5⟩ := packSliceToQuantityByPackMap_spec raw
  have hwf0 := wellFormed_packSliceToQuantityByPackMap raw
  obtain ⟨_, _, m3, _⟩ := mergeToLargerPacks_spec (s0 :: rest) _ hwf0
  obtain ⟨_, e2, _⟩ := quantityByPackMapToPackSlice_spec _ m3.nonneg
  have hlook : lookup (packSliceToQuantityByPackMap raw) s0 = k := by
    rw [packSliceToQuantityByPackMap, countFold_lookup, hk, List.count_replicate_self]
    simp [lookup]
  have hts : ∀ T ∈ rest.reverse, s0 ∣ T ∧ s0 < T := by
    intro T hT
    have hT1 : T ∈ rest := List.mem_reverse.mp hT
    refine ⟨hdvd T (List.mem_cons_of_mem _ hT1), lt_of_le_of_ne (hmin T hT1) ?_⟩
    intro h
    exact (List.nodup_cons.mp hnd1).1 (h ▸ hT1)
  have hdesc : rest.reverse.Pairwise (· > ·) := by
    rw [List.pairwise_reverse]
    have h1 : rest.Pairwise (· ≤ ·) := (List.sorted_cons.mp hsorted).2
    have h2 : rest.Pairwise (· ≠ ·) := (List.nodup_cons.mp hnd1).2
    exact (h1.and h2).imp (fun h => lt_of_le_of_ne h.1 h.2)
  have hkeys : ∀ x ∈ keys (packSliceToQuantityByPackMap raw), x ≠ s0 →
      ∀ T ∈ rest.reverse, T < x := by
    intro x hx hne1
    have := c5 x hx
    rw [hk] at this
    exact absurd (List.eq_of_mem_replicate this) hne1
  have hgreedy := mergeFold_greedy s0 hs0 rest.reverse _ hwf0 hts hdesc hkeys
  have hmerge : mergeToLargerPacks (s0 :: rest) (packSliceToQuantityByPackMap raw) =
      rest.reverse.foldl (fun m T => mergeToPackSize T m) (packSliceToQuantityByPackMap raw) :=
    rfl
  have hlen : (raw.length : Int) = k := by rw [hk, List.length_replicate]
  refine ⟨toPackModelSlice (optimizePacks (s0 :: rest) raw), s0, rest, ?_, hcs, hmem, hs0,
    fun T hT => ⟨hpos1 T (List.mem_cons_of_mem _ hT), hdvd T (List.mem_cons_of_mem _ hT)⟩, ?_⟩
  · simp [ComputePacks, isValidInput_eq_true packSizes orderSize hne horder, compute, hcs, hraw]
  · rw [t1, t2, o1, optimizePacks, e2, hmerge, hgreedy, hlook, c2, hlen, hk,
      List.sum_replicate, nsmul_eq_mul]
    ring

/-! ## The claims -/

/-- C1: for a non-empty list of positive pack sizes (distinct or not) and an order size
above zero, `ComputePacks` returns packs whose total `Size * Quantity` covers the order. -/
theorem computePacks_covers_order (packSizes : List Int) (orderSize : Int)
    (hne : packSizes ≠ []) (hpos : ∀ s ∈ packSizes, 0 < s) (horder : 0 < orderSize) :
    ∃ r, ComputePacks packSizes orderSize = .ok r ∧ orderSize ≤ shippedTotal r := by
  obtain ⟨r, s0, hr, _, _, _, _, hexact, hfallback⟩ :=
    ComputePacks_spec packSizes orderSize hne hpos horder
  refine ⟨r, hr, ?_⟩
  by_cases hrep : Representable packSizes orderSize
  · exact le_of_eq (hexact hrep).1.symm
  · obtain ⟨k, hk, hk1, _⟩ := hfallback hrep
    rw [hk]
    exact hk1

theorem computePacks_covers_order_witness :
    ([250, 500] ≠ ([] : List Int) ∧ (∀ s ∈ [250, 500], (0 : Int) < s) ∧ (0 : Int) < 251) ∧
      ∃ r, ComputePacks [250, 500] 251 = .ok r ∧ 251 ≤ shippedTotal r :=
  ⟨⟨by decide, by decide, by decide⟩,
    computePacks_covers_order [250, 500] 251 (by decide) (by decide) (by decide)⟩

/-- C2: when the order size is exactly a sum of allowed pack sizes, `ComputePacks` ships
exactly the order size, with allowed sizes only, and no exact combination of allowed packs
has fewer packs than the returned ones. -/
theorem computePacks_exact_minimal (packSizes : List Int) (orderSize : Int)
    (hne : packSizes ≠ []) (hpos : ∀ s ∈ packSizes, 0 < s) (horder : 0 < orderSize)
    (hrep : Representable packSizes orderSize) :
    ∃ r, ComputePacks packSizes orderSize = .ok r ∧ shippedTotal r = orderSize ∧
      (∀ p ∈ r, p.Size ∈ packSizes ∧ 0 < p.Quantity) ∧
      ∀ c, IsCombination packSizes c → c.sum = orderSize → packCount r ≤ c.length := by
  obtain ⟨r, s0, hr, _, _, hwf, _, hexact, _⟩ :=
    ComputePacks_spec packSizes orderSize hne hpos horder
  exact ⟨r, hr, (hexact hrep).1, hwf, (hexact hrep).2⟩

theorem computePacks_exact_minimal_witness :
    ∃ r, ComputePacks [23, 31, 53] 500000 = .ok r ∧ shippedTotal r = 500000 ∧
      (∀ p ∈ r, p.Size ∈ [23, 31, 53] ∧ 0 < p.Quantity) ∧
      ∀ c, IsCombination [23, 31, 53] c → c.sum = 500000 → packCount r ≤ c.length :=
  computePacks_exact_minimal [23, 31, 53] 500000 (by decide) (by decide) (by decide)
    ⟨List.replicate 9429 53 ++ (List.replicate 7 31 ++ List.replicate 2 23),
      by
        intro x hx
        simp only [List.mem_append, List.mem_replicate] at hx
        rcases hx with hx | hx | hx <;> simp [hx.2],
      by
        rw [List.sum_append, List.sum_append, List.sum_replicate, List.sum_replicate,
          List.sum_replicate]
        norm_num⟩

/-- C3: with `s0` the smallest pack size, the total shipped by `ComputePacks` exceeds the
order by at most `s0 - 1`, and by nothing when the order size is exactly representable. -/
theorem computePacks_overshoot_bound (packSizes : List Int) (orderSize s0 : Int)
    (hne : packSizes ≠ []) (hpos : ∀ s ∈ packSizes, 0 < s) (horder : 0 < orderSize)
    (hs0 : s0 ∈ packSizes) (hmin : ∀ x ∈ packSizes, s0 ≤ x) :
    ∃ r, ComputePacks packSizes orderSize = .ok r ∧ shippedTotal r ≤ orderSize + s0 - 1 ∧
      (Representable packSizes orderSize → shippedTotal r = orderSize) := by
  obtain ⟨r, m, hr, hm, hmmin, _, _, hexact, hfallback⟩ :=
    ComputePacks_spec packSizes orderSize hne hpos horder
  have hms : m = s0 := le_antisymm (hmmin s0 hs0) (hmin m hm)
  subst hms
  have hmpos := hpos m hm
  refine ⟨r, hr, ?_, fun hrep => (hexact hrep).1⟩
  by_cases hrep : Representable packSizes orderSize
  · rw [(hexact hrep).1]
    omega
  · obtain ⟨k, hk, _, hk2, _⟩ := hfallback hrep
    rw [hk]
    omega

theorem computePacks_overshoot_bound_witness :
    ∃ r, ComputePacks [500, 250] 251 = .ok r ∧ shippedTotal r ≤ 251 + 250 - 1 ∧
      (Representable [500, 250] 251 → shippedTotal r = 251) :=
  computePacks_overshoot_bound [500, 250] 251 250 (by decide) (by decide) (by decide)
    (by decide) (by decide)

/-- C4: for positive pack sizes and any order size, `ComputePacks` returns the empty result
exactly when the list of sizes is empty or the order size is at most zero; order sizes `0`
and `-1` give the empty result and no fault. -/
theorem computePacks_empty_iff (packSizes : List Int) (hpos : ∀ s ∈ packSizes, 0 < s)
    (orderSize : Int) :
    (ComputePacks packSizes orderSize = .ok [] ↔ packSizes = [] ∨ orderSize ≤ 0) ∧
      ComputePacks packSizes 0 = .ok [] ∧ ComputePacks packSizes (-1) = .ok [] := by
  refine ⟨⟨?_, ?_⟩, by simp [ComputePacks, isValidInput], by simp [ComputePacks, isValidInput]⟩
  · intro h
    by_contra hcon
    simp only [not_or, not_le] at hcon
    obtain ⟨r, s0, hr, _, _, _, _, hexact, hfallback⟩ :=
      ComputePacks_spec packSizes orderSize hcon.1 hpos hcon.2
    rw [h] at hr
    injection hr with hr
    subst hr
    have hzero : shippedTotal [] = 0 := rfl
    by_cases hrep : Representable packSizes orderSize
    · have := (hexact hrep).1
      omega
    · obtain ⟨k, hk, hk1, _⟩ := hfallback hrep
      omega
  · rintro (h | h)
    · subst h
      simp [ComputePacks, isValidInput]
    · have : ¬ orderSize > 0 := by omega
      simp [ComputePacks, isValidInput, this]

theorem computePacks_empty_iff_witness :
    (∀ s ∈ [250, 500], (0 : Int) < s) ∧
      ((ComputePacks [250, 500] 7 = .ok [] ↔ [250, 500] = ([] : List Int) ∨ (7 : Int) ≤ 0) ∧
        ComputePacks [250, 500] 0 = .ok [] ∧ ComputePacks [250, 500] (-1) = .ok []) :=
  ⟨by decide, computePacks_empty_iff [250, 500] (by decide) 7⟩

/-- C5, as stated, fails: for sizes 3 and 5 and an order of 4 the code ships two packs
of 3 (total 6) although one pack of 5 covers the order with a smaller total. -/
theorem computePacks_excess_not_minimal :
    ComputePacks [3, 5] 4 = .ok [{ Size := 3, Quantity := 2 }] ∧
      IsCombination [3, 5] [5] ∧ (4 : Int) ≤ ([5] : List Int).sum ∧
      ([5] : List Int).sum < shippedTotal [{ Size := 3, Quantity := 2 }] := by
  refine ⟨rfl, ?_, by decide, by decide⟩
  intro x hx
  simp only [List.mem_singleton] at hx
  simp [hx]

/-- C5, amended: with `s0` the smallest pack size, no combination of allowed packs covering
the order has a smaller total than the returned packs, as long as the order size is exactly
representable or the total of the combination is a multiple of `s0`. -/
theorem computePacks_excess_minimal_among (packSizes : List Int) (orderSize s0 : Int)
    (hne : packSizes ≠ []) (hpos : ∀ s ∈ packSizes, 0 < s) (horder : 0 < orderSize)
    (hs0 : s0 ∈ packSizes) (hmin : ∀ x ∈ packSizes, s0 ≤ x) :
    ∃ r, ComputePacks packSizes orderSize = .ok r ∧
      ∀ c, IsCombination packSizes c → orderSize ≤ c.sum →
        (Representable packSizes orderSize ∨ s0 ∣ c.sum) → shippedTotal r ≤ c.sum := by
  obtain ⟨r, m, hr, hm, hmmin, _, _, hexact, hfallback⟩ :=
    ComputePacks_spec packSizes orderSize hne hpos horder
  have hms : m = s0 := le_antisymm (hmmin s0 hs0) (hmin m hm)
  subst hms
  have hmpos := hpos m hm
  refine ⟨r, hr, fun c _ hcover hcase => ?_⟩
  by_cases hrep : Representable packSizes orderSize
  · rw [(hexact hrep).1]
    exact hcover
  · obtain ⟨k, hk, _, hk2, _⟩ := hfallback hrep
    rcases hcase with h | ⟨j, hj⟩
    · exact absurd h hrep
    · rw [hk, hj, mul_comm m j]
      have hlt : ((k : Int) - 1) * m < j * m := by
        have : ((k : Int) - 1) * m = k * m - m := by ring
        rw [hj, mul_comm m j] at hcover
        omega
      have hkj : (k : Int) - 1 < j := lt_of_mul_lt_mul_right hlt (le_of_lt hmpos)
      exact mul_le_mul_of_nonneg_right (by omega) (le_of_lt hmpos)

theorem computePacks_excess_minimal_among_witness :
    ∃ r, ComputePacks [3, 5] 4 = .ok r ∧
      ∀ c, IsCombination [3, 5] c → 4 ≤ c.sum →
        (Representable [3, 5] 4 ∨ (3 : Int) ∣ c.sum) → shippedTotal r ≤ c.sum :=
  computePacks_excess_minimal_among [3, 5] 4 3 (by decide) (by decide) (by decide)
    (by decide) (by decide)

/-- C6, as stated, fails: for sizes 2, 6 and 8 and an order of 11 the code ships one pack
of 8 and two packs of 2 (three packs, total 12) although two packs of 6 give the same total;
these sizes do not pass the check `greedyFriendly`. -/
theorem computePacks_count_not_minimal :
    ComputePacks [2, 6, 8] 11 =
        .ok [{ Size := 2, Quantity := 2 }, { Size := 8, Quantity := 1 }] ∧
      IsCombination [2, 6, 8] [6, 6] ∧
      ([6, 6] : List Int).sum =
        shippedTotal [{ Size := 2, Quantity := 2 }, { Size := 8, Quantity := 1 }] ∧
      (([6, 6] : List Int).length : Int) <
        packCount [{ Size := 2, Quantity := 2 }, { Size := 8, Quantity := 1 }] ∧
      greedyFriendly (cloneAndSort [2, 6, 8]).reverse = false := by
  refine ⟨rfl, ?_, by decide, by decide, by decide⟩
  intro x hx
  simp only [List.mem_cons, List.mem_singleton, List.not_mem_nil, or_false, or_self] at hx
  simp [hx]

/-- C6, amended: for distinct positive sizes and an order above zero, no combination of
allowed packs with the same total as the returned packs uses fewer packs, provided the order
is exactly representable, or every size is a multiple of one of them and the sizes, largest
first, pass the check `greedyFriendly` (as the sizes 250, 500, 1000, 2000 and 5000 do). -/
theorem computePacks_count_minimal_when_greedy (packSizes : List Int) (orderSize : Int)
    (hne : packSizes ≠ []) (hnd : packSizes.Nodup) (hpos : ∀ s ∈ packSizes, 0 < s)
    (horder : 0 < orderSize)
    (hcase : Representable packSizes orderSize ∨
      ((∃ s0 ∈ packSizes, ∀ x ∈ packSizes, s0 ∣ x) ∧
        greedyFriendly (cloneAndSort packSizes).reverse = true)) :
    ∃ r, ComputePacks packSizes orderSize = .ok r ∧
      ∀ c, IsCombination packSizes c → c.sum = shippedTotal r → packCount r ≤ c.length := by
  by_cases hrep : Representable packSizes orderSize
  · obtain ⟨r, s0, hr, _, _, _, _, hexact, _⟩ :=
      ComputePacks_spec packSizes orderSize hne hpos horder
    obtain ⟨h1, h2⟩ := hexact hrep
    exact ⟨r, hr, fun c hc hsum => h2 c hc (hsum.trans h1)⟩
  · rcases hcase with h | ⟨hdiv, hfr⟩
    · exact absurd h hrep
    · obtain ⟨r, s0, rest, hr, hcs, hmem, hs0, hrest, hcount⟩ :=
        ComputePacks_fallback_greedy packSizes orderSize hne hnd hpos horder hdiv hrep
      rw [hcs, List.reverse_cons] at hfr
      refine ⟨r, hr, fun c hc hsum => ?_⟩
      have hc1 : IsCombination (rest.reverse ++ [s0]) c := by
        intro x hx
        have hx1 : x ∈ s0 :: rest := (hmem x).mpr (hc x hx)
        rcases List.mem_cons.mp hx1 with h | h
        · rw [h]
          simp
        · exact List.mem_append_left _ (List.mem_reverse.mpr h)
      have := greedy_optimal s0 hs0 rest.reverse
        (fun T hT => hrest T (List.mem_reverse.mp hT)) hfr c hc1
      rw [hcount, ← hsum]
      exact this

theorem computePacks_count_minimal_when_greedy_witness :
    ∃ r, ComputePacks [250, 500, 1000, 2000, 5000] 12001 = .ok r ∧
      ∀ c, IsCombination [250, 500, 1000, 2000, 5000] c → c.sum = shippedTotal r →
        packCount r ≤ c.length :=
  computePacks_count_minimal_when_greedy [250, 500, 1000, 2000, 5000] 12001 (by decide)
    (by decide) (by decide) (by decide) (Or.inr ⟨⟨250, by decide, by decide⟩, by decide⟩)

/-- C7: on a valid input `ComputePacks` returns a well-formed result: every entry has a
size taken from `packSizes` and a quantity above zero, and no size occurs in two entries. -/
theorem computePacks_result_wellFormed (packSizes : List Int) (orderSize : Int)
    (hne : packSizes ≠ []) (hpos : ∀ s ∈ packSizes, 0 < s) (horder : 0 < orderSize) :
    ∃ r, ComputePacks packSizes orderSize = .ok r ∧
      (∀ p ∈ r, p.Size ∈ packSizes ∧ 0 < p.Quantity) ∧
      (r.map (fun p => p.Size)).Nodup := by
  obtain ⟨r, _, hr, _, _, hwf, hnd, _, _⟩ :=
    ComputePacks_spec packSizes orderSize hne hpos horder
  exact ⟨r, hr, hwf, hnd⟩

theorem computePacks_result_wellFormed_witness :
    ∃ r, ComputePacks [500, 250, 250] 501 = .ok r ∧
      (∀ p ∈ r, p.Size ∈ [500, 250, 250] ∧ 0 < p.Quantity) ∧
      (r.map (fun p => p.Size)).Nodup :=
  computePacks_result_wellFormed [500, 250, 250] 501 (by decide) (by decide) (by decide)

/-- C8: for two lists of positive pack sizes that are permutations of each other and any
order size, `ComputePacks` returns the same entries. -/
theorem computePacks_perm_invariant (l1 l2 : List Int) (orderSize : Int)
    (hperm : l1.Perm l2) (hpos : ∀ s ∈ l1, 0 < s) :
    ∃ r, ComputePacks l1 orderSize = .ok r ∧ ComputePacks l2 orderSize = .ok r := by
  have hsort : cloneAndSort l1 = cloneAndSort l2 :=
    List.eq_of_perm_of_sorted
      (((List.perm_insertionSort _ l1).trans hperm).trans (List.perm_insertionSort _ l2).symm)
      (List.sorted_insertionSort _ _) (List.sorted_insertionSort _ _)
  have hvalid : isValidInput l1 orderSize = isValidInput l2 orderSize := by
    simp only [isValidInput, hperm.length_eq]
  have heq : ComputePacks l1 orderSize = ComputePacks l2 orderSize := by
    simp only [ComputePacks, hsort, hvalid]
  by_cases hvalid1 : l1 ≠ [] ∧ 0 < orderSize
  · obtain ⟨r, _, hr, _⟩ := ComputePacks_spec l1 orderSize hvalid1.1 hpos hvalid1.2
    exact ⟨r, hr, heq ▸ hr⟩
  · have h1 : ComputePacks l1 orderSize = .ok [] := by
      have : isValidInput l1 orderSize = false := by
        by_cases hl : l1 = []
        · simp [isValidInput, hl]
        · have : ¬ orderSize > 0 := fun h => hvalid1 ⟨hl, h⟩
          simp [isValidInput, this]
      simp [ComputePacks, this]
    exact ⟨[], h1, heq ▸ h1⟩

theorem computePacks_perm_invariant_witness :
    ∃ r, ComputePacks [250, 2000, 1000, 500, 5000] 12001 = .ok r ∧
      ComputePacks [250, 500, 1000, 2000, 5000] 12001 = .ok r :=
  computePacks_perm_invariant [250, 2000, 1000, 500, 5000] [250, 500, 1000, 2000, 5000] 12001
    (by decide) (by decide)

/-- C9: repeated pack sizes do not change the answer: for a non-empty list of positive
sizes and an order size above zero, `ComputePacks` returns the same entries on the list and
on any duplicate-free list with the same values. -/
theorem computePacks_duplicates_irrelevant (packSizes deduped : List Int) (orderSize : Int)
    (hne : packSizes ≠ []) (hpos : ∀ s ∈ packSizes, 0 < s) (horder : 0 < orderSize)
    (hnd : deduped.Nodup) (hsame : ∀ x, x ∈ deduped ↔ x ∈ packSizes) :
    ∃ r, ComputePacks packSizes orderSize = .ok r ∧ ComputePacks deduped orderSize = .ok r := by
  obtain ⟨r, _, hr, _⟩ := ComputePacks_spec packSizes orderSize hne hpos horder
  refine ⟨r, hr, ?_⟩
  have hne' : deduped ≠ [] := by
    obtain ⟨x, hx⟩ := List.exists_mem_of_ne_nil packSizes hne
    exact List.ne_nil_of_mem ((hsame x).mpr hx)
  obtain ⟨s0, rest, hcs, hsorted, hmem⟩ := cloneAndSort_cases packSizes hne
  have hpos' : ∀ s ∈ s0 :: rest, 0 < s := fun s hs => hpos s ((hmem s).mp hs)
  rw [← hr]
  simp only [ComputePacks, isValidInput_eq_true packSizes orderSize hne horder,
    isValidInput_eq_true deduped orderSize hne' horder,
    cloneAndSort_of_nodup packSizes deduped hnd hsame, hcs]
  simpa using compute_dedup s0 rest orderSize hpos' hsorted horder

theorem computePacks_duplicates_irrelevant_witness :
    ∃ r, ComputePacks [250, 250, 500, 500, 1000] 501 = .ok r ∧
      ComputePacks [250, 500, 1000] 501 = .ok r :=
  computePacks_duplicates_irrelevant [250, 250, 500, 500, 1000] [250, 500, 1000] 501
    (by decide) (by decide) (by decide) (by decide)
    (by
      intro x
      simp only [List.mem_cons, List.not_mem_nil, or_false]
      tauto)

/-- C10, as stated, fails on 64-bit integers: six packs of size `3 * 2 ^ 61` are merged
into one pack of `2 ^ 62`, because the running `sum` wraps around and lands on the target
at the sixth unit; the sum of the packs drops from `18 * 2 ^ 61` to `2 ^ 62`. -/
theorem optimizePacks64_total_changes_on_wrap :
    optimizePacks64 [1, 2 ^ 62] (List.replicate 6 (3 * 2 ^ 61)) = [2 ^ 62] ∧
      (List.replicate 6 (3 * 2 ^ 61 : Int)).sum = 18 * 2 ^ 61 ∧
      ([2 ^ 62] : List Int).sum = 2 ^ 62 ∧
      mergeToPackSize64 (2 ^ 62) [(3 * 2 ^ 61, 6)] = [(3 * 2 ^ 61, 0), (2 ^ 62, 1)] ∧
      mapTotal [(3 * 2 ^ 61, 6)] = 18 * 2 ^ 61 ∧
      mapTotal [(3 * 2 ^ 61, 0), (2 ^ 62, 1)] = 2 ^ 62 := by
  refine ⟨by decide, by decide, by decide, by decide, by decide, by decide⟩

/-- C10, amended: consolidation preserves the total shipped quantity while that total fits
in a 64-bit `int`.  For positive pack sizes and a list of positive packs whose sum is below
`2 ^ 63`, `optimizePacks` returns packs with the same sum; `mergeToPackSize` and
`mergeToLargerPacks` keep the sum of `size * quantity` of an assignment with distinct
positive sizes, quantities that are not negative and a total below `2 ^ 63`. -/
theorem optimizePacks64_preserves_total (packSizes packs : List Int)
    (hps : ∀ T ∈ packSizes, 0 < T) (hpos : ∀ p ∈ packs, 0 < p) (hfit : packs.sum < 2 ^ 63) :
    (optimizePacks64 packSizes packs).sum = packs.sum ∧
      (∀ (packSize : Int) (m : QuantityByPack), WellFormed m → (∀ e ∈ m, 0 < e.1) →
        mapTotal m < 2 ^ 63 → mapTotal (mergeToPackSize64 packSize m) = mapTotal m) ∧
      (∀ m : QuantityByPack, WellFormed m → (∀ e ∈ m, 0 < e.1) → mapTotal m < 2 ^ 63 →
        mapTotal (mergeToLargerPacks64 packSizes m) = mapTotal m) := by
  refine ⟨?_, fun packSize m hwf hkeys hm => ?_, fun m hwf hkeys hm => ?_⟩
  · rw [optimizePacks64_eq packSizes packs hps hpos hfit]
    exact (optimizePacks_spec packSizes packs).1
  · rw [mergeToPackSize64_eq packSize m hwf hkeys hm]
    exact (mergeEntries_total packSize m m).1
  · rw [mergeToLargerPacks64_eq packSizes hps m hwf hkeys hm]
    exact mergeFold_total _ m

theorem optimizePacks64_preserves_total_witness :
    (optimizePacks64 [250, 500] [250, 250, 250]).sum = ([250, 250, 250] : List Int).sum ∧
      (∀ (packSize : Int) (m : QuantityByPack), WellFormed m → (∀ e ∈ m, 0 < e.1) →
        mapTotal m < 2 ^ 63 → mapTotal (mergeToPackSize64 packSize m) = mapTotal m) ∧
      (∀ m : QuantityByPack, WellFormed m → (∀ e ∈ m, 0 < e.1) → mapTotal m < 2 ^ 63 →
        mapTotal (mergeToLargerPacks64 [250, 500] m) = mapTotal m) :=
  optimizePacks64_preserves_total [250, 500] [250, 250, 250] (by decide) (by decide)
    (by decide)

/-- C11, as stated, fails on 64-bit integers: for the order size `2 ^ 63 - 1` the length
`orderSize + 1` wraps to `-2 ^ 63` and `make` faults on every machine; for the order size
`2 ^ 62` the length `2 ^ 62 + 1` is above what a machine with `maxLen < 2 ^ 62` allocates.
Both inputs pass `isValidInput`. -/
theorem computePacks64_faults_on_huge_order :
    isValidInput [1] (2 ^ 63 - 1) = true ∧
      wrap64 (2 ^ 63 - 1 + 1) = -2 ^ 63 ∧
      (∀ maxLen : Nat, ComputePacks64 maxLen [1] (2 ^ 63 - 1) = .error .lenOutOfRange) ∧
      isValidInput [1] (2 ^ 62) = true ∧
      ComputePacks64 (2 ^ 45) [1] (2 ^ 62) = .error .lenOutOfRange := by
  refine ⟨by decide, by decide, fun maxLen => ?_, by decide, rfl⟩
  have hv : isValidInput [1] (2 ^ 63 - 1) = true := by decide
  have hcs : cloneAndSort [1] = [1] := rfl
  have hw : wrap64 (2 ^ 63 - 1 + 1) = -2 ^ 63 := by decide
  have hmk : makeSlice64 maxLen (-2 ^ 63) = .error .lenOutOfRange := by
    simp [makeSlice64]
  rw [ComputePacks64, hv, hcs, compute64, computeRawPacks64, computeTables64, hw, hmk]
  rfl

/-- C11, amended: on a machine that allocates slices of up to `maxLen` elements, with
`maxLen < 2 ^ 62`, for a non-empty list of positive sizes (64-bit integers) and an order size
above zero and below `maxLen`, the run has no fault and nothing wraps: both loops finish with
slices of length `orderSize + 1` (every read and write is range-checked), every recorded size
is at least the smallest size, which is above zero, so the walk moves strictly downwards; it
needs no more than `orderSize` steps, and `ComputePacks` returns a result, the one computed
on unbounded integers. -/
theorem computePacks64_terminates_in_range (maxLen : Nat) (packSizes : List Int)
    (orderSize : Int) (hne : packSizes ≠ []) (hpos : ∀ s ∈ packSizes, 0 < s)
    (hsz : ∀ s ∈ packSizes, s < 2 ^ 63) (horder : 0 < orderSize)
    (hlen : orderSize < maxLen) (hmax : (maxLen : Int) < 2 ^ 62) :
    ∃ tb raw s0,
      computeTables64 maxLen (cloneAndSort packSizes) orderSize = .ok tb ∧
      (tb.numPacks.length : Int) = orderSize + 1 ∧
      (tb.usedPackSizes.length : Int) = orderSize + 1 ∧
      s0 ∈ packSizes ∧ (∀ x ∈ packSizes, s0 ≤ x) ∧ 0 < s0 ∧
      (∀ t, 1 ≤ t → t ≤ orderSize → s0 ≤ cell tb.usedPackSizes t) ∧
      (∀ fuel : Nat, orderSize ≤ fuel → walk64 tb.usedPackSizes fuel orderSize [] = .ok raw) ∧
      (raw.length : Int) ≤ orderSize ∧
      computeRawPacks64 maxLen (cloneAndSort packSizes) orderSize = .ok raw ∧
      ComputePacks64 maxLen packSizes orderSize =
        .ok (toPackModelSlice64 (optimizePacks64 (cloneAndSort packSizes) raw)) ∧
      ComputePacks64 maxLen packSizes orderSize = ComputePacks packSizes orderSize := by
  obtain ⟨s0, rest, hcs, hsorted, hmem⟩ := cloneAndSort_cases packSizes hne
  have hpos1 : ∀ s ∈ s0 :: rest, 0 < s := fun s hs => hpos s ((hmem s).mp hs)
  have hsz1 : ∀ s ∈ s0 :: rest, s < 2 ^ 63 := fun s hs => hsz s ((hmem s).mp hs)
  have hfacade := ComputePacks64_eq maxLen packSizes orderSize hpos hsz hlen hmax
  obtain ⟨N, hN⟩ : ∃ N : Nat, orderSize = N := ⟨orderSize.toNat, by omega⟩
  subst hN
  have hlen1 : N + 1 ≤ maxLen := by omega
  have hNlt : (N : Int) < 2 ^ 62 := by omega
  obtain ⟨tb, htb, hinv⟩ := computeTables_spec s0 rest N hpos1 hsorted
  have htb64 := computeTables64_eq maxLen s0 rest N hpos1 hsorted hsz1 hlen1 hmax
  have hraw64 := computeRawPacks64_eq maxLen s0 rest N hpos1 hsorted hsz1 hlen1 hmax
  have hs0 : s0 ∈ s0 :: rest := List.mem_cons_self _ _
  have hs0pos := hpos1 s0 hs0
  obtain ⟨c, hw, hcomb, hexact, hfallback⟩ := walk_spec hpos1 hs0 hinv N N [] (by omega) le_rfl
    le_rfl
  simp only [List.nil_append] at hw
  have hraw : computeRawPacks (s0 :: rest) N = .ok c := by
    rw [computeRawPacks_eq_tables, htb]
    simp only [computePacksByUsedPackSizes, hinv.len_used]
    push_cast
    have : ((N : Int) + 1 - 1) = N := by ring
    rw [this]
    exact walk_mono _ N (N + 1) N [] c (by omega) hw
  have hclen : (c.length : Int) ≤ N := by
    by_cases hP : cell tb.numPacks N = N + 1
    · obtain ⟨k, hk, _, hk2⟩ := hfallback hP
      rw [hk, List.length_replicate]
      by_contra hcon
      have h1 : (N : Int) + 1 ≤ k := by omega
      have h2 : ((N : Int) + 1) * s0 ≤ k * s0 := mul_le_mul_of_nonneg_right h1 (le_of_lt hs0pos)
      nlinarith
    · have h1 := (hexact hP).2
      have h2 := hinv.cell_le N (by omega) (by omega) hP
      omega
  have hv := isValidInput_eq_true packSizes N hne horder
  refine ⟨tb, c, s0, by rw [hcs, htb64]; exact htb, by rw [hinv.len_np]; push_cast; ring,
    by rw [hinv.len_used]; push_cast; ring, (hmem s0).mp hs0, ?_, hs0pos, ?_, ?_, hclen,
    by rw [hcs, hraw64]; exact hraw, ?_, hfacade⟩
  · intro x hx
    rcases List.mem_cons.mp ((hmem x).mpr hx) with h | h
    · exact le_of_eq h.symm
    · exact (List.sorted_cons.mp hsorted).1 x h
  · intro t ht1 htN
    rcases (hinv.done t ht1 (by omega)).shape with ⟨_, hu⟩ | ⟨_, hmemu, _, _⟩
    · exact le_of_eq hu.symm
    · rcases List.mem_cons.mp hmemu with h | h
      · exact le_of_eq h.symm
      · exact (List.sorted_cons.mp hsorted).1 _ h
  · intro fuel hfuel
    rw [walk64_eq hpos1 hsz1 hs0 hinv hNlt fuel N [] le_rfl]
    exact walk_mono _ N fuel N [] c (by omega) hw
  · rw [ComputePacks64, hv, hcs, compute64, hraw64, hraw]
    rfl

theorem computePacks64_terminates_in_range_witness :
    ∃ tb raw s0,
      computeTables64 (2 ^ 45) (cloneAndSort [500, 250]) 251 = .ok tb ∧
      (tb.numPacks.length : Int) = 251 + 1 ∧
      (tb.usedPackSizes.length : Int) = 251 + 1 ∧
      s0 ∈ [500, 250] ∧ (∀ x ∈ [500, 250], s0 ≤ x) ∧ 0 < s0 ∧
      (∀ t, 1 ≤ t → t ≤ 251 → s0 ≤ cell tb.usedPackSizes t) ∧
      (∀ fuel : Nat, (251 : Int) ≤ fuel → walk64 tb.usedPackSizes fuel 251 [] = .ok raw) ∧
      (raw.length : Int) ≤ 251 ∧
      computeRawPacks64 (2 ^ 45) (cloneAndSort [500, 250]) 251 = .ok raw ∧
      ComputePacks64 (2 ^ 45) [500, 250] 251 =
        .ok (toPackModelSlice64 (optimizePacks64 (cloneAndSort [500, 250]) raw)) ∧
      ComputePacks64 (2 ^ 45) [500, 250] 251 = ComputePacks [500, 250] 251 :=
  computePacks64_terminates_in_range (2 ^ 45) [500, 250] 251 (by decide) (by decide)
    (by decide) (by decide) (by decide) (by decide)

/-- C12, as stated, fails: with the size `-1` and an order of 1 the inner loop reads
`numPacks[2]` in a slice of length 2, and with the size `0` the reconstruction walk never
lowers its target; on 64-bit integers the same two runs fault in the same way, and with the
size `1` and an order of `2 ^ 62` the slices cannot be made. -/
theorem computePacks_faults_on_nonpositive_size :
    ComputePacks [-1] 1 = .error .indexOutOfRange ∧
      ComputePacks [0] 1 = .error .diverges ∧
      computeTables [0] 1 = .ok ⟨[0, 2], [0, 0]⟩ ∧
      (∀ (fuel : Nat) (result : List Int), walk [0, 0] fuel 1 result = .error .diverges) ∧
      ComputePacks64 (2 ^ 45) [-1] 1 = .error .indexOutOfRange ∧
      ComputePacks64 (2 ^ 45) [0] 1 = .error .diverges ∧
      computeTables64 (2 ^ 45) [0] 1 = .ok ⟨[0, 2], [0, 0]⟩ ∧
      (∀ (fuel : Nat) (result : List Int), walk64 [0, 0] fuel 1 result = .error .diverges) ∧
      ComputePacks64 (2 ^ 45) [1] (2 ^ 62) = .error .lenOutOfRange := by
  refine ⟨rfl, rfl, rfl, fun fuel => ?_, rfl, rfl, rfl, fun fuel => ?_, rfl⟩
  · induction fuel with
    | zero => intro result; rfl
    | succ fuel ih =>
      intro result
      have hidx : index [0, 0] 1 = .ok 0 := rfl
      have hpos : (1 : Int) > 0 := by decide
      simp only [walk, hpos, if_true, hidx]
      exact ih _
  · induction fuel with
    | zero => intro result; rfl
    | succ fuel ih =>
      intro result
      have hidx : index [0, 0] 1 = .ok 0 := rfl
      have hpos : (1 : Int) > 0 := by decide
      have hw : wrap64 (1 - 0) = 1 := by decide
      rw [walk64, if_pos hpos, hidx]
      simp only [hw]
      exact ih _

/-- C12, amended: on positive pack sizes and an order the machine has room for, the core
never faults.  On a machine that allocates slices of up to `maxLen` elements, with
`maxLen < 2 ^ 62`, for every list of positive sizes (64-bit integers) and every order size
that is below `maxLen` unless the list is empty, `ComputePacks` returns a result, the one
computed on unbounded integers; it is empty when the list of sizes is empty or the order size
is at most zero, and otherwise is not empty and ships at least the order. -/
theorem computePacks64_never_faults_in_range (maxLen : Nat) (packSizes : List Int)
    (orderSize : Int) (hpos : ∀ s ∈ packSizes, 0 < s) (hsz : ∀ s ∈ packSizes, s < 2 ^ 63)
    (hlen : packSizes ≠ [] → orderSize < maxLen) (hmax : (maxLen : Int) < 2 ^ 62) :
    ∃ r, ComputePacks64 maxLen packSizes orderSize = .ok r ∧
      ComputePacks packSizes orderSize = .ok r ∧
      (packSizes = [] ∨ orderSize ≤ 0 → r = []) ∧
      (packSizes ≠ [] → 0 < orderSize → r ≠ [] ∧ orderSize ≤ shippedTotal r) := by
  by_cases hvalid : packSizes ≠ [] ∧ 0 < orderSize
  · obtain ⟨r, s0, hr, _, _, _, _, hexact, hfallback⟩ :=
      ComputePacks_spec packSizes orderSize hvalid.1 hpos hvalid.2
    have hcover : orderSize ≤ shippedTotal r := by
      by_cases hrep : Representable packSizes orderSize
      · exact le_of_eq (hexact hrep).1.symm
      · obtain ⟨k, hk, hk1, _⟩ := hfallback hrep
        rw [hk]
        exact hk1
    refine ⟨r, ?_, hr, ?_, fun _ _ => ⟨?_, hcover⟩⟩
    · rw [ComputePacks64_eq maxLen packSizes orderSize hpos hsz (hlen hvalid.1) hmax]
      exact hr
    · rintro (h | h)
      · exact absurd h hvalid.1
      · omega
    · intro hnil
      rw [hnil] at hcover
      have hzero : shippedTotal [] = 0 := rfl
      omega
  · have hinvalid : isValidInput packSizes orderSize = false := by
      by_cases hl : packSizes = []
      · simp [isValidInput, hl]
      · have : ¬ orderSize > 0 := fun h => hvalid ⟨hl, h⟩
        simp [isValidInput, this]
    refine ⟨[], by simp [ComputePacks64, hinvalid], by simp [ComputePacks, hinvalid],
      fun _ => rfl, fun h1 h2 => ?_⟩
    exact absurd ⟨h1, h2⟩ hvalid

theorem computePacks64_never_faults_in_range_witness :
    ∃ r, ComputePacks64 (2 ^ 45) [250, 500] 251 = .ok r ∧
      ComputePacks [250, 500] 251 = .ok r ∧
      ([250, 500] = ([] : List Int) ∨ (251 : Int) ≤ 0 → r = []) ∧
      ([250, 500] ≠ ([] : List Int) → (0 : Int) < 251 → r ≠ [] ∧ 251 ≤ shippedTotal r) :=
  computePacks64_never_faults_in_range (2 ^ 45) [250, 500] 251 (by decide) (by decide)
    (fun _ => by decide) (by decide)

/-- C18: the tables of `computeRawPacks` are correct.  For an ascending list of positive
sizes with first element `s0` and every amount `t` from 0 to `orderSize`: if `t` is exactly
representable, `numPacks[t]` is the length of some exact combination and of no longer one
than any other, and for `t > 0` the recorded size is an allowed size `s ≤ t` with
`numPacks[t - s] = numPacks[t] - 1`; if `t` is not representable, `numPacks[t]` is the
placeholder `orderSize + 1` and the recorded size is `s0`. -/
theorem computeTables_correct (s0 : Int) (rest : List Int) (orderSize : Int)
    (hsorted : (s0 :: rest).Sorted (· ≤ ·)) (hpos : ∀ s ∈ s0 :: rest, 0 < s)
    (horder : 0 < orderSize) :
    ∃ tb, computeTables (s0 :: rest) orderSize = .ok tb ∧
      (tb.numPacks.length : Int) = orderSize + 1 ∧
      (tb.usedPackSizes.length : Int) = orderSize + 1 ∧
      ∀ t, 0 ≤ t → t ≤ orderSize →
        (Representable (s0 :: rest) t →
          (∃ c, IsCombination (s0 :: rest) c ∧ c.sum = t ∧
            (c.length : Int) = cell tb.numPacks t) ∧
          (∀ c, IsCombination (s0 :: rest) c → c.sum = t → cell tb.numPacks t ≤ c.length) ∧
          (0 < t → cell tb.usedPackSizes t ∈ s0 :: rest ∧ cell tb.usedPackSizes t ≤ t ∧
            cell tb.numPacks (t - cell tb.usedPackSizes t) = cell tb.numPacks t - 1)) ∧
        (¬ Representable (s0 :: rest) t →
          cell tb.numPacks t = orderSize + 1 ∧ cell tb.usedPackSizes t = s0) := by
  obtain ⟨N, hN⟩ : ∃ N : Nat, orderSize = N := ⟨orderSize.toNat, by omega⟩
  subst hN
  obtain ⟨tb, htb, hinv⟩ := computeTables_spec s0 rest N hpos hsorted
  have hs0 : s0 ∈ s0 :: rest := List.mem_cons_self _ _
  refine ⟨tb, htb, by rw [hinv.len_np]; push_cast; ring, by rw [hinv.len_used]; push_cast; ring,
    fun t h0 htN => ⟨fun hrep => ?_, fun hrep => ?_⟩⟩
  · have hflag := (hinv.representable_iff hpos hs0 t h0 htN).mp hrep
    obtain ⟨c, _, hcomb, hexact, _⟩ := walk_spec hpos hs0 hinv t.toNat t [] h0 htN (by omega)
    refine ⟨⟨c, hcomb, (hexact hflag).1, (hexact hflag).2⟩,
      fun d hd hsum => hinv.le_combination hpos d hd t hsum htN, fun htpos => ?_⟩
    rcases (hinv.done t (by omega) (by omega)).shape with ⟨hP, _⟩ | ⟨_, hmem, hle, hrec⟩
    · exact absurd hP hflag
    · exact ⟨hmem, hle, by omega⟩
  · have hP : cell tb.numPacks t = N + 1 := by
      by_contra hne
      exact hrep ((hinv.representable_iff hpos hs0 t h0 htN).mpr hne)
    refine ⟨hP, ?_⟩
    have htpos : 1 ≤ t := by
      by_contra hcon
      have ht0 : t = 0 := by omega
      rw [ht0, hinv.zero] at hP
      omega
    rcases (hinv.done t htpos (by omega)).shape with ⟨_, hu⟩ | ⟨hle, _, _, _⟩
    · exact hu
    · omega

theorem computeTables_correct_witness :
    ∃ tb, computeTables [23, 31, 53] 100 = .ok tb ∧
      (tb.numPacks.length : Int) = 100 + 1 ∧
      (tb.usedPackSizes.length : Int) = 100 + 1 ∧
      ∀ t, 0 ≤ t → t ≤ 100 →
        (Representable [23, 31, 53] t →
          (∃ c, IsCombination [23, 31, 53] c ∧ c.sum = t ∧
            (c.length : Int) = cell tb.numPacks t) ∧
          (∀ c, IsCombination [23, 31, 53] c → c.sum = t → cell tb.numPacks t ≤ c.length) ∧
          (0 < t → cell tb.usedPackSizes t ∈ [23, 31, 53] ∧ cell tb.usedPackSizes t ≤ t ∧
            cell tb.numPacks (t - cell tb.usedPackSizes t) = cell tb.numPacks t - 1)) ∧
        (¬ Representable [23, 31, 53] t →
          cell tb.numPacks t = 100 + 1 ∧ cell tb.usedPackSizes t = 23) :=
  computeTables_correct 23 [31, 53] 100 (by decide) (by decide) (by decide)

/-- C19: the early exit is correctness-preserving: on an ascending list of sizes the loops
with `break` on the first too-large size and the loops that skip a too-large size and go
on scanning compute the same two tables and the same raw pack list; on a non-empty list of
positive sizes and an order size above zero both finish without fault. -/
theorem earlyExit_preserves_result (packSizes : List Int) (orderSize : Int)
    (hsorted : packSizes.Sorted (· ≤ ·)) :
    computeTables packSizes orderSize = computeTablesSkipping packSizes orderSize ∧
      computeRawPacks packSizes orderSize = computeRawPacksSkipping packSizes orderSize ∧
      (packSizes ≠ [] → (∀ s ∈ packSizes, 0 < s) → 0 < orderSize →
        ∃ tb raw, computeTablesSkipping packSizes orderSize = .ok tb ∧
          computeRawPacksSkipping packSizes orderSize = .ok raw) := by
  have htables := computeTables_eq_skipping packSizes hsorted orderSize
  have hraw : computeRawPacks packSizes orderSize =
      computeRawPacksSkipping packSizes orderSize := by
    rw [computeRawPacks_eq_tables, htables]
    rfl
  refine ⟨htables, hraw, fun hne hpos horder => ?_⟩
  cases packSizes with
  | nil => exact absurd rfl hne
  | cons s0 rest =>
    obtain ⟨N, hN⟩ : ∃ N : Nat, orderSize = N := ⟨orderSize.toNat, by omega⟩
    subst hN
    obtain ⟨tb, htb, _⟩ := computeTables_spec s0 rest N hpos hsorted
    obtain ⟨raw, hr, _⟩ := computeRawPacks_spec s0 rest N hpos hsorted horder
    exact ⟨tb, raw, htables ▸ htb, hraw ▸ hr⟩

theorem earlyExit_preserves_result_witness :
    computeTables [250, 500, 1000] 1200 = computeTablesSkipping [250, 500, 1000] 1200 ∧
      computeRawPacks [250, 500, 1000] 1200 = computeRawPacksSkipping [250, 500, 1000] 1200 ∧
      ([250, 500, 1000] ≠ ([] : List Int) → (∀ s ∈ [250, 500, 1000], (0 : Int) < s) →
        (0 : Int) < 1200 →
        ∃ tb raw, computeTablesSkipping [250, 500, 1000] 1200 = .ok tb ∧
          computeRawPacksSkipping [250, 500, 1000] 1200 = .ok raw) :=
  earlyExit_preserves_result [250, 500, 1000] 1200 (by decide)

/-- C20: when the smallest pack size `s0` divides every pack size, `ComputePacks` ships
`ceil(orderSize / s0) * s0`, which covers the order and is the smallest total at or above
the order size that any combination of allowed packs reaches. -/
theorem computePacks_minimal_excess_of_dvd (packSizes : List Int) (orderSize s0 : Int)
    (hne : packSizes ≠ []) (hpos : ∀ s ∈ packSizes, 0 < s) (horder : 0 < orderSize)
    (hs0 : s0 ∈ packSizes) (hmin : ∀ x ∈ packSizes, s0 ≤ x) (hdiv : ∀ x ∈ packSizes, s0 ∣ x) :
    ∃ r, ComputePacks packSizes orderSize = .ok r ∧
      shippedTotal r = (orderSize + s0 - 1) / s0 * s0 ∧
      orderSize ≤ shippedTotal r ∧
      (∀ p ∈ r, p.Size ∈ packSizes ∧ 0 < p.Quantity) ∧
      ∀ c, IsCombination packSizes c → orderSize ≤ c.sum → shippedTotal r ≤ c.sum := by
  obtain ⟨r, m, hr, hm, hmmin, hwf, _, hexact, hfallback⟩ :=
    ComputePacks_spec packSizes orderSize hne hpos horder
  have hms : m = s0 := le_antisymm (hmmin s0 hs0) (hmin m hm)
  subst hms
  have hmpos := hpos m hm
  have hshape : ∃ k : Nat, shippedTotal r = k * m ∧ orderSize ≤ k * m ∧
      (k : Int) * m < orderSize + m := by
    by_cases hrep : Representable packSizes orderSize
    · obtain ⟨c, hc, hsum⟩ := hrep
      obtain ⟨j, hj⟩ := dvd_combination_sum m packSizes c hdiv hc
      have hjpos : 0 < j := by
        by_contra hcon
        have : m * j ≤ 0 := mul_nonpos_of_nonneg_of_nonpos (le_of_lt hmpos) (by omega)
        omega
      refine ⟨j.toNat, ?_, ?_, ?_⟩
      · rw [(hexact ⟨c, hc, hsum⟩).1, Int.toNat_of_nonneg (le_of_lt hjpos), ← hsum, hj]
        ring
      · rw [Int.toNat_of_nonneg (le_of_lt hjpos), ← hsum, hj]
        exact le_of_eq (by ring)
      · rw [Int.toNat_of_nonneg (le_of_lt hjpos), ← hsum, hj]
        have : j * m = m * j := by ring
        omega
    · obtain ⟨k, hk, hk1, hk2, _⟩ := hfallback hrep
      exact ⟨k, hk, hk1, hk2⟩
  obtain ⟨k, hk, hk1, hk2⟩ := hshape
  refine ⟨r, hr, ?_, by rw [hk]; exact hk1, hwf, fun c hc hcover => ?_⟩
  · rw [hk, ceil_mul_eq m orderSize k hmpos hk1 hk2]
  · rw [hk]
    exact mul_le_of_dvd_of_covering m orderSize c.sum k hmpos hk2
      (dvd_combination_sum m packSizes c hdiv hc) hcover

theorem computePacks_minimal_excess_of_dvd_witness :
    ∃ r, ComputePacks [250, 500, 1000, 2000, 5000] 12001 = .ok r ∧
      shippedTotal r = 12250 ∧
      (12001 : Int) ≤ shippedTotal r ∧
      (∀ p ∈ r, p.Size ∈ [250, 500, 1000, 2000, 5000] ∧ 0 < p.Quantity) ∧
      ∀ c, IsCombination [250, 500, 1000, 2000, 5000] c → 12001 ≤ c.sum →
        shippedTotal r ≤ c.sum := by
  obtain ⟨r, h1, h2, h3, h4, h5⟩ :=
    computePacks_minimal_excess_of_dvd [250, 500, 1000, 2000, 5000] 12001 250
      (by decide) (by decide) (by decide) (by decide) (by decide) (by decide)
  exact ⟨r, h1, by rw [h2]; norm_num, h3, h4, h5⟩

/-- C13: the result does not depend on the order in which a map is visited.  For a
target size and an assignment with distinct keys, visiting the entries in any order `es`
gives the assignment that `mergeToPackSize` gives; and whatever orders the `range` loops
of a run of `ComputePacks` pick, the run returns a reordering of the entries that the
fixed-order `ComputePacks` returns, so two runs on the same input return the same set of
entries.  The fixed-order result is itself one of the runs. -/
theorem mergeToPackSize_order_independent (packSize : Int) (quantityByPack : QuantityByPack)
    (es : List (Int × Int)) (hnd : (keys quantityByPack).Nodup)
    (hvisit : es.Perm quantityByPack) :
    mergeEntries packSize es quantityByPack = mergeToPackSize packSize quantityByPack ∧
      (∀ (packSizes : List Int) (orderSize : Int) (out1 out2 : List Pack),
        ComputePacksRun packSizes orderSize out1 → ComputePacksRun packSizes orderSize out2 →
          out1.Perm out2 ∧ ∃ r, ComputePacks packSizes orderSize = .ok r ∧ out1.Perm r) ∧
      (∀ (packSizes : List Int) (orderSize : Int) (r : List Pack),
        ComputePacks packSizes orderSize = .ok r → ComputePacksRun packSizes orderSize r) := by
  refine ⟨mergeEntries_perm packSize quantityByPack es hnd hvisit, ?_,
    fun packSizes orderSize r h => computePacksRun_of_eq h⟩
  intro packSizes orderSize out1 out2 h1 h2
  obtain ⟨r1, hr1, hp1⟩ := computePacksRun_perm h1
  obtain ⟨r2, hr2, hp2⟩ := computePacksRun_perm h2
  have hr : r1 = r2 := by
    rw [hr1] at hr2
    injection hr2
  subst hr
  exact ⟨hp1.trans hp2.symm, r1, hr1, hp1⟩

theorem mergeToPackSize_order_independent_witness :
    mergeEntries 500 [(500, 1), (250, 3)] [(250, 3), (500, 1)] =
        mergeToPackSize 500 [(250, 3), (500, 1)] ∧
      (∀ (packSizes : List Int) (orderSize : Int) (out1 out2 : List Pack),
        ComputePacksRun packSizes orderSize out1 → ComputePacksRun packSizes orderSize out2 →
          out1.Perm out2 ∧ ∃ r, ComputePacks packSizes orderSize = .ok r ∧ out1.Perm r) ∧
      (∀ (packSizes : List Int) (orderSize : Int) (r : List Pack),
        ComputePacks packSizes orderSize = .ok r → ComputePacksRun packSizes orderSize r) :=
  mergeToPackSize_order_independent 500 [(250, 3), (500, 1)] [(500, 1), (250, 3)]
    (by decide) (by decide)

/-- C14: `SizesValid` returns `true` exactly for a slice with at least one element all of
whose elements are above zero; it returns `false` for the nil slice, for the empty slice
and for every slice holding a size that is zero or negative. -/
theorem sizesValid_iff (packSizes : IntSlice) :
    (SizesValid packSizes = true ↔
        sliceElems packSizes ≠ [] ∧ ∀ x ∈ sliceElems packSizes, 0 < x) ∧
      SizesValid none = false ∧ SizesValid (some []) = false ∧
      ∀ (l : List Int) (x : Int), x ∈ l → x ≤ 0 → SizesValid (some l) = false := by
  refine ⟨?_, rfl, rfl, fun l x hx hle => ?_⟩
  · cases packSizes with
    | none => simp [SizesValid, sliceElems]
    | some l => exact SizesValid_some l
  · cases hv : SizesValid (some l) with
    | false => rfl
    | true =>
      have := ((SizesValid_some l).mp hv).2 x hx
      omega

/-- C15 at its failing input: `EqualSlice` answers `true` for two slices that are not
reorderings of each other, because a repeated entry of the first slice is matched twice
against one entry of the second. -/
theorem equalSlice_accepts_unequal :
    EqualSlice [{ Size := 1, Quantity := 1 }, { Size := 1, Quantity := 1 }]
        [{ Size := 1, Quantity := 1 }, { Size := 2, Quantity := 2 }] = true ∧
      ¬ List.Perm [({ Size := 1, Quantity := 1 } : Pack), { Size := 1, Quantity := 1 }]
        [{ Size := 1, Quantity := 1 }, { Size := 2, Quantity := 2 }] := by
  refine ⟨rfl, ?_⟩
  decide

/-- C16: `RemoveDuplicateSizes` returns a slice in which no value occurs twice and whose
values are those of its argument, in whatever order the keys of the set are visited; on
`[250, 250, 500, 500, 1000]` the sorted result is `[250, 500, 1000]`. -/
theorem removeDuplicateSizes_spec (packSizes : IntSlice) :
    (∀ out : List Int, out.Perm (sliceElems (RemoveDuplicateSizes packSizes)) →
        out.Nodup ∧ ∀ x, x ∈ out ↔ x ∈ sliceElems packSizes) ∧
      cloneAndSort (sliceElems (RemoveDuplicateSizes (some [250, 250, 500, 500, 1000]))) =
        [250, 500, 1000] := by
  obtain ⟨hnd, hmem⟩ := sliceElems_RemoveDuplicateSizes packSizes
  refine ⟨fun out hperm => ⟨hperm.nodup_iff.mpr hnd, fun x => ?_⟩, by decide⟩
  rw [hperm.mem_iff]
  exact hmem x

/-- C17: the set-config handler persists valid configurations only.  Every configuration
it passes to `SetConfig` comes from a decoded request whose sizes `SizesValid` accepts, is
`RemoveDuplicateSizes` of those sizes, and is non-empty, all above zero and free of
duplicates; an accepted request makes exactly that one call; a decoded request whose sizes
`SizesValid` rejects makes no call and is answered 400 with the code `invalid_pack_sizes`. -/
theorem handleSetConfig_persists_valid (decoded : Option Config)
    (setConfigFails : RepositoryConfig → Bool) :
    (∀ rc ∈ (handleSetConfig decoded setConfigFails).setConfigCalls,
        ∃ cfg, decoded = some cfg ∧ SizesValid cfg.PackSizes = true ∧
          rc.PackSizes = RemoveDuplicateSizes cfg.PackSizes ∧
          sliceElems rc.PackSizes ≠ [] ∧ (∀ x ∈ sliceElems rc.PackSizes, 0 < x) ∧
          (sliceElems rc.PackSizes).Nodup ∧ SizesValid rc.PackSizes = true) ∧
      (∀ cfg, decoded = some cfg → SizesValid cfg.PackSizes = true →
        (handleSetConfig decoded setConfigFails).setConfigCalls =
          [{ PackSizes := RemoveDuplicateSizes cfg.PackSizes }]) ∧
      (∀ cfg, decoded = some cfg → SizesValid cfg.PackSizes = false →
        (handleSetConfig decoded setConfigFails).setConfigCalls = [] ∧
          (handleSetConfig decoded setConfigFails).response =
            { status := 400, body := .error errRespInvalidPackSizes } ∧
          errRespInvalidPackSizes.Code = "invalid_pack_sizes") := by
  have hcalls : ∀ cfg, SizesValid cfg.PackSizes = true →
      (handleSetConfig (some cfg) setConfigFails).setConfigCalls =
        [{ PackSizes := RemoveDuplicateSizes cfg.PackSizes }] := by
    intro cfg hv
    simp only [handleSetConfig, hv, saveConfig]
    cases setConfigFails { PackSizes := RemoveDuplicateSizes cfg.PackSizes } <;> rfl
  refine ⟨?_, fun cfg hd hv => hd ▸ hcalls cfg hv, fun cfg hd hv => ?_⟩
  · intro rc hrc
    cases decoded with
    | none => simp [handleSetConfig] at hrc
    | some cfg =>
      cases hv : SizesValid cfg.PackSizes with
      | false => simp [handleSetConfig, hv] at hrc
      | true =>
        rw [hcalls cfg hv, List.mem_singleton] at hrc
        subst hrc
        obtain ⟨hnd, hmem⟩ := sliceElems_RemoveDuplicateSizes cfg.PackSizes
        obtain ⟨hne, hpos⟩ := (sizesValid_elems cfg.PackSizes).mp hv
        have hne' : sliceElems (RemoveDuplicateSizes cfg.PackSizes) ≠ [] := by
          obtain ⟨x, hx⟩ := List.exists_mem_of_ne_nil _ hne
          exact List.ne_nil_of_mem ((hmem x).mpr hx)
        have hpos' : ∀ x ∈ sliceElems (RemoveDuplicateSizes cfg.PackSizes), 0 < x :=
          fun x hx => hpos x ((hmem x).mp hx)
        exact ⟨cfg, rfl, hv, rfl, hne', hpos', hnd,
          (sizesValid_elems _).mpr ⟨hne', hpos'⟩⟩
  · subst hd
    simp only [handleSetConfig, hv]
    exact ⟨rfl, rfl, rfl⟩

end Packer
